import Mathlib

/-!
Verification development for the bibip flat-file car service
(src/src/bibip_car_service.py).

The six persisted files (three data files, three index files) are modelled as
raw character lists (`List Char`).  Data records are fixed-width slots of
`RECORD_LENGTH = 500` payload characters followed by one newline terminator
(`LINE_RECORD_LENGTH = 501` characters per slot).  Service operations are
modelled as pure state-passing functions; a Python `raise` becomes an
`Except.error` carrying a constructor that identifies the raise site, and
functions that mutate files before raising return the mutated file contents
alongside the error.
-/

set_option maxRecDepth 20000

namespace Bibip

/-- Python str.strip() whitespace predicate, restricted to the ASCII
whitespace characters that can occur in these files. -/
def isPySpace (c : Char) : Bool :=
  c = ' ' || c = '\t' || c = '\n' || c = '\r' || c = '\x0b' || c = '\x0c'

/-- Remove trailing Python whitespace (the right half of str.strip()). -/
def dropTrailing (l : List Char) : List Char :=
  (l.reverse.dropWhile isPySpace).reverse

/-- Python str.strip(): drop leading and trailing whitespace. -/
def stripChars (l : List Char) : List Char :=
  dropTrailing (l.dropWhile isPySpace)

/-- Python str.ljust(w): pad on the right with spaces up to width w. -/
def ljust (w : Nat) (l : List Char) : List Char :=
  l ++ List.replicate (w - l.length) ' '

/-- Python str.split(sep) for a single-character separator: the list of
(possibly empty) fields between occurrences of the separator.  Like the
Python function it never returns an empty list of fields. -/
def splitOnC (sep : Char) : List Char → List (List Char)
  | [] => [[]]
  | c :: rest =>
    if c = sep then [] :: splitOnC sep rest
    else
      match splitOnC sep rest with
      | [] => [[c]]
      | p :: ps => (c :: p) :: ps

/-- Python sep.join(fields) for a single-character separator. -/
def joinC (sep : Char) : List (List Char) → List Char
  | [] => []
  | [f] => f
  | f :: fs => f ++ sep :: joinC sep fs

/-- Python file-line iteration: split a file into lines, each keeping its
trailing newline (the final line may lack one); an empty file has no lines. -/
def splitKeep : List Char → List (List Char)
  | [] => []
  | c :: rest =>
    if c = '\n' then ['\n'] :: splitKeep rest
    else
      match splitKeep rest with
      | [] => [[c]]
      | l :: ls => (c :: l) :: ls

/-- Convenience: the character data of a string literal. -/
def toChars (s : String) : List Char := s.data

/-- Decimal digit value of a character, if it is a digit. -/
def charToDigit (c : Char) : Option Nat :=
  if '0' ≤ c ∧ c ≤ '9' then some (c.toNat - 48) else none

/-- Big-endian decimal digits of n, with explicit fuel so that the kernel can
evaluate the definition. -/
def natToCharsAux : Nat → Nat → List Char
  | 0, _ => []
  | _ + 1, 0 => []
  | fuel + 1, n + 1 =>
    natToCharsAux fuel ((n + 1) / 10) ++ [Nat.digitChar ((n + 1) % 10)]

/-- Python str(n) for a natural number. -/
def natToChars (n : Nat) : List Char :=
  if n = 0 then ['0'] else natToCharsAux n n

/-- Accumulating decimal parser over a digit string. -/
def parseNatAux : List Char → Nat → Option Nat
  | [], acc => some acc
  | c :: cs, acc =>
    match charToDigit c with
    | none => none
    | some d => parseNatAux cs (10 * acc + d)

/-- Parse a nonempty all-digit string as a natural number. -/
def parseNatDigits (l : List Char) : Option Nat :=
  match l with
  | [] => none
  | _ => parseNatAux l 0

/-- Python str(n) for an integer. -/
def intToChars (n : Int) : List Char :=
  if n < 0 then '-' :: natToChars n.natAbs else natToChars n.natAbs

/-- Parse a canonical integer numeral (model of Python int(s) on the strings
str() produces). -/
def parseInt (l : List Char) : Option Int :=
  match l with
  | [] => none
  | c :: rest =>
    if c = '-' then (parseNatDigits rest).map (fun n => -(Int.ofNat n))
    else (parseNatDigits (c :: rest)).map Int.ofNat

/-- Left-pad a decimal numeral with zeros to at least k characters
(Python format specifier 0kd, as used by datetime.isoformat). -/
def padNum (k n : Nat) : List Char :=
  List.replicate (k - (natToChars n).length) '0' ++ natToChars n

/-- Modelled from the spec: timestamps are stored in an unambiguous
lexicographically-sortable date-time text form; the source uses
datetime.isoformat() / datetime.fromisoformat().  The model keeps the six
calendar components; isoformat output without fractional seconds is
YYYY-MM-DDTHH:MM:SS. -/
structure PyDateTime where
  year : Nat
  month : Nat
  day : Nat
  hour : Nat
  minute : Nat
  second : Nat
deriving DecidableEq

/-- Python datetime.isoformat() for a microsecond-free datetime. -/
def isoChars (dt : PyDateTime) : List Char :=
  padNum 4 dt.year ++ '-' :: (padNum 2 dt.month ++ '-' :: (padNum 2 dt.day ++
    'T' :: (padNum 2 dt.hour ++ ':' :: (padNum 2 dt.minute ++ ':' :: padNum 2 dt.second))))

/-- Model of datetime.fromisoformat on canonical isoformat strings: split the
date and time halves on the separator characters and parse the six decimal
components. -/
def fromIsoChars (l : List Char) : Option PyDateTime :=
  match splitOnC 'T' l with
  | [d, t] =>
    match splitOnC '-' d, splitOnC ':' t with
    | [ys, ms, ds2], [hs, ns, ss] =>
      match parseNatDigits ys, parseNatDigits ms, parseNatDigits ds2,
            parseNatDigits hs, parseNatDigits ns, parseNatDigits ss with
      | some y, some mo, some da, some h, some mi, some s =>
        some ⟨y, mo, da, h, mi, s⟩
      | _, _, _, _, _, _ => none
    | _, _ => none
  | _ => none

/-- Modelled from the spec: Model.price is an optional decimal; the source
stores it as a Python float via f-string formatting and parses it back with
float().  The model represents the decimal literal a float prints as:
mantissa and number of fractional digits.  Python float repr always carries
at least one fractional digit (scale at least 1). -/
structure PyFloat where
  mantissa : Int
  scale : Nat
deriving DecidableEq

/-- Python str(f) for a float, printing the decimal literal. -/
def floatChars (f : PyFloat) : List Char :=
  let ds := padNum (f.scale + 1) f.mantissa.natAbs
  let body := ds.take (ds.length - f.scale) ++ '.' :: ds.drop (ds.length - f.scale)
  if f.mantissa < 0 then '-' :: body else body

/-- Model of Python float(s) on canonical decimal-literal strings. -/
def parseFloat (l : List Char) : Option PyFloat :=
  match l with
  | [] => none
  | c :: rest =>
    if c = '-' then
      match splitOnC '.' rest with
      | [a, b] => (parseNatDigits (a ++ b)).map (fun n => ⟨-(Int.ofNat n), b.length⟩)
      | _ => none
    else
      match splitOnC '.' (c :: rest) with
      | [a, b] => (parseNatDigits (a ++ b)).map (fun n => ⟨Int.ofNat n, b.length⟩)
      | _ => none

/-- Modelled from the spec: the closed status enumeration of a Car, with
available and sold as the two values the core logic depends on plus the
reserved member listed in the data model. -/
inductive CarStatus
  | available
  | reserved
  | sold
deriving DecidableEq

/-- Canonical string label of a status (its .value attribute). -/
def CarStatus.value : CarStatus → List Char
  | .available => toChars "available"
  | .reserved => toChars "reserved"
  | .sold => toChars "sold"

/-- Model of the CarStatus enum constructor applied to a string label. -/
def CarStatus.ofValue (l : List Char) : Option CarStatus :=
  if l = toChars "available" then some .available
  else if l = toChars "reserved" then some .reserved
  else if l = toChars "sold" then some .sold
  else none

/-- Modelled from the spec: monetary values are stored as base-10 decimal
text; the source uses decimal.Decimal.  The model covers the integral
decimals the service scenarios exercise (str and Decimal() are exact mutual
inverses on them). -/
abbrev PyDecimal := Int

/-- Modelled from the spec: Car has identifier vin (string), a model foreign
key, a decimal price, a start timestamp and a status. -/
structure Car where
  vin : List Char
  model : Int
  price : PyDecimal
  date_start : PyDateTime
  status : CarStatus
deriving DecidableEq

/-- Modelled from the spec: Model has an integer id, name and brand strings,
and optional production_start_year / price attributes that may be absent. -/
structure Model where
  id : Int
  name : List Char
  brand : List Char
  production_start_year : Option Int
  price : Option PyFloat
deriving DecidableEq

/-- Modelled from the spec: Sale has identifier sales_number (string), a
car_vin foreign key, a sale timestamp and a decimal cost. -/
structure Sale where
  sales_number : List Char
  car_vin : List Char
  sales_date : PyDateTime
  cost : PyDecimal
deriving DecidableEq

/-- Modelled from the spec: the aggregate (name, brand, sales_count) returned
by top_models_by_sales. -/
structure ModelSaleStats where
  car_model_name : List Char
  brand : List Char
  sales_count : Nat
deriving DecidableEq

/-- RECORD_LENGTH from the source. -/
def RECORD_LENGTH : Nat := 500

/-- LINE_RECORD_LENGTH from the source. -/
def LINE_RECORD_LENGTH : Nat := 501

/-- Field list of the f-string in _car_to_string. -/
def carFields (c : Car) : List (List Char) :=
  [c.vin, intToChars c.model, intToChars c.price, isoChars c.date_start, c.status.value]

/-- Source _car_to_string: join the fields with the delimiter and pad to the
record width. -/
def car_to_string (c : Car) : List Char :=
  ljust RECORD_LENGTH (joinC '|' (carFields c))

/-- Source _string_to_car: strip, split on the delimiter, require exactly five
fields and parse each scalar field; any failure is a ValueError (none). -/
def string_to_car (l : List Char) : Option Car :=
  match splitOnC '|' (stripChars l) with
  | [p0, p1, p2, p3, p4] =>
    match parseInt p1, parseInt p2, fromIsoChars p3, CarStatus.ofValue p4 with
    | some m, some pr, some dt, some st => some ⟨p0, m, pr, dt, st⟩
    | _, _, _, _ => none
  | _ => none

/-- Field list of the f-string in _model_to_string; absent optional
attributes print as the empty string. -/
def modelFields (m : Model) : List (List Char) :=
  [intToChars m.id, m.name, m.brand,
   (m.production_start_year.map intToChars).getD [],
   (m.price.map floatChars).getD []]

/-- Source _model_to_string. -/
def model_to_string (m : Model) : List Char :=
  ljust RECORD_LENGTH (joinC '|' (modelFields m))

/-- Source _string_to_model: at least three fields are required; the two
optional trailing fields are parsed only when present and nonempty, and their
parse failures are swallowed (attribute left unset). -/
def string_to_model (l : List Char) : Option Model :=
  let parts := splitOnC '|' (stripChars l)
  if parts.length < 3 then none
  else
    match parseInt (parts.getD 0 []) with
    | none => none
    | some mid =>
      let py := if 3 < parts.length ∧ parts.getD 3 [] ≠ [] then
          parseInt (parts.getD 3 []) else none
      let pr := if 4 < parts.length ∧ parts.getD 4 [] ≠ [] then
          parseFloat (parts.getD 4 []) else none
      some ⟨mid, parts.getD 1 [], parts.getD 2 [], py, pr⟩

/-- Field list of the f-string in _sale_to_string. -/
def saleFields (s : Sale) : List (List Char) :=
  [s.sales_number, s.car_vin, isoChars s.sales_date, intToChars s.cost]

/-- Source _sale_to_string. -/
def sale_to_string (s : Sale) : List Char :=
  ljust RECORD_LENGTH (joinC '|' (saleFields s))

/-- Source _string_to_sale: strip, split, require exactly four fields, parse
the date and cost. -/
def string_to_sale (l : List Char) : Option Sale :=
  match splitOnC '|' (stripChars l) with
  | [p0, p1, p2, p3] =>
    match fromIsoChars p2, parseInt p3 with
    | some dt, some co => some ⟨p0, p1, dt, co⟩
    | _, _ => none
  | _ => none

/-- Well-formedness of a string identifier used as an index key and first /
middle record field: no delimiter, no newline, no leading whitespace. -/
def WfKey (k : List Char) : Prop :=
  '|' ∉ k ∧ '\n' ∉ k ∧ k.dropWhile isPySpace = k

/-- Valid Car entities: well-formed vin and an encoding that fits the record
width. -/
def Car.Valid (c : Car) : Prop :=
  WfKey c.vin ∧ (joinC '|' (carFields c)).length ≤ RECORD_LENGTH

/-- Valid Sale entities. -/
def Sale.Valid (s : Sale) : Prop :=
  WfKey s.sales_number ∧ '|' ∉ s.car_vin ∧ '\n' ∉ s.car_vin ∧
  (joinC '|' (saleFields s)).length ≤ RECORD_LENGTH

/-- Valid Model entities; the price scale bound records that Python float
repr always prints at least one fractional digit. -/
def Model.Valid (m : Model) : Prop :=
  '|' ∉ m.name ∧ '\n' ∉ m.name ∧ '|' ∉ m.brand ∧ '\n' ∉ m.brand ∧
  m.price.all (fun f => decide (1 ≤ f.scale)) = true ∧
  (joinC '|' (modelFields m)).length ≤ RECORD_LENGTH

instance wfKeyDecidable (k : List Char) : Decidable (WfKey k) := by
  unfold WfKey
  infer_instance

instance carValidDecidable (c : Car) : Decidable c.Valid := by
  unfold Car.Valid
  infer_instance

instance saleValidDecidable (s : Sale) : Decidable s.Valid := by
  unfold Sale.Valid
  infer_instance

instance modelValidDecidable (m : Model) : Decidable m.Valid := by
  unfold Model.Valid
  infer_instance

/-! ### File primitives, errors, and the index store -/

/-- Positional read: seek(pos) followed by read(len). -/
def readAt (file : List Char) (pos len : Nat) : List Char :=
  (file.drop pos).take len

/-- Positional overwrite on a file opened r+: seek(pos) followed by
write(data). -/
def writeAt (file : List Char) (pos : Nat) (data : List Char) : List Char :=
  file.take pos ++ data ++ file.drop (pos + data.length)

/-- Python exceptions raised by the service; one constructor per raise site
or caught exception kind (in the source they are all ValueError or
IndexError instances distinguished by message). -/
inductive PyErr
  | carNotFound (vin : List Char)
  | carAlreadySold (vin : List Char)
  | carExists (vin : List Char)
  | entityNotFoundForUpdate (id : List Char)
  | recordTooLarge (id : List Char)
  | carNotFoundForStatus (vin : List Char)
  | malformedCar (s : List Char)
  | malformedModel (s : List Char)
  | malformedSale (s : List Char)
  | saleNotFound (n : List Char)
  | linkedCarNotFound (vin : List Char)
  | noVinInSale
  | indexError
  | badIndexValue (s : List Char)
  | seekError
deriving DecidableEq

/-- Loop body of _find_line_number_in_index over the file's lines. -/
def findLineNumAux : List (List Char) → List Char → Except PyErr (Option Int)
  | [], _ => .ok none
  | line :: rest, entityId =>
    let parts := splitOnC '|' (stripChars line)
    if parts.headD [] = entityId then
      match parts[1]? with
      | none => .error .indexError
      | some v =>
        match parseInt v with
        | none => .error (.badIndexValue v)
        | some n => .ok (some n)
    else findLineNumAux rest entityId

/-- Source _find_line_number_in_index: scan the index file line by line and
return the record index of the first entry whose identifier matches. -/
def find_line_number_in_index (idx : List Char) (entityId : List Char) :
    Except PyErr (Option Int) :=
  findLineNumAux (splitKeep idx) entityId

/-- Index entries as _update_index and _remove_from_index load them:
line.strip().split(the delimiter) for every line with nonblank strip. -/
def parseIndexLines (content : List Char) : List (List (List Char)) :=
  ((splitKeep content).filter (fun l => !(stripChars l).isEmpty)).map
    (fun l => splitOnC '|' (stripChars l))

/-- Stable insertion of x after every element le-below-or-equal to it. -/
def insertBy {α : Type} (le : α → α → Bool) (x : α) : List α → List α
  | [] => [x]
  | y :: ys => if le y x then y :: insertBy le x ys else x :: y :: ys

/-- Stable sort (model of Python list.sort, which is stable). -/
def sortBy {α : Type} (le : α → α → Bool) (l : List α) : List α :=
  l.foldl (fun acc x => insertBy le x acc) []

/-- Python string comparison: lexicographic on code points. -/
def charsLe : List Char → List Char → Bool
  | [], _ => true
  | _ :: _, [] => false
  | a :: as, b :: bs => if a = b then charsLe as bs else decide (a < b)

/-- Sort key of _update_index and _remove_from_index: the first component of
the split line. -/
def entryLe (e1 e2 : List (List Char)) : Bool :=
  charsLe (e1.headD []) (e2.headD [])

/-- Write one loaded index entry back as an identifier-delimiter-value line;
an entry with fewer than two components raises IndexError, as the f-string
in the source would. -/
def printIndexEntry (e : List (List Char)) : Except PyErr (List Char) :=
  match e[1]? with
  | none => .error .indexError
  | some v => .ok (e.headD [] ++ '|' :: v ++ ['\n'])

/-- Effectful map over a list, stopping at the first error. -/
def mapMExcept {α β : Type} (f : α → Except PyErr β) : List α → Except PyErr (List β)
  | [] => .ok []
  | x :: xs =>
    match f x with
    | .error e => .error e
    | .ok y =>
      match mapMExcept f xs with
      | .error e => .error e
      | .ok ys => .ok (y :: ys)

/-- Source _update_index: load all entries, drop any with the same
identifier, append the new entry, sort by identifier, rewrite the file.
A crash while printing a malformed entry would leave a partially written
file; every claim is stated on well-formed indexes, where printing cannot
fail, so the pre-crash content is not modelled. -/
def update_index (idx : List Char) (entityId : List Char) (lineNumber : Int) :
    Except PyErr (List Char) :=
  match mapMExcept printIndexEntry
      (sortBy entryLe
        ((parseIndexLines idx).filter (fun e => e.headD [] ≠ entityId) ++
          [[entityId, intToChars lineNumber]])) with
  | .error e => .error e
  | .ok printed => .ok printed.flatten

/-- Source _remove_from_index: load, drop the matching identifier, sort,
rewrite. -/
def remove_from_index (idx : List Char) (entityId : List Char) :
    Except PyErr (List Char) :=
  match mapMExcept printIndexEntry
      (sortBy entryLe
        ((parseIndexLines idx).filter (fun e => e.headD [] ≠ entityId))) with
  | .error e => .error e
  | .ok printed => .ok printed.flatten

/-- Source _write_record_and_update_index: the new record index is the data
file's byte size divided by the slot width; the padded record plus
terminator is appended, then the index is upserted.  The appended file is
returned alongside the index-update result, because the append happens even
when the index rewrite fails. -/
def write_record_and_update_index (file idx : List Char) (entityId data : List Char) :
    List Char × Except PyErr (List Char) :=
  (file ++ ljust RECORD_LENGTH data ++ ['\n'],
   update_index idx entityId (Int.ofNat (file.length / LINE_RECORD_LENGTH)))

/-- Abstract view of one index entry: identifier and record index. -/
abbrev IdxEntry := List Char × Nat

/-- Serialize abstract index entries to index-file bytes. -/
def reifyIdx (es : List IdxEntry) : List Char :=
  (es.map (fun e => e.1 ++ '|' :: natToChars e.2 ++ ['\n'])).flatten

/-- First-match lookup on abstract entries. -/
def lookupEntries (es : List IdxEntry) (k : List Char) : Option Nat :=
  (es.find? (fun e => e.1 = k)).map (fun e => e.2)

/-- Abstract key order. -/
def keyLe (a b : IdxEntry) : Bool := charsLe a.1 b.1

/-- Abstract mirror of _update_index. -/
def upsertEntries (es : List IdxEntry) (k : List Char) (n : Nat) : List IdxEntry :=
  sortBy keyLe (es.filter (fun e => e.1 ≠ k) ++ [(k, n)])

/-- Abstract mirror of _remove_from_index. -/
def removeEntries (es : List IdxEntry) (k : List Char) : List IdxEntry :=
  sortBy keyLe (es.filter (fun e => e.1 ≠ k))

/-- One index mutation of the kinds the index store supports. -/
inductive IdxOp
  | upsert (k : List Char) (n : Nat)
  | removeOp (k : List Char)
deriving DecidableEq

/-- The identifier a mutation touches. -/
def IdxOp.key : IdxOp → List Char
  | .upsert k _ => k
  | .removeOp k => k

/-- Run one mutation against the concrete index file. -/
def applyIdxOp (idx : List Char) : IdxOp → Except PyErr (List Char)
  | .upsert k n => update_index idx k (Int.ofNat n)
  | .removeOp k => remove_from_index idx k

/-- Run a sequence of mutations against the concrete index file. -/
def applyIdxOps (idx : List Char) : List IdxOp → Except PyErr (List Char)
  | [] => .ok idx
  | op :: ops =>
    match applyIdxOp idx op with
    | .error e => .error e
    | .ok idx2 => applyIdxOps idx2 ops

/-- Abstract mirror of one mutation. -/
def absApplyOp (es : List IdxEntry) : IdxOp → List IdxEntry
  | .upsert k n => upsertEntries es k n
  | .removeOp k => removeEntries es k

/-! ### Data-file slots and the service operations -/

/-- Bytes of one car slot: the padded record plus terminator, or a blank
tombstone line. -/
def carSlotChars : Option Car → List Char
  | some c => car_to_string c ++ ['\n']
  | none => List.replicate RECORD_LENGTH ' ' ++ ['\n']

/-- Serialize car slots to the cars data file. -/
def reifyCars (slots : List (Option Car)) : List Char :=
  (slots.map carSlotChars).flatten

/-- Bytes of one sale slot. -/
def saleSlotChars : Option Sale → List Char
  | some s => sale_to_string s ++ ['\n']
  | none => List.replicate RECORD_LENGTH ' ' ++ ['\n']

/-- Serialize sale slots to the sales data file. -/
def reifySales (slots : List (Option Sale)) : List Char :=
  (slots.map saleSlotChars).flatten

/-- Bytes of one model slot. -/
def modelSlotChars : Option Model → List Char
  | some m => model_to_string m ++ ['\n']
  | none => List.replicate RECORD_LENGTH ' ' ++ ['\n']

/-- Serialize model slots to the models data file. -/
def reifyModels (slots : List (Option Model)) : List Char :=
  (slots.map modelSlotChars).flatten

/-- A car slot is well formed when a live record is a valid car. -/
def CarSlotOk (s : Option Car) : Prop := s.all (fun c => decide c.Valid) = true

/-- A sale slot is well formed when a live record is a valid sale. -/
def SaleSlotOk (s : Option Sale) : Prop := s.all (fun c => decide c.Valid) = true

/-- A model slot is well formed when a live record is a valid model. -/
def ModelSlotOk (s : Option Model) : Prop := s.all (fun c => decide c.Valid) = true

instance carSlotOkDecidable (s : Option Car) : Decidable (CarSlotOk s) := by
  unfold CarSlotOk
  infer_instance

instance saleSlotOkDecidable (s : Option Sale) : Decidable (SaleSlotOk s) := by
  unfold SaleSlotOk
  infer_instance

instance modelSlotOkDecidable (s : Option Model) : Decidable (ModelSlotOk s) := by
  unfold ModelSlotOk
  infer_instance

instance exceptDecEq {ε α : Type} [DecidableEq ε] [DecidableEq α] :
    DecidableEq (Except ε α) := fun a b =>
  match a, b with
  | .error e1, .error e2 =>
    if h : e1 = e2 then isTrue (h ▸ rfl) else isFalse (fun hc => h (Except.error.inj hc))
  | .ok x, .ok y =>
    if h : x = y then isTrue (h ▸ rfl) else isFalse (fun hc => h (Except.ok.inj hc))
  | .error _, .ok _ => isFalse (fun hc => Except.noConfusion hc)
  | .ok _, .error _ => isFalse (fun hc => Except.noConfusion hc)

/-- Source _get_entity_data_and_line_number: index lookup followed by a
positional read of the record slot, stripped.  The source derives the index
path from the data path; the model receives both contents.  A negative
stored index would make the seek raise (seekError). -/
def get_entity_data_and_line_number (file idx : List Char) (entityId : List Char) :
    Except PyErr (Option (List Char × Int)) :=
  match find_line_number_in_index idx entityId with
  | .error e => .error e
  | .ok none => .ok none
  | .ok (some n) =>
    if n < 0 then .error .seekError
    else .ok (some (stripChars (readAt file (n.toNat * LINE_RECORD_LENGTH) RECORD_LENGTH), n))

/-- Source _find_car_by_vin: any returned pair (a nonempty tuple, hence
truthy even when the slot content is blank) is decoded, and a decode
failure propagates out of the lookup. -/
def find_car_by_vin (cars carsIdx : List Char) (vin : List Char) :
    Except PyErr (Option Car) :=
  match get_entity_data_and_line_number cars carsIdx vin with
  | .error e => .error e
  | .ok none => .ok none
  | .ok (some (content, _)) =>
    match string_to_car content with
    | none => .error (.malformedCar content)
    | some c => .ok (some c)

/-- Source _get_car_by_vin (defined in the service but never called by it):
the lookup variant that treats blank or undecodable slot content as absent
instead of raising. -/
def get_car_by_vin (cars carsIdx : List Char) (vin : List Char) :
    Except PyErr (Option Car) :=
  match find_line_number_in_index carsIdx vin with
  | .error e => .error e
  | .ok none => .ok none
  | .ok (some n) =>
    if n < 0 then .error .seekError
    else
      match stripChars (readAt cars (n.toNat * LINE_RECORD_LENGTH) RECORD_LENGTH) with
      | [] => .ok none
      | content =>
        match string_to_car content with
        | none => .ok none
        | some c => .ok (some c)

/-- Source _get_model_by_id: like _get_car_by_vin but for models, with the
identifier printed through str(). -/
def get_model_by_id (models modelsIdx : List Char) (modelId : Int) :
    Except PyErr (Option Model) :=
  match find_line_number_in_index modelsIdx (intToChars modelId) with
  | .error e => .error e
  | .ok none => .ok none
  | .ok (some n) =>
    if n < 0 then .error .seekError
    else
      match stripChars (readAt models (n.toNat * LINE_RECORD_LENGTH) RECORD_LENGTH) with
      | [] => .ok none
      | content =>
        match string_to_model content with
        | none => .ok none
        | some m => .ok (some m)

/-- Source _update_record_in_file: locate the record through the index,
enforce the width check on the padded data, then overwrite the slot in
place. -/
def update_record_in_file (file idx : List Char) (entityId newData : List Char) :
    Except PyErr (List Char) :=
  match get_entity_data_and_line_number file idx entityId with
  | .error e => .error e
  | .ok none => .error (.entityNotFoundForUpdate entityId)
  | .ok (some (_, n)) =>
    if RECORD_LENGTH < (ljust RECORD_LENGTH newData).length then
      .error (.recordTooLarge entityId)
    else
      .ok (writeAt file (n.toNat * LINE_RECORD_LENGTH) (ljust RECORD_LENGTH newData ++ ['\n']))

/-- The six files of one store directory. -/
structure DB where
  models : List Char
  modelsIdx : List Char
  cars : List Char
  carsIdx : List Char
  sales : List Char
  salesIdx : List Char
deriving DecidableEq

/-- Source _update_car_status_or_data. -/
def update_car_status_or_data (db : DB) (car : Car) : Except PyErr (List Char) :=
  update_record_in_file db.cars db.carsIdx car.vin (car_to_string car)

/-- Source sell_car: look up the car (raising when the index slot content
does not decode), refuse already-sold cars before any write, overwrite the
car slot with status sold, then append the sale record and upsert the sales
index.  The returned DB keeps every write performed before an error. -/
def sell_car (db : DB) (sale : Sale) : DB × Except PyErr Sale :=
  match find_car_by_vin db.cars db.carsIdx sale.car_vin with
  | .error e => (db, .error e)
  | .ok none => (db, .error (.carNotFound sale.car_vin))
  | .ok (some car) =>
    if car.status = CarStatus.sold then (db, .error (.carAlreadySold sale.car_vin))
    else
      match update_car_status_or_data db { car with status := CarStatus.sold } with
      | .error e => (db, .error e)
      | .ok newCars =>
        match write_record_and_update_index db.sales db.salesIdx sale.sales_number
            (sale_to_string sale) with
        | (newSales, .error e) =>
          ({ db with cars := newCars, sales := newSales }, .error e)
        | (newSales, .ok newSalesIdx) =>
          ({ db with cars := newCars, sales := newSales, salesIdx := newSalesIdx },
           .ok sale)

/-- Source add_sale: append the sale record and upsert the sales index
first, then look the car up and flip its status to sold; when the car is
missing the error is raised after the sale writes, which are kept. -/
def add_sale (db : DB) (sale : Sale) : DB × Except PyErr Sale :=
  match write_record_and_update_index db.sales db.salesIdx sale.sales_number
      (sale_to_string sale) with
  | (newSales, .error e) => ({ db with sales := newSales }, .error e)
  | (newSales, .ok newSalesIdx) =>
    match find_car_by_vin db.cars db.carsIdx sale.car_vin with
    | .error e => ({ db with sales := newSales, salesIdx := newSalesIdx }, .error e)
    | .ok none =>
      ({ db with sales := newSales, salesIdx := newSalesIdx },
       .error (.carNotFoundForStatus sale.car_vin))
    | .ok (some car) =>
      match update_record_in_file db.cars db.carsIdx car.vin
          (car_to_string { car with status := CarStatus.sold }) with
      | .error e => ({ db with sales := newSales, salesIdx := newSalesIdx }, .error e)
      | .ok newCars =>
        ({ db with cars := newCars, sales := newSales, salesIdx := newSalesIdx },
         .ok sale)

/-- Source add_car: append the encoded car and upsert the cars index. -/
def add_car (db : DB) (car : Car) : DB × Except PyErr Car :=
  match write_record_and_update_index db.cars db.carsIdx car.vin (car_to_string car) with
  | (newCars, .error e) => ({ db with cars := newCars }, .error e)
  | (newCars, .ok newIdx) => ({ db with cars := newCars, carsIdx := newIdx }, .ok car)

/-- Source _remove_record_from_file: tombstone the record slot and remove
its index entry; a silent no-op when the identifier is absent.  In the
source the tombstone write precedes the index rewrite; an index crash on a
malformed entry would keep the tombstone, a corner no well-formed-state
claim reaches. -/
def remove_record_from_file (file idx : List Char) (entityId : List Char) :
    Except PyErr (List Char × List Char) :=
  match get_entity_data_and_line_number file idx entityId with
  | .error e => .error e
  | .ok none => .ok (file, idx)
  | .ok (some (_, n)) =>
    match remove_from_index idx entityId with
    | .error e => .error e
    | .ok newIdx =>
      .ok (writeAt file (n.toNat * LINE_RECORD_LENGTH)
            (List.replicate RECORD_LENGTH ' ' ++ ['\n']), newIdx)

/-- Source _rebuild_sales_index: scan the sales file counting every physical
line (blanks included), collect one (sales_number, line_number) entry per
decodable line, sort by identifier and rewrite the sales index from
scratch. -/
def rebuild_sales_index (sales : List Char) : List Char :=
  reifyIdx (sortBy keyLe
    ((splitKeep sales).enum.filterMap (fun p =>
      if stripChars p.2 = [] then none
      else (string_to_sale p.2).map (fun s => (s.sales_number, p.1)))))

/-- Loop body of _update_references_in_sales over file lines: blank and
undecodable lines are copied verbatim, decodable lines are re-encoded with
the vin substituted when it matches; the flag records whether any sale was
rewritten. -/
def update_references_in_sales_lines (oldVin newVin : List Char) :
    List (List Char) → List Char × Bool
  | [] => ([], false)
  | line :: rest =>
    match update_references_in_sales_lines oldVin newVin rest with
    | (outRest, flag) =>
      if stripChars line = [] then (line ++ outRest, flag)
      else
        match string_to_sale line with
        | none => (line ++ outRest, flag)
        | some s =>
          if s.car_vin = oldVin then
            (sale_to_string { s with car_vin := newVin } ++ '\n' :: outRest, true)
          else (sale_to_string s ++ '\n' :: outRest, flag)

/-- Source _update_references_in_sales: returns the temp-file content and
whether any sale matched; the caller replaces the sales file and rebuilds
its index only in that case. -/
def update_references_in_sales (sales : List Char) (oldVin newVin : List Char) :
    List Char × Bool :=
  update_references_in_sales_lines oldVin newVin (splitKeep sales)

/-- Source update_vin: require the old vin to exist and the new vin to be
absent, tombstone and index-remove the old record, append the same car
under the new vin, then cascade the rename into the sales file, rebuilding
the sales index only when a sale was rewritten. -/
def update_vin (db : DB) (vin newVin : List Char) : DB × Except PyErr Car :=
  match find_car_by_vin db.cars db.carsIdx vin with
  | .error e => (db, .error e)
  | .ok none => (db, .error (.carNotFound vin))
  | .ok (some car) =>
    match find_car_by_vin db.cars db.carsIdx newVin with
    | .error e => (db, .error e)
    | .ok (some _) => (db, .error (.carExists newVin))
    | .ok none =>
      match remove_record_from_file db.cars db.carsIdx vin with
      | .error e => (db, .error e)
      | .ok (cars2, carsIdx2) =>
        match add_car { db with cars := cars2, carsIdx := carsIdx2 }
            ⟨newVin, car.model, car.price, car.date_start, car.status⟩ with
        | (db2, .error e) => (db2, .error e)
        | (db2, .ok _) =>
          match update_references_in_sales db2.sales vin newVin with
          | (newSales, true) =>
            ({ db2 with sales := newSales, salesIdx := rebuild_sales_index newSales },
             .ok ⟨newVin, car.model, car.price, car.date_start, car.status⟩)
          | (_, false) =>
            (db2, .ok ⟨newVin, car.model, car.price, car.date_start, car.status⟩)

/-- Loop body of revert_sale over the sales file lines: every matching
decodable line is dropped (the last match is remembered, as the loop
variable is overwritten); other decodable lines are re-encoded; blank and
undecodable lines are copied verbatim. -/
def revert_sale_lines (salesNumber : List Char) :
    List (List Char) → List Char × Option Sale
  | [] => ([], none)
  | line :: rest =>
    match revert_sale_lines salesNumber rest with
    | (outRest, foundRest) =>
      if stripChars line = [] then (line ++ outRest, foundRest)
      else
        match string_to_sale line with
        | none => (line ++ outRest, foundRest)
        | some s =>
          if s.sales_number = salesNumber then (outRest, some (foundRest.getD s))
          else (sale_to_string s ++ '\n' :: outRest, foundRest)

/-- Source revert_sale: rewrite the sales file without the matching sale
(raising NotFound, with the original file kept, when no sale matches),
rebuild the sales index, then set the linked car's status back to available
by in-place overwrite; the linked-car errors are raised after the sale has
already been removed. -/
def revert_sale (db : DB) (salesNumber : List Char) : DB × Except PyErr Car :=
  match revert_sale_lines salesNumber (splitKeep db.sales) with
  | (_, none) => (db, .error (.saleNotFound salesNumber))
  | (outLines, some sale) =>
    if sale.car_vin = [] then
      ({ db with sales := outLines, salesIdx := rebuild_sales_index outLines },
       .error .noVinInSale)
    else
      match find_car_by_vin db.cars db.carsIdx sale.car_vin with
      | .error e =>
        ({ db with sales := outLines, salesIdx := rebuild_sales_index outLines }, .error e)
      | .ok none =>
        ({ db with sales := outLines, salesIdx := rebuild_sales_index outLines },
         .error (.linkedCarNotFound sale.car_vin))
      | .ok (some car) =>
        match update_record_in_file db.cars db.carsIdx car.vin
            (car_to_string { car with status := CarStatus.available }) with
        | .error e =>
          ({ db with sales := outLines, salesIdx := rebuild_sales_index outLines },
           .error e)
        | .ok newCars =>
          ({ db with cars := newCars, sales := outLines, salesIdx := rebuild_sales_index outLines },
           .ok { car with status := CarStatus.available })

/-- Python dict assignment d at key k: update in place (keeping the key's
original position) or append. -/
def assocPut {α β : Type} [DecidableEq α] (l : List (α × β)) (k : α) (v : β) :
    List (α × β) :=
  if l.any (fun p => p.1 = k) then l.map (fun p => if p.1 = k then (k, v) else p)
  else l ++ [(k, v)]

/-- Python dict get. -/
def assocGet {α β : Type} [DecidableEq α] (l : List (α × β)) (k : α) : Option β :=
  (l.find? (fun p => p.1 = k)).map (fun p => p.2)

/-- One tallying step: model_sales_count dict get-plus-one-put. -/
def bumpCount (l : List (Int × Nat)) (k : Int) : List (Int × Nat) :=
  match assocGet l k with
  | none => l ++ [(k, 1)]
  | some c => l.map (fun p => if p.1 = k then (k, c + 1) else p)

/-- Cars-file scan of top_models_by_sales: vin to model id, one dict entry
per decodable line. -/
def carVinToModel (lines : List (List Char)) : List (List Char × Int) :=
  lines.foldl (fun m line =>
    if stripChars line = [] then m
    else
      match string_to_car line with
      | none => m
      | some car => assocPut m car.vin car.model) []

/-- Sales-file scan of top_models_by_sales: tally sales per model id for
sales whose vin is in the map. -/
def modelSalesCount (vinMap : List (List Char × Int)) (lines : List (List Char)) :
    List (Int × Nat) :=
  lines.foldl (fun t line =>
    if stripChars line = [] then t
    else
      match string_to_sale line with
      | none => t
      | some sale =>
        match assocGet vinMap sale.car_vin with
        | none => t
        | some mid => bumpCount t mid) []

/-- Source _get_model_price: the model's price attribute, defaulting to the
float 0.0 when the model or the attribute is absent. -/
def get_model_price (models modelsIdx : List Char) (modelId : Int) :
    Except PyErr PyFloat :=
  match get_model_by_id models modelsIdx modelId with
  | .error e => .error e
  | .ok none => .ok ⟨0, 1⟩
  | .ok (some m) => .ok (m.price.getD ⟨0, 1⟩)

/-- Rational value of a float literal. -/
def PyFloat.val (f : PyFloat) : ℚ := (f.mantissa : ℚ) / (10 : ℚ) ^ f.scale

/-- Float comparison, by cross multiplication (exact for decimal
literals). -/
def PyFloat.le (a b : PyFloat) : Bool :=
  decide (a.mantissa * (10 : Int) ^ b.scale ≤ b.mantissa * (10 : Int) ^ a.scale)

/-- Comparison of the sort keys (minus sales count, model price) of
top_models_by_sales; Python compares the tuples lexicographically. -/
def topKeyLe (a b : Int × PyFloat) : Bool :=
  decide (a.1 < b.1) || (decide (a.1 = b.1) && PyFloat.le a.2 b.2)

/-- Result loop of top_models_by_sales: look each chosen model up again and
keep the (name, brand, count) aggregates of the models that resolve. -/
def collectStats (models modelsIdx : List Char) :
    List ((Int × Nat) × (Int × PyFloat)) → Except PyErr (List ModelSaleStats)
  | [] => .ok []
  | x :: xs =>
    match get_model_by_id models modelsIdx x.1.1 with
    | .error e => .error e
    | .ok none => collectStats models modelsIdx xs
    | .ok (some m) =>
      match collectStats models modelsIdx xs with
      | .error e => .error e
      | .ok rest => .ok (⟨m.name, m.brand, x.1.2⟩ :: rest)

/-- Source top_models_by_sales: build the vin map from the cars file, tally
sales per model, sort by (minus count, model price) with Python's stable
sort precomputing one key per item, take the top three and resolve them to
aggregates. -/
def top_models_by_sales (db : DB) : Except PyErr (List ModelSaleStats) :=
  match mapMExcept (fun p : Int × Nat =>
      match get_model_price db.models db.modelsIdx p.1 with
      | .error e => .error e
      | .ok pr => .ok ((p, (-(p.2 : Int), pr)) : (Int × Nat) × (Int × PyFloat)))
    (modelSalesCount (carVinToModel (splitKeep db.cars)) (splitKeep db.sales)) with
  | .error e => .error e
  | .ok keyed =>
    collectStats db.models db.modelsIdx
      ((sortBy (fun x y => topKeyLe x.2 y.2) keyed).take 3)

/-- Abstract mirror of the cars-file scan over slots. -/
def absVinMap (cs : List (Option Car)) : List (List Char × Int) :=
  cs.foldl (fun m slot =>
    match slot with
    | none => m
    | some car => assocPut m car.vin car.model) []

/-- Abstract mirror of the sales tally over slots. -/
def absTally (cs : List (Option Car)) (ss : List (Option Sale)) : List (Int × Nat) :=
  ss.foldl (fun t slot =>
    match slot with
    | none => t
    | some sale =>
      match assocGet (absVinMap cs) sale.car_vin with
      | none => t
      | some mid => bumpCount t mid) []

/-- Abstract model lookup: index entry to slot. -/
def absGetModel (ms : List (Option Model)) (mis : List IdxEntry) (mid : Int) :
    Option Model :=
  match lookupEntries mis (intToChars mid) with
  | none => none
  | some i => ms.getD i none

/-- Abstract model price with the 0.0 default. -/
def absModelPrice (ms : List (Option Model)) (mis : List IdxEntry) (mid : Int) : PyFloat :=
  match absGetModel ms mis mid with
  | none => ⟨0, 1⟩
  | some m => m.price.getD ⟨0, 1⟩

/-- Abstract mirror of the result loop. -/
def absCollect (ms : List (Option Model)) (mis : List IdxEntry) :
    List ((Int × Nat) × (Int × PyFloat)) → List ModelSaleStats
  | [] => []
  | x :: xs =>
    match absGetModel ms mis x.1.1 with
    | none => absCollect ms mis xs
    | some m => ⟨m.name, m.brand, x.1.2⟩ :: absCollect ms mis xs

/-- Abstract mirror of the whole aggregation. -/
def absTopModels (ms : List (Option Model)) (mis : List IdxEntry)
    (cs : List (Option Car)) (ss : List (Option Sale)) : List ModelSaleStats :=
  absCollect ms mis
    ((sortBy (fun x y => topKeyLe x.2 y.2)
      ((absTally cs ss).map (fun p => (p, (-(p.2 : Int), absModelPrice ms mis p.1))))).take 3)

/-- Slot kept by revert_sale: everything but a live sale with the matching
number. -/
def keepSlot (num : List Char) (slot : Option Sale) : Bool :=
  match slot with
  | none => true
  | some s => decide (s.sales_number ≠ num)

/-- Abstract mirror of the last match remembered by the revert_sale loop. -/
def lastSaleMatch (num : List Char) : List (Option Sale) → Option Sale
  | [] => none
  | slot :: rest =>
    match lastSaleMatch num rest with
    | some s => some s
    | none =>
      match slot with
      | some s => if s.sales_number = num then some s else none
      | none => none

/-- Vin substitution applied to one sale slot by the rename cascade. -/
def substSlot (oldVin newVin : List Char) (slot : Option Sale) : Option Sale :=
  slot.map (fun s => if s.car_vin = oldVin then { s with car_vin := newVin } else s)

/-- Whether any live sale references the old vin. -/
def anySaleMatch (oldVin : List Char) (ss : List (Option Sale)) : Bool :=
  ss.any (fun slot =>
    match slot with
    | none => false
    | some s => decide (s.car_vin = oldVin))

/-- Abstract sales-index rebuild: one entry per live slot at its physical
position, sorted by identifier. -/
def absRebuild (ss : List (Option Sale)) : List IdxEntry :=
  sortBy keyLe (ss.enum.filterMap (fun p => p.2.map (fun s => (s.sales_number, p.1))))

/-- Concrete index entries used by the C7 witness. -/
def wIdxEs : List IdxEntry := [(toChars "A", 0), (toChars "C", 1)]

/-- Concrete index operations used by the C7 witness. -/
def wIdxOps : List IdxOp :=
  [IdxOp.upsert (toChars "B") 2, IdxOp.removeOp (toChars "A"),
   IdxOp.upsert (toChars "B") 3]

/-- Concrete Car used by witnesses. -/
def wcarC2 : Car :=
  ⟨toChars "VIN001", 1, 9000, ⟨2024, 1, 15, 9, 30, 0⟩, CarStatus.available⟩

/-- Concrete Model used by witnesses. -/
def wmodelC2 : Model :=
  ⟨3, toChars "Model3", toChars "Tesla", some 2019, some ⟨2500, 1⟩⟩

/-- Concrete Sale used by witnesses. -/
def wsaleC2 : Sale :=
  ⟨toChars "S001", toChars "VIN001", ⟨2024, 2, 1, 12, 0, 0⟩, 8500⟩

/-- Concrete store for the C1/C3 counterexamples: the cars index maps V1 to
slot 0, and slot 0 is a tombstone. -/
def wdbC1 : DB :=
  ⟨[], [], reifyCars [none], reifyIdx [(toChars "V1", 0)], [], []⟩

/-- Concrete sale targeting the tombstoned V1 slot. -/
def wsaleC1 : Sale := ⟨toChars "S1", toChars "V1", ⟨2024, 3, 1, 10, 0, 0⟩, 700⟩

/-- Concrete models used by the C6 witness: two with five-hundredths-scale
prices 2000.0 and 2500.0 and one with no price attribute. -/
def wmC6a : Model := ⟨1, toChars "ModelA", toChars "BrandA", none, some ⟨20000, 1⟩⟩

/-- Second C6 witness model. -/
def wmC6b : Model := ⟨2, toChars "ModelB", toChars "BrandB", some 2020, some ⟨25000, 1⟩⟩

/-- Third C6 witness model, without price. -/
def wmC6c : Model := ⟨3, toChars "ModelC", toChars "BrandC", none, none⟩

/-- C6 witness models file. -/
def wmsC6 : List (Option Model) := [some wmC6a, some wmC6b, some wmC6c]

/-- C6 witness models index. -/
def wmisC6 : List IdxEntry := [(toChars "1", 0), (toChars "2", 1), (toChars "3", 2)]

/-- C6 witness cars, one per model. -/
def wcsC6 : List (Option Car) :=
  [some ⟨toChars "VINA", 1, 2000, ⟨2024, 1, 10, 0, 0, 0⟩, CarStatus.available⟩,
   some ⟨toChars "VINB", 2, 2500, ⟨2024, 1, 11, 0, 0, 0⟩, CarStatus.available⟩,
   some ⟨toChars "VINC", 3, 1500, ⟨2024, 1, 12, 0, 0, 0⟩, CarStatus.available⟩]

/-- C6 witness sales: two for each of the equally-counted models, one for
the third. -/
def wssC6 : List (Option Sale) :=
  [some ⟨toChars "T1", toChars "VINA", ⟨2024, 2, 1, 0, 0, 0⟩, 2100⟩,
   some ⟨toChars "T2", toChars "VINA", ⟨2024, 2, 2, 0, 0, 0⟩, 2100⟩,
   some ⟨toChars "T3", toChars "VINB", ⟨2024, 2, 3, 0, 0, 0⟩, 2600⟩,
   some ⟨toChars "T4", toChars "VINB", ⟨2024, 2, 4, 0, 0, 0⟩, 2600⟩,
   some ⟨toChars "T5", toChars "VINC", ⟨2024, 2, 5, 0, 0, 0⟩, 1600⟩]

/-! ## Theorems -/

theorem splitOnC_ne_nil (sep : Char) (l : List Char) : splitOnC sep l ≠ [] := by
  cases l with
  | nil => simp [splitOnC]
  | cons c rest =>
    simp only [splitOnC]
    split
    · simp
    · split <;> simp

theorem splitOnC_of_not_mem {sep : Char} {l : List Char} (h : sep ∉ l) :
    splitOnC sep l = [l] := by
  induction l with
  | nil => rfl
  | cons c rest ih =>
    have hc : ¬ c = sep := fun hh => h (hh ▸ List.mem_cons_self c rest)
    have hr : sep ∉ rest := fun hh => h (List.mem_cons_of_mem c hh)
    simp only [splitOnC, if_neg hc, ih hr]

theorem splitOnC_append_sep {sep : Char} {a : List Char} (b : List Char)
    (h : sep ∉ a) : splitOnC sep (a ++ sep :: b) = a :: splitOnC sep b := by
  induction a with
  | nil => simp [splitOnC]
  | cons c rest ih =>
    have hc : ¬ c = sep := fun hh => h (hh ▸ List.mem_cons_self c rest)
    have hr : sep ∉ rest := fun hh => h (List.mem_cons_of_mem c hh)
    simp only [List.cons_append, splitOnC, if_neg hc, List.append_eq]
    rw [ih hr]

theorem splitOnC_joinC {sep : Char} {fields : List (List Char)}
    (hne : fields ≠ []) (h : ∀ f ∈ fields, sep ∉ f) :
    splitOnC sep (joinC sep fields) = fields := by
  induction fields with
  | nil => exact absurd rfl hne
  | cons f fs ih =>
    cases fs with
    | nil =>
      simp only [joinC]
      exact splitOnC_of_not_mem (h f (List.mem_cons_self f []))
    | cons g gs =>
      have hjoin : joinC sep (f :: g :: gs) = f ++ sep :: joinC sep (g :: gs) := rfl
      rw [hjoin, splitOnC_append_sep _ (h f (List.mem_cons_self f _)),
        ih (by simp) (fun x hx => h x (List.mem_cons_of_mem f hx))]

theorem splitKeep_append_line {a : List Char} (rest : List Char)
    (h : '\n' ∉ a) : splitKeep (a ++ '\n' :: rest) = (a ++ ['\n']) :: splitKeep rest := by
  induction a with
  | nil => simp [splitKeep]
  | cons c cs ih =>
    have hc : ¬ c = '\n' := fun hh => h (hh ▸ List.mem_cons_self c cs)
    have hr : '\n' ∉ cs := fun hh => h (List.mem_cons_of_mem c hh)
    simp only [List.cons_append, splitKeep, if_neg hc, List.append_eq]
    rw [ih hr]

theorem dropWhile_ws_append {t : List Char} (m : List Char)
    (ht : ∀ c ∈ t, isPySpace c = true) :
    (t ++ m).dropWhile isPySpace = m.dropWhile isPySpace := by
  induction t with
  | nil => rfl
  | cons c cs ih =>
    simp only [List.cons_append, List.dropWhile_cons, ht c (List.mem_cons_self c cs), if_true]
    exact ih (fun x hx => ht x (List.mem_cons_of_mem c hx))

theorem dropWhile_eq_self_of_no_ws {m : List Char} (h : ∀ c ∈ m, isPySpace c = false) :
    m.dropWhile isPySpace = m := by
  cases m with
  | nil => rfl
  | cons c cs => simp [List.dropWhile_cons, h c (List.mem_cons_self c cs)]

theorem dropWhile_append_of_ne_nil {l : List Char} (t : List Char)
    (h : l.dropWhile isPySpace ≠ []) :
    (l ++ t).dropWhile isPySpace = l.dropWhile isPySpace ++ t := by
  induction l with
  | nil => exact absurd rfl h
  | cons x xs ih =>
    cases hx : isPySpace x with
    | true =>
      simp only [List.dropWhile_cons, hx, if_true] at h
      simp only [List.cons_append, List.dropWhile_cons, hx, if_true]
      exact ih h
    | false =>
      simp [List.cons_append, List.dropWhile_cons, hx]

theorem dropTrailing_append_ws {t : List Char} (l : List Char)
    (ht : ∀ c ∈ t, isPySpace c = true) :
    dropTrailing (l ++ t) = dropTrailing l := by
  unfold dropTrailing
  rw [List.reverse_append,
    dropWhile_ws_append _ (fun c hc => ht c (List.mem_reverse.mp hc))]

theorem stripChars_append_ws {t : List Char} (l : List Char)
    (ht : ∀ c ∈ t, isPySpace c = true) :
    stripChars (l ++ t) = stripChars l := by
  unfold stripChars
  by_cases h : l.dropWhile isPySpace = []
  · have hall : ∀ c ∈ l, isPySpace c = true := List.dropWhile_eq_nil_iff.mp h
    have h2 : (l ++ t).dropWhile isPySpace = [] := by
      rw [List.dropWhile_eq_nil_iff]
      intro c hc
      rcases List.mem_append.mp hc with h3 | h3
      · exact hall c h3
      · exact ht c h3
    rw [h2, h]
  · rw [dropWhile_append_of_ne_nil t h, dropTrailing_append_ws _ ht]

theorem stripChars_eq_self {l : List Char} (h1 : l.dropWhile isPySpace = l)
    (h2 : dropTrailing l = l) : stripChars l = l := by
  unfold stripChars
  rw [h1, h2]

/-- A list with no Python-whitespace characters strips to itself. -/
theorem stripChars_of_no_ws {l : List Char} (h : ∀ c ∈ l, isPySpace c = false) :
    stripChars l = l := by
  unfold stripChars dropTrailing
  rw [dropWhile_eq_self_of_no_ws h,
    dropWhile_eq_self_of_no_ws (fun c hc => h c (List.mem_reverse.mp hc)),
    List.reverse_reverse]

theorem stripChars_nil : stripChars [] = [] := rfl

theorem natToCharsAux_eq_digits {fuel n : Nat} (h : n ≤ fuel) :
    natToCharsAux fuel n = ((Nat.digits 10 n).map Nat.digitChar).reverse := by
  induction fuel generalizing n with
  | zero =>
    have hn : n = 0 := Nat.le_zero.mp h
    subst hn
    simp [natToCharsAux]
  | succ f ih =>
    cases n with
    | zero => simp [natToCharsAux]
    | succ m =>
      have hdiv : (m + 1) / 10 ≤ f := by
        have h1 : (m + 1) / 10 < m + 1 := Nat.div_lt_self (Nat.succ_pos m) (by norm_num)
        omega
      rw [natToCharsAux, ih hdiv,
        Nat.digits_def' (by norm_num : (1:Nat) < 10) (Nat.succ_pos m)]
      simp

theorem natToChars_eq_digits (n : Nat) :
    natToChars n = if n = 0 then ['0'] else ((Nat.digits 10 n).map Nat.digitChar).reverse := by
  unfold natToChars
  split
  · rfl
  · exact natToCharsAux_eq_digits (Nat.le_refl n)

theorem charToDigit_digitChar {d : Nat} (h : d < 10) :
    charToDigit (Nat.digitChar d) = some d := by
  interval_cases d <;> decide

theorem digitChar_facts {d : Nat} (h : d < 10) :
    isPySpace (Nat.digitChar d) = false ∧ Nat.digitChar d ≠ '-' ∧
    Nat.digitChar d ≠ '|' ∧ Nat.digitChar d ≠ '\n' ∧ Nat.digitChar d ≠ '.' ∧
    Nat.digitChar d ≠ ':' ∧ Nat.digitChar d ≠ 'T' := by
  interval_cases d <;> decide

theorem mem_natToChars {c : Char} {n : Nat} (h : c ∈ natToChars n) :
    ∃ d, d < 10 ∧ c = Nat.digitChar d := by
  rw [natToChars_eq_digits] at h
  split at h
  · exact ⟨0, by norm_num, by simpa using h⟩
  · rw [List.mem_reverse, List.mem_map] at h
    obtain ⟨d, hd, hdc⟩ := h
    exact ⟨d, Nat.digits_lt_base (by norm_num) hd, hdc.symm⟩

theorem natToChars_ne_nil (n : Nat) : natToChars n ≠ [] := by
  rw [natToChars_eq_digits]
  split
  · simp
  · simp only [ne_eq, List.reverse_eq_nil_iff, List.map_eq_nil_iff]
    exact Nat.digits_ne_nil_iff_ne_zero.mpr (by assumption)

theorem mem_padNum {c : Char} {k n : Nat} (h : c ∈ padNum k n) :
    ∃ d, d < 10 ∧ c = Nat.digitChar d := by
  unfold padNum at h
  rcases List.mem_append.mp h with h1 | h1
  · exact ⟨0, by norm_num, by simpa using List.eq_of_mem_replicate h1⟩
  · exact mem_natToChars h1

theorem padNum_ne_nil (k n : Nat) : padNum k n ≠ [] := by
  unfold padNum
  simp [natToChars_ne_nil n]

theorem parseNatAux_digits {ds : List Nat} (hds : ∀ d ∈ ds, d < 10) :
    ∀ acc, parseNatAux (ds.map Nat.digitChar) acc =
      some (ds.foldl (fun a d => 10 * a + d) acc) := by
  induction ds with
  | nil => intro acc; rfl
  | cons d ds ih =>
    intro acc
    have hd : d < 10 := hds d (List.mem_cons_self d ds)
    simp only [List.map_cons, parseNatAux, charToDigit_digitChar hd, List.foldl_cons]
    exact ih (fun x hx => hds x (List.mem_cons_of_mem d hx)) _

theorem foldl_digits_eq_ofDigits (ds : List Nat) :
    ∀ acc, ds.foldl (fun a d => 10 * a + d) acc =
      acc * 10 ^ ds.length + Nat.ofDigits 10 ds.reverse := by
  induction ds with
  | nil => intro acc; simp [Nat.ofDigits]
  | cons d ds ih =>
    intro acc
    simp only [List.foldl_cons, List.reverse_cons, List.length_cons]
    rw [ih (10 * acc + d), Nat.ofDigits_append]
    simp [Nat.ofDigits]
    ring

theorem parseNatDigits_natToChars (n : Nat) :
    parseNatDigits (natToChars n) = some n := by
  rcases Nat.eq_zero_or_pos n with h0 | hpos
  · subst h0; decide
  · have hne : n ≠ 0 := Nat.pos_iff_ne_zero.mp hpos
    have hrepr : natToChars n = ((Nat.digits 10 n).reverse).map Nat.digitChar := by
      rw [natToChars_eq_digits, if_neg hne, List.map_reverse]
    have hlt : ∀ d ∈ (Nat.digits 10 n).reverse, d < 10 := fun d hd =>
      Nat.digits_lt_base (by norm_num) (List.mem_reverse.mp hd)
    have hmain := parseNatAux_digits hlt 0
    rw [foldl_digits_eq_ofDigits] at hmain
    simp only [List.reverse_reverse, Nat.ofDigits_digits, Nat.zero_mul, Nat.zero_add] at hmain
    have hnonnil : natToChars n ≠ [] := natToChars_ne_nil n
    unfold parseNatDigits
    split
    · exact absurd (by assumption) hnonnil
    · rw [hrepr]; exact hmain

theorem parseNatAux_zeros (j : Nat) (l : List Char) :
    parseNatAux (List.replicate j '0' ++ l) 0 = parseNatAux l 0 := by
  induction j with
  | zero => rfl
  | succ m ih =>
    simp only [List.replicate_succ, List.cons_append, parseNatAux]
    norm_num [charToDigit]
    exact ih

theorem parseNatDigits_padNum (k n : Nat) :
    parseNatDigits (padNum k n) = some n := by
  have hne : padNum k n ≠ [] := padNum_ne_nil k n
  unfold parseNatDigits
  split
  · exact absurd (by assumption) hne
  · unfold padNum
    rw [parseNatAux_zeros]
    have := parseNatDigits_natToChars n
    unfold parseNatDigits at this
    split at this
    · exact absurd (by assumption) (natToChars_ne_nil n)
    · exact this

theorem natToChars_head_not_minus (n : Nat) :
    ∀ c cs, natToChars n = c :: cs → c ≠ '-' := by
  intro c cs hc
  have hmem : c ∈ natToChars n := by rw [hc]; exact List.mem_cons_self c cs
  obtain ⟨d, hd, hdc⟩ := mem_natToChars hmem
  rw [hdc]
  exact (digitChar_facts hd).2.1

theorem parseInt_intToChars (n : Int) : parseInt (intToChars n) = some n := by
  by_cases hneg : n < 0
  · have h2 : intToChars n = '-' :: natToChars n.natAbs := by
      unfold intToChars; rw [if_pos hneg]
    rw [h2]
    have h3 : parseInt ('-' :: natToChars n.natAbs) =
        (parseNatDigits (natToChars n.natAbs)).map (fun m => -(Int.ofNat m)) := by
      simp [parseInt]
    rw [h3, parseNatDigits_natToChars]
    simp only [Option.map_some']
    congr 1
    rw [Int.ofNat_eq_natCast]
    omega
  · have h2 : intToChars n = natToChars n.natAbs := by
      unfold intToChars; rw [if_neg hneg]
    obtain ⟨c, cs, hc⟩ := List.exists_cons_of_ne_nil (natToChars_ne_nil n.natAbs)
    have hcne : c ≠ '-' := natToChars_head_not_minus n.natAbs c cs hc
    have h3 : parseInt (c :: cs) = (parseNatDigits (c :: cs)).map Int.ofNat := by
      simp [parseInt, hcne]
    rw [h2, hc, h3, ← hc, parseNatDigits_natToChars]
    simp only [Option.map_some']
    congr 1
    rw [Int.ofNat_eq_natCast]
    omega

theorem padNum_length_ge (k n : Nat) : k ≤ (padNum k n).length := by
  unfold padNum
  rw [List.length_append, List.length_replicate]
  omega

theorem mem_intToChars {c : Char} {n : Int} (h : c ∈ intToChars n) :
    c = '-' ∨ ∃ d, d < 10 ∧ c = Nat.digitChar d := by
  unfold intToChars at h
  split at h
  · rcases List.mem_cons.mp h with h1 | h1
    · exact Or.inl h1
    · exact Or.inr (mem_natToChars h1)
  · exact Or.inr (mem_natToChars h)

theorem no_ws_intToChars (n : Int) : ∀ c ∈ intToChars n, isPySpace c = false := by
  intro c hc
  rcases mem_intToChars hc with h | ⟨d, hd, hdc⟩
  · subst h; decide
  · rw [hdc]; exact (digitChar_facts hd).1

theorem pipe_not_mem_intToChars (n : Int) : '|' ∉ intToChars n := by
  intro h
  rcases mem_intToChars h with h1 | ⟨d, hd, hdc⟩
  · exact absurd h1.symm (by decide)
  · exact (digitChar_facts hd).2.2.1 hdc.symm

theorem nl_not_mem_intToChars (n : Int) : '\n' ∉ intToChars n := by
  intro h
  rcases mem_intToChars h with h1 | ⟨d, hd, hdc⟩
  · exact absurd h1.symm (by decide)
  · exact (digitChar_facts hd).2.2.2.1 hdc.symm

theorem intToChars_ne_nil (n : Int) : intToChars n ≠ [] := by
  unfold intToChars
  split
  · simp
  · exact natToChars_ne_nil _

theorem padNum_no_special {k n : Nat} {c : Char} (hc : c ∈ padNum k n) :
    isPySpace c = false ∧ c ≠ '-' ∧ c ≠ '|' ∧ c ≠ '\n' ∧ c ≠ '.' ∧
    c ≠ ':' ∧ c ≠ 'T' := by
  obtain ⟨d, hd, hdc⟩ := mem_padNum hc
  rw [hdc]
  exact digitChar_facts hd

theorem mem_isoChars {c : Char} {dt : PyDateTime} (h : c ∈ isoChars dt) :
    c = '-' ∨ c = 'T' ∨ c = ':' ∨ ∃ d, d < 10 ∧ c = Nat.digitChar d := by
  unfold isoChars at h
  simp only [List.mem_append, List.mem_cons] at h
  rcases h with h | h | h | h | h | h | h | h | h | h | h
  all_goals first
    | (left; exact h)
    | (right; left; exact h)
    | (right; right; left; exact h)
    | (right; right; right; exact mem_padNum h)

theorem fromIso_isoChars (dt : PyDateTime) : fromIsoChars (isoChars dt) = some dt := by
  obtain ⟨y, mo, da, h, mi, s⟩ := dt
  have hTdate : 'T' ∉ padNum 4 y ++ '-' :: (padNum 2 mo ++ '-' :: padNum 2 da) := by
    intro hmem
    simp only [List.mem_append, List.mem_cons] at hmem
    rcases hmem with h1 | h1 | h1 | h1 | h1
    · exact (padNum_no_special h1).2.2.2.2.2.2 rfl
    · exact absurd h1.symm (by decide)
    · exact (padNum_no_special h1).2.2.2.2.2.2 rfl
    · exact absurd h1.symm (by decide)
    · exact (padNum_no_special h1).2.2.2.2.2.2 rfl
  have hTtime : 'T' ∉ padNum 2 h ++ ':' :: (padNum 2 mi ++ ':' :: padNum 2 s) := by
    intro hmem
    simp only [List.mem_append, List.mem_cons] at hmem
    rcases hmem with h1 | h1 | h1 | h1 | h1
    · exact (padNum_no_special h1).2.2.2.2.2.2 rfl
    · exact absurd h1.symm (by decide)
    · exact (padNum_no_special h1).2.2.2.2.2.2 rfl
    · exact absurd h1.symm (by decide)
    · exact (padNum_no_special h1).2.2.2.2.2.2 rfl
  have hform : isoChars ⟨y, mo, da, h, mi, s⟩ =
      (padNum 4 y ++ '-' :: (padNum 2 mo ++ '-' :: padNum 2 da)) ++
        'T' :: (padNum 2 h ++ ':' :: (padNum 2 mi ++ ':' :: padNum 2 s)) := by
    simp [isoChars]
  have hsplitT : splitOnC 'T' (isoChars ⟨y, mo, da, h, mi, s⟩) =
      [padNum 4 y ++ '-' :: (padNum 2 mo ++ '-' :: padNum 2 da),
       padNum 2 h ++ ':' :: (padNum 2 mi ++ ':' :: padNum 2 s)] := by
    rw [hform, splitOnC_append_sep _ hTdate, splitOnC_of_not_mem hTtime]
  have hnoDash4 : '-' ∉ padNum 4 y := fun hm => (padNum_no_special hm).2.1 rfl
  have hnoDash2 : '-' ∉ padNum 2 mo := fun hm => (padNum_no_special hm).2.1 rfl
  have hnoDashD : '-' ∉ padNum 2 da := fun hm => (padNum_no_special hm).2.1 rfl
  have hsplitD : splitOnC '-' (padNum 4 y ++ '-' :: (padNum 2 mo ++ '-' :: padNum 2 da)) =
      [padNum 4 y, padNum 2 mo, padNum 2 da] := by
    rw [splitOnC_append_sep _ hnoDash4, splitOnC_append_sep _ hnoDash2,
      splitOnC_of_not_mem hnoDashD]
  have hnoColH : ':' ∉ padNum 2 h := fun hm => (padNum_no_special hm).2.2.2.2.2.1 rfl
  have hnoColM : ':' ∉ padNum 2 mi := fun hm => (padNum_no_special hm).2.2.2.2.2.1 rfl
  have hnoColS : ':' ∉ padNum 2 s := fun hm => (padNum_no_special hm).2.2.2.2.2.1 rfl
  have hsplitH : splitOnC ':' (padNum 2 h ++ ':' :: (padNum 2 mi ++ ':' :: padNum 2 s)) =
      [padNum 2 h, padNum 2 mi, padNum 2 s] := by
    rw [splitOnC_append_sep _ hnoColH, splitOnC_append_sep _ hnoColM,
      splitOnC_of_not_mem hnoColS]
  simp only [fromIsoChars, hsplitT, hsplitD, hsplitH, parseNatDigits_padNum]

theorem mem_floatChars {c : Char} {f : PyFloat} (h : c ∈ floatChars f) :
    c = '-' ∨ c = '.' ∨ ∃ d, d < 10 ∧ c = Nat.digitChar d := by
  unfold floatChars at h
  simp only [] at h
  split at h
  · rcases List.mem_cons.mp h with h1 | h1
    · exact Or.inl h1
    · simp only [List.mem_append, List.mem_cons] at h1
      rcases h1 with h2 | h2 | h2
      · exact Or.inr (Or.inr (mem_padNum (List.mem_of_mem_take h2)))
      · exact Or.inr (Or.inl h2)
      · exact Or.inr (Or.inr (mem_padNum (List.mem_of_mem_drop h2)))
  · simp only [List.mem_append, List.mem_cons] at h
    rcases h with h2 | h2 | h2
    · exact Or.inr (Or.inr (mem_padNum (List.mem_of_mem_take h2)))
    · exact Or.inr (Or.inl h2)
    · exact Or.inr (Or.inr (mem_padNum (List.mem_of_mem_drop h2)))

theorem parseFloat_split {ds : List Char} {s n : Nat}
    (hdig : ∀ c ∈ ds, ∃ d, d < 10 ∧ c = Nat.digitChar d)
    (hlen : s + 1 ≤ ds.length)
    (hparse : parseNatDigits ds = some n) :
    splitOnC '.' (ds.take (ds.length - s) ++ '.' :: ds.drop (ds.length - s)) =
      [ds.take (ds.length - s), ds.drop (ds.length - s)] ∧
    parseNatDigits (ds.take (ds.length - s) ++ ds.drop (ds.length - s)) = some n ∧
    (ds.drop (ds.length - s)).length = s := by
  have hnoDotTake : '.' ∉ ds.take (ds.length - s) := by
    intro hm
    obtain ⟨d, hd, hdc⟩ := hdig _ (List.mem_of_mem_take hm)
    exact (digitChar_facts hd).2.2.2.2.1 hdc.symm
  have hnoDotDrop : '.' ∉ ds.drop (ds.length - s) := by
    intro hm
    obtain ⟨d, hd, hdc⟩ := hdig _ (List.mem_of_mem_drop hm)
    exact (digitChar_facts hd).2.2.2.2.1 hdc.symm
  refine ⟨?_, ?_, ?_⟩
  · rw [splitOnC_append_sep _ hnoDotTake, splitOnC_of_not_mem hnoDotDrop]
  · rw [List.take_append_drop]; exact hparse
  · rw [List.length_drop]; omega

theorem parseFloat_floatChars (f : PyFloat) : parseFloat (floatChars f) = some f := by
  obtain ⟨m, s⟩ := f
  have hdig : ∀ c ∈ padNum (s + 1) m.natAbs, ∃ d, d < 10 ∧ c = Nat.digitChar d :=
    fun c hc => mem_padNum hc
  have hlen : s + 1 ≤ (padNum (s + 1) m.natAbs).length := padNum_length_ge _ _
  obtain ⟨hsplit, hparse, hdlen⟩ :=
    parseFloat_split hdig hlen (parseNatDigits_padNum (s + 1) m.natAbs)
  have htne : (padNum (s + 1) m.natAbs).take ((padNum (s + 1) m.natAbs).length - s) ≠ [] := by
    intro hnil
    have := congrArg List.length hnil
    rw [List.length_take] at this
    simp only [List.length_nil] at this
    omega
  obtain ⟨c, cs, hc⟩ := List.exists_cons_of_ne_nil htne
  have hcdig : ∃ d, d < 10 ∧ c = Nat.digitChar d := by
    apply hdig
    apply List.mem_of_mem_take (n := (padNum (s + 1) m.natAbs).length - s)
    rw [hc]; exact List.mem_cons_self c cs
  have hcne : c ≠ '-' := by
    obtain ⟨d, hd, hdc⟩ := hcdig
    rw [hdc]; exact (digitChar_facts hd).2.1
  by_cases hm : m < 0
  · have hbody : floatChars ⟨m, s⟩ =
        '-' :: ((padNum (s + 1) m.natAbs).take ((padNum (s + 1) m.natAbs).length - s) ++
          '.' :: (padNum (s + 1) m.natAbs).drop ((padNum (s + 1) m.natAbs).length - s)) := by
      simp only [floatChars]
      rw [if_pos hm]
    rw [hbody]
    simp only [parseFloat, if_pos rfl, if_true, hsplit, hparse, Option.map_some', hdlen,
      Option.some_inj, PyFloat.mk.injEq, and_true]
    rw [Int.ofNat_eq_natCast]
    omega
  · have hbody : floatChars ⟨m, s⟩ =
        c :: (cs ++ '.' :: (padNum (s + 1) m.natAbs).drop ((padNum (s + 1) m.natAbs).length - s)) := by
      simp only [floatChars]
      rw [if_neg hm, hc]
      simp
    rw [hbody]
    have hback : c :: (cs ++ '.' :: (padNum (s + 1) m.natAbs).drop ((padNum (s + 1) m.natAbs).length - s)) =
        (padNum (s + 1) m.natAbs).take ((padNum (s + 1) m.natAbs).length - s) ++
          '.' :: (padNum (s + 1) m.natAbs).drop ((padNum (s + 1) m.natAbs).length - s) := by
      rw [hc]; simp
    simp only [parseFloat, if_neg hcne, hback, hsplit, hparse, Option.map_some', hdlen,
      Option.some_inj, PyFloat.mk.injEq]
    refine ⟨?_, trivial⟩
    rw [Int.ofNat_eq_natCast]
    omega

theorem CarStatus.ofValue_value (st : CarStatus) : CarStatus.ofValue st.value = some st := by
  cases st <;> decide

theorem CarStatus.value_no_ws (st : CarStatus) :
    ∀ c ∈ st.value, isPySpace c = false := by
  cases st <;> decide

theorem CarStatus.pipe_not_mem_value (st : CarStatus) : '|' ∉ st.value := by
  cases st <;> decide

theorem CarStatus.nl_not_mem_value (st : CarStatus) : '\n' ∉ st.value := by
  cases st <;> decide

theorem CarStatus.value_ne_nil (st : CarStatus) : st.value ≠ [] := by
  cases st <;> decide

theorem head_not_space {x : Char} {xs : List Char}
    (h : (x :: xs).dropWhile isPySpace = x :: xs) : isPySpace x = false := by
  cases hx : isPySpace x with
  | false => rfl
  | true =>
    rw [List.dropWhile_cons, hx] at h
    simp only [if_pos] at h
    have hlen : (xs.dropWhile isPySpace).length ≤ xs.length :=
      List.Sublist.length_le (List.dropWhile_sublist _)
    have := congrArg List.length h
    simp only [List.length_cons] at this
    omega

theorem noLead_append_cons {a b : List Char} {c : Char}
    (ha : a.dropWhile isPySpace = a) (hc : isPySpace c = false) :
    (a ++ c :: b).dropWhile isPySpace = a ++ c :: b := by
  cases a with
  | nil => simp [List.dropWhile_cons, hc]
  | cons x xs =>
    have hx : isPySpace x = false := head_not_space ha
    simp [List.dropWhile_cons, hx]

theorem noTrail_iff_reverse {b : List Char} :
    dropTrailing b = b ↔ b.reverse.dropWhile isPySpace = b.reverse := by
  unfold dropTrailing
  constructor
  · intro h
    have := congrArg List.reverse h
    rwa [List.reverse_reverse] at this
  · intro h
    rw [h, List.reverse_reverse]

theorem noTrail_append {a b : List Char} (hb : dropTrailing b = b) (hne : b ≠ []) :
    dropTrailing (a ++ b) = a ++ b := by
  have hws : b.reverse.dropWhile isPySpace = b.reverse := noTrail_iff_reverse.mp hb
  have hrne : b.reverse ≠ [] := by simpa using hne
  obtain ⟨y, ys, hy⟩ := List.exists_cons_of_ne_nil hrne
  have hyns : isPySpace y = false := head_not_space (hy ▸ hws)
  rw [noTrail_iff_reverse, List.reverse_append, hy]
  simp [List.dropWhile_cons, hyns]

theorem noTrail_cons {c : Char} {t : List Char} (hc : isPySpace c = false)
    (ht : dropTrailing t = t) : dropTrailing (c :: t) = c :: t := by
  cases t with
  | nil =>
    rw [noTrail_iff_reverse]
    simp [List.dropWhile_cons, hc]
  | cons x xs =>
    have : dropTrailing ([c] ++ x :: xs) = [c] ++ x :: xs :=
      noTrail_append ht (by simp)
    simpa using this

theorem noTrail_of_no_ws {l : List Char} (h : ∀ c ∈ l, isPySpace c = false) :
    dropTrailing l = l := by
  rw [noTrail_iff_reverse]
  exact dropWhile_eq_self_of_no_ws (fun c hc => h c (List.mem_reverse.mp hc))

theorem pipe_not_mem_isoChars (dt : PyDateTime) : '|' ∉ isoChars dt := by
  intro h
  rcases mem_isoChars h with h1 | h1 | h1 | ⟨d, hd, hdc⟩
  · exact absurd h1 (by decide)
  · exact absurd h1 (by decide)
  · exact absurd h1 (by decide)
  · exact (digitChar_facts hd).2.2.1 hdc.symm

theorem nl_not_mem_isoChars (dt : PyDateTime) : '\n' ∉ isoChars dt := by
  intro h
  rcases mem_isoChars h with h1 | h1 | h1 | ⟨d, hd, hdc⟩
  · exact absurd h1 (by decide)
  · exact absurd h1 (by decide)
  · exact absurd h1 (by decide)
  · exact (digitChar_facts hd).2.2.2.1 hdc.symm

theorem no_ws_isoChars (dt : PyDateTime) : ∀ c ∈ isoChars dt, isPySpace c = false := by
  intro c hc
  rcases mem_isoChars hc with h1 | h1 | h1 | ⟨d, hd, hdc⟩
  · subst h1; decide
  · subst h1; decide
  · subst h1; decide
  · rw [hdc]; exact (digitChar_facts hd).1

theorem pipe_not_mem_floatChars (f : PyFloat) : '|' ∉ floatChars f := by
  intro h
  rcases mem_floatChars h with h1 | h1 | ⟨d, hd, hdc⟩
  · exact absurd h1 (by decide)
  · exact absurd h1 (by decide)
  · exact (digitChar_facts hd).2.2.1 hdc.symm

theorem nl_not_mem_floatChars (f : PyFloat) : '\n' ∉ floatChars f := by
  intro h
  rcases mem_floatChars h with h1 | h1 | ⟨d, hd, hdc⟩
  · exact absurd h1 (by decide)
  · exact absurd h1 (by decide)
  · exact (digitChar_facts hd).2.2.2.1 hdc.symm

theorem no_ws_floatChars (f : PyFloat) : ∀ c ∈ floatChars f, isPySpace c = false := by
  intro c hc
  rcases mem_floatChars hc with h1 | h1 | ⟨d, hd, hdc⟩
  · subst h1; decide
  · subst h1; decide
  · rw [hdc]; exact (digitChar_facts hd).1

theorem floatChars_ne_nil (f : PyFloat) : floatChars f ≠ [] := by
  unfold floatChars
  split
  · simp
  · simp

theorem replicate_space_ws (k : Nat) :
    ∀ c ∈ List.replicate k ' ', isPySpace c = true := by
  intro c hc
  rw [List.eq_of_mem_replicate hc]
  decide

theorem stripChars_ljust {l : List Char} (w : Nat) :
    stripChars (ljust w l) = stripChars l :=
  stripChars_append_ws l (replicate_space_ws _)

theorem strip_car_record (c : Car) (h : c.Valid) :
    stripChars (car_to_string c) = joinC '|' (carFields c) := by
  unfold car_to_string
  rw [stripChars_ljust]
  have hjoin : joinC '|' (carFields c) =
      c.vin ++ '|' :: (intToChars c.model ++ '|' :: (intToChars c.price ++ '|' ::
        (isoChars c.date_start ++ '|' :: c.status.value))) := rfl
  apply stripChars_eq_self
  · rw [hjoin]
    exact noLead_append_cons h.1.2.2 (by decide)
  · rw [hjoin]
    have h4 : dropTrailing c.status.value = c.status.value :=
      noTrail_of_no_ws (CarStatus.value_no_ws c.status)
    have h3 := noTrail_append (b := '|' :: c.status.value) (a := isoChars c.date_start)
      (noTrail_cons (by decide) h4) (by simp)
    have h2 := noTrail_append (b := '|' :: (isoChars c.date_start ++ '|' :: c.status.value))
      (a := intToChars c.price) (noTrail_cons (by decide) h3) (by simp)
    have h1 := noTrail_append
      (b := '|' :: (intToChars c.price ++ '|' :: (isoChars c.date_start ++ '|' :: c.status.value)))
      (a := intToChars c.model) (noTrail_cons (by decide) h2) (by simp)
    exact noTrail_append (noTrail_cons (by decide) h1) (by simp)

theorem pipe_free_carFields (c : Car) (h : c.Valid) : ∀ f ∈ carFields c, '|' ∉ f := by
  intro f hf
  simp only [carFields, List.mem_cons, List.not_mem_nil, or_false] at hf
  rcases hf with rfl | rfl | rfl | rfl | rfl
  · exact h.1.1
  · exact pipe_not_mem_intToChars _
  · exact pipe_not_mem_intToChars _
  · exact pipe_not_mem_isoChars _
  · exact CarStatus.pipe_not_mem_value _

theorem string_to_car_roundtrip (c : Car) (h : c.Valid) :
    string_to_car (car_to_string c) = some c := by
  have hsplit : splitOnC '|' (stripChars (car_to_string c)) = carFields c := by
    rw [strip_car_record c h]
    exact splitOnC_joinC (by simp [carFields]) (pipe_free_carFields c h)
  unfold string_to_car
  rw [hsplit]
  show (match carFields c with
    | [p0, p1, p2, p3, p4] =>
      match parseInt p1, parseInt p2, fromIsoChars p3, CarStatus.ofValue p4 with
      | some m, some pr, some dt, some st => some ⟨p0, m, pr, dt, st⟩
      | _, _, _, _ => none
    | _ => none) = some c
  simp only [carFields, parseInt_intToChars, fromIso_isoChars, CarStatus.ofValue_value]

theorem strip_sale_record (s : Sale) (h : s.Valid) :
    stripChars (sale_to_string s) = joinC '|' (saleFields s) := by
  unfold sale_to_string
  rw [stripChars_ljust]
  have hjoin : joinC '|' (saleFields s) =
      s.sales_number ++ '|' :: (s.car_vin ++ '|' :: (isoChars s.sales_date ++ '|' ::
        intToChars s.cost)) := rfl
  apply stripChars_eq_self
  · rw [hjoin]
    exact noLead_append_cons h.1.2.2 (by decide)
  · rw [hjoin]
    have h3 : dropTrailing (intToChars s.cost) = intToChars s.cost :=
      noTrail_of_no_ws (no_ws_intToChars s.cost)
    have h2 := noTrail_append (b := '|' :: intToChars s.cost) (a := isoChars s.sales_date)
      (noTrail_cons (by decide) h3) (by simp)
    have h1 := noTrail_append (b := '|' :: (isoChars s.sales_date ++ '|' :: intToChars s.cost))
      (a := s.car_vin) (noTrail_cons (by decide) h2) (by simp)
    exact noTrail_append (noTrail_cons (by decide) h1) (by simp)

theorem pipe_free_saleFields (s : Sale) (h : s.Valid) : ∀ f ∈ saleFields s, '|' ∉ f := by
  intro f hf
  simp only [saleFields, List.mem_cons, List.not_mem_nil, or_false] at hf
  rcases hf with rfl | rfl | rfl | rfl
  · exact h.1.1
  · exact h.2.1
  · exact pipe_not_mem_isoChars _
  · exact pipe_not_mem_intToChars _

theorem string_to_sale_roundtrip (s : Sale) (h : s.Valid) :
    string_to_sale (sale_to_string s) = some s := by
  have hsplit : splitOnC '|' (stripChars (sale_to_string s)) = saleFields s := by
    rw [strip_sale_record s h]
    exact splitOnC_joinC (by simp [saleFields]) (pipe_free_saleFields s h)
  unfold string_to_sale
  rw [hsplit]
  show (match saleFields s with
    | [p0, p1, p2, p3] =>
      match fromIsoChars p2, parseInt p3 with
      | some dt, some co => some ⟨p0, p1, dt, co⟩
      | _, _ => none
    | _ => none) = some s
  simp only [saleFields, parseInt_intToChars, fromIso_isoChars]

theorem strip_model_record (m : Model) (h : m.Valid) :
    stripChars (model_to_string m) = joinC '|' (modelFields m) := by
  unfold model_to_string
  rw [stripChars_ljust]
  have hjoin : joinC '|' (modelFields m) =
      intToChars m.id ++ '|' :: (m.name ++ '|' :: (m.brand ++ '|' ::
        ((m.production_start_year.map intToChars).getD [] ++ '|' ::
          (m.price.map floatChars).getD []))) := rfl
  apply stripChars_eq_self
  · rw [hjoin]
    exact noLead_append_cons (dropWhile_eq_self_of_no_ws (no_ws_intToChars m.id)) (by decide)
  · rw [hjoin]
    have h4 : dropTrailing ((m.price.map floatChars).getD []) =
        (m.price.map floatChars).getD [] := by
      cases hp : m.price with
      | none => simp [dropTrailing]
      | some f =>
        simp only [hp, Option.map_some', Option.getD_some]
        exact noTrail_of_no_ws (no_ws_floatChars f)
    have h3 := noTrail_append (b := '|' :: (m.price.map floatChars).getD [])
      (a := (m.production_start_year.map intToChars).getD [])
      (noTrail_cons (by decide) h4) (by simp)
    have h2 := noTrail_append
      (b := '|' :: ((m.production_start_year.map intToChars).getD [] ++ '|' ::
        (m.price.map floatChars).getD []))
      (a := m.brand) (noTrail_cons (by decide) h3) (by simp)
    have h1 := noTrail_append
      (b := '|' :: (m.brand ++ '|' :: ((m.production_start_year.map intToChars).getD [] ++ '|' ::
        (m.price.map floatChars).getD [])))
      (a := m.name) (noTrail_cons (by decide) h2) (by simp)
    exact noTrail_append (noTrail_cons (by decide) h1) (by simp)

theorem pipe_free_modelFields (m : Model) (h : m.Valid) : ∀ f ∈ modelFields m, '|' ∉ f := by
  intro f hf
  simp only [modelFields, List.mem_cons, List.not_mem_nil, or_false] at hf
  rcases hf with rfl | rfl | rfl | rfl | rfl
  · exact pipe_not_mem_intToChars _
  · exact h.1
  · exact h.2.2.1
  · cases hp : m.production_start_year with
    | none => simp
    | some y => simp only [hp, Option.map_some', Option.getD_some]; exact pipe_not_mem_intToChars _
  · cases hp : m.price with
    | none => simp
    | some f2 => simp only [hp, Option.map_some', Option.getD_some]; exact pipe_not_mem_floatChars _

theorem string_to_model_roundtrip (m : Model) (h : m.Valid) :
    string_to_model (model_to_string m) = some m := by
  have hsplit : splitOnC '|' (stripChars (model_to_string m)) = modelFields m := by
    rw [strip_model_record m h]
    exact splitOnC_joinC (by simp [modelFields]) (pipe_free_modelFields m h)
  unfold string_to_model
  rw [hsplit]
  cases hy : m.production_start_year with
  | none =>
    cases hp : m.price with
    | none =>
      simp only [modelFields, hy, hp, Option.map_none', Option.getD_none]
      simp [parseInt_intToChars, ← hy, ← hp]
    | some f =>
      simp only [modelFields, hy, hp, Option.map_none', Option.getD_none,
        Option.map_some', Option.getD_some]
      simp [parseInt_intToChars, parseFloat_floatChars, floatChars_ne_nil f, ← hy, ← hp]
  | some y =>
    cases hp : m.price with
    | none =>
      simp only [modelFields, hy, hp, Option.map_none', Option.getD_none,
        Option.map_some', Option.getD_some]
      simp [parseInt_intToChars, intToChars_ne_nil y, ← hy, ← hp]
    | some f =>
      simp only [modelFields, hy, hp, Option.map_some', Option.getD_some]
      simp [parseInt_intToChars, parseFloat_floatChars, intToChars_ne_nil y,
        floatChars_ne_nil f, ← hy, ← hp]

/-- C2: for every valid entity of each of the three entity types whose
delimiter-joined encoding is at most 500 characters, decoding the encoded
record yields the entity back, optional Model fields included. -/
theorem claim_C2_codec_roundtrip :
    (∀ c : Car, c.Valid → string_to_car (car_to_string c) = some c) ∧
    (∀ m : Model, m.Valid → string_to_model (model_to_string m) = some m) ∧
    (∀ s : Sale, s.Valid → string_to_sale (sale_to_string s) = some s) :=
  ⟨string_to_car_roundtrip, string_to_model_roundtrip, string_to_sale_roundtrip⟩

/-- Witness for C2 at concrete entities. -/
theorem claim_C2_codec_roundtrip_witness :
    wcarC2.Valid ∧ wmodelC2.Valid ∧ wsaleC2.Valid ∧
    string_to_car (car_to_string wcarC2) = some wcarC2 ∧
    string_to_model (model_to_string wmodelC2) = some wmodelC2 ∧
    string_to_sale (sale_to_string wsaleC2) = some wsaleC2 :=
  ⟨by decide, by decide, by decide,
   claim_C2_codec_roundtrip.1 wcarC2 (by decide),
   claim_C2_codec_roundtrip.2.1 wmodelC2 (by decide),
   claim_C2_codec_roundtrip.2.2 wsaleC2 (by decide)⟩

theorem no_ws_natToChars (n : Nat) : ∀ c ∈ natToChars n, isPySpace c = false := by
  intro c hc
  obtain ⟨d, hd, hdc⟩ := mem_natToChars hc
  rw [hdc]
  exact (digitChar_facts hd).1

theorem pipe_not_mem_natToChars (n : Nat) : '|' ∉ natToChars n := by
  intro h
  obtain ⟨d, hd, hdc⟩ := mem_natToChars h
  exact (digitChar_facts hd).2.2.1 hdc.symm

theorem nl_not_mem_natToChars (n : Nat) : '\n' ∉ natToChars n := by
  intro h
  obtain ⟨d, hd, hdc⟩ := mem_natToChars h
  exact (digitChar_facts hd).2.2.2.1 hdc.symm

theorem intToChars_ofNat (n : Nat) : intToChars (Int.ofNat n) = natToChars n := by
  unfold intToChars
  rw [if_neg (by simp)]
  congr 1

theorem parseInt_natToChars (n : Nat) : parseInt (natToChars n) = some (Int.ofNat n) := by
  have h := parseInt_intToChars (Int.ofNat n)
  rwa [intToChars_ofNat] at h

theorem insertBy_perm {α : Type} (le : α → α → Bool) (x : α) (l : List α) :
    (insertBy le x l).Perm (x :: l) := by
  induction l with
  | nil => exact List.Perm.refl _
  | cons y ys ih =>
    unfold insertBy
    split
    · exact (List.Perm.cons y ih).trans (List.Perm.swap x y ys)
    · exact List.Perm.refl _

theorem foldl_insertBy_perm {α : Type} (le : α → α → Bool) (l : List α) :
    ∀ acc, (l.foldl (fun a x => insertBy le x a) acc).Perm (acc ++ l) := by
  induction l with
  | nil => intro acc; simp
  | cons x xs ih =>
    intro acc
    simp only [List.foldl_cons]
    refine (ih (insertBy le x acc)).trans ?_
    refine (List.Perm.append_right xs (insertBy_perm le x acc)).trans ?_
    exact List.perm_middle.symm

theorem sortBy_perm {α : Type} (le : α → α → Bool) (l : List α) :
    (sortBy le l).Perm l := by
  have h := foldl_insertBy_perm le l []
  simpa [sortBy] using h

theorem insertBy_sorted {α : Type} {le : α → α → Bool}
    (htrans : ∀ a b c, le a b = true → le b c = true → le a c = true)
    (htotal : ∀ a b, le a b = true ∨ le b a = true)
    (x : α) {l : List α} (hl : l.Pairwise (fun a b => le a b = true)) :
    (insertBy le x l).Pairwise (fun a b => le a b = true) := by
  induction l with
  | nil => simp [insertBy]
  | cons y ys ih =>
    rcases List.pairwise_cons.mp hl with ⟨hy, hys⟩
    unfold insertBy
    split
    case isTrue hyx =>
      rw [List.pairwise_cons]
      refine ⟨?_, ih hys⟩
      intro z hz
      have hmem := (insertBy_perm le x ys).mem_iff.mp hz
      rcases List.mem_cons.mp hmem with rfl | hzys
      · exact hyx
      · exact hy z hzys
    case isFalse hyx =>
      have hxy : le x y = true := by
        rcases htotal x y with h | h
        · exact h
        · exact absurd h hyx
      rw [List.pairwise_cons]
      refine ⟨?_, hl⟩
      intro z hz
      rcases List.mem_cons.mp hz with rfl | hzys
      · exact hxy
      · exact htrans _ _ _ hxy (hy z hzys)

theorem sortBy_sorted {α : Type} {le : α → α → Bool}
    (htrans : ∀ a b c, le a b = true → le b c = true → le a c = true)
    (htotal : ∀ a b, le a b = true ∨ le b a = true)
    (l : List α) : (sortBy le l).Pairwise (fun a b => le a b = true) := by
  suffices h : ∀ acc, acc.Pairwise (fun a b => le a b = true) →
      (l.foldl (fun a x => insertBy le x a) acc).Pairwise (fun a b => le a b = true) by
    exact h [] (by simp)
  induction l with
  | nil => intro acc hacc; exact hacc
  | cons x xs ih =>
    intro acc hacc
    simp only [List.foldl_cons]
    exact ih _ (insertBy_sorted htrans htotal x hacc)

theorem charsLe_total (a b : List Char) : charsLe a b = true ∨ charsLe b a = true := by
  induction a generalizing b with
  | nil => left; rfl
  | cons x xs ih =>
    cases b with
    | nil => right; rfl
    | cons y ys =>
      by_cases hxy : x = y
      · subst hxy
        simp only [charsLe, if_pos rfl]
        exact ih ys
      · simp only [charsLe, if_neg hxy, if_neg (Ne.symm hxy)]
        rcases lt_or_gt_of_ne hxy with h | h
        · left; exact decide_eq_true h
        · right; exact decide_eq_true h

theorem charsLe_trans (a b c : List Char) (h1 : charsLe a b = true)
    (h2 : charsLe b c = true) : charsLe a c = true := by
  induction a generalizing b c with
  | nil => rfl
  | cons x xs ih =>
    cases b with
    | nil => exact absurd h1 (by simp [charsLe])
    | cons y ys =>
      cases c with
      | nil => exact absurd h2 (by simp [charsLe])
      | cons z zs =>
        by_cases hxy : x = y
        · subst hxy
          simp only [charsLe, if_pos rfl] at h1
          by_cases hyz : x = z
          · subst hyz
            simp only [charsLe, if_pos rfl] at h2 ⊢
            exact ih ys zs h1 h2
          · simp only [charsLe, if_neg hyz] at h2 ⊢
            exact h2
        · simp only [charsLe, if_neg hxy] at h1
          have hxyl : x < y := of_decide_eq_true h1
          by_cases hyz : y = z
          · subst hyz
            simp only [charsLe, if_neg hxy]
            exact decide_eq_true hxyl
          · simp only [charsLe, if_neg hyz] at h2
            have hyzl : y < z := of_decide_eq_true h2
            have hxz : x < z := lt_trans hxyl hyzl
            simp only [charsLe, if_neg (ne_of_lt hxz)]
            exact decide_eq_true hxz

theorem keyLe_total (a b : IdxEntry) : keyLe a b = true ∨ keyLe b a = true :=
  charsLe_total a.1 b.1

theorem keyLe_trans (a b c : IdxEntry) (h1 : keyLe a b = true) (h2 : keyLe b c = true) :
    keyLe a c = true :=
  charsLe_trans a.1 b.1 c.1 h1 h2

theorem strip_idx_line {k : List Char} (hk : WfKey k) (n : Nat) :
    stripChars (k ++ '|' :: natToChars n ++ ['\n']) = k ++ '|' :: natToChars n := by
  have h1 : stripChars ((k ++ '|' :: natToChars n) ++ ['\n']) =
      stripChars (k ++ '|' :: natToChars n) := by
    apply stripChars_append_ws
    intro c hc
    rw [List.mem_singleton.mp hc]
    decide
  have h2 : stripChars (k ++ '|' :: natToChars n) = k ++ '|' :: natToChars n := by
    apply stripChars_eq_self
    · exact noLead_append_cons hk.2.2 (by decide)
    · exact noTrail_append (noTrail_cons (by decide) (noTrail_of_no_ws (no_ws_natToChars n)))
        (by simp)
  calc stripChars (k ++ '|' :: natToChars n ++ ['\n'])
      = stripChars ((k ++ '|' :: natToChars n) ++ ['\n']) := by simp
    _ = k ++ '|' :: natToChars n := by rw [h1, h2]

theorem nl_not_mem_idx_entry {k : List Char} (hk : WfKey k) (n : Nat) :
    '\n' ∉ k ++ '|' :: natToChars n := by
  intro h
  rcases List.mem_append.mp h with h1 | h1
  · exact hk.2.1 h1
  · rcases List.mem_cons.mp h1 with h2 | h2
    · exact absurd h2.symm (by decide)
    · exact nl_not_mem_natToChars n h2

theorem splitOnC_idx_entry {k : List Char} (hk : WfKey k) (n : Nat) :
    splitOnC '|' (k ++ '|' :: natToChars n) = [k, natToChars n] := by
  rw [splitOnC_append_sep _ hk.1, splitOnC_of_not_mem (pipe_not_mem_natToChars n)]

theorem splitKeep_reifyIdx {e : IdxEntry} (he : WfKey e.1) (es : List IdxEntry) :
    splitKeep (reifyIdx (e :: es)) =
      ((e.1 ++ '|' :: natToChars e.2) ++ ['\n']) :: splitKeep (reifyIdx es) := by
  have hform : reifyIdx (e :: es) = (e.1 ++ '|' :: natToChars e.2) ++ '\n' :: reifyIdx es := by
    simp [reifyIdx]
  rw [hform, splitKeep_append_line _ (nl_not_mem_idx_entry he e.2)]

theorem parseIndexLines_reify (es : List IdxEntry) (hwf : ∀ e ∈ es, WfKey e.1) :
    parseIndexLines (reifyIdx es) = es.map (fun e => [e.1, natToChars e.2]) := by
  induction es with
  | nil => rfl
  | cons e es ih =>
    have hk := hwf e (List.mem_cons_self e es)
    have hstrip : stripChars ((e.1 ++ '|' :: natToChars e.2) ++ ['\n']) =
        e.1 ++ '|' :: natToChars e.2 := by
      have := strip_idx_line hk e.2
      simpa using this
    unfold parseIndexLines
    rw [splitKeep_reifyIdx hk es]
    rw [List.filter_cons]
    have hne : (stripChars ((e.1 ++ '|' :: natToChars e.2) ++ ['\n'])).isEmpty = false := by
      rw [hstrip]
      cases e.1 <;> simp
    rw [hne]
    simp only [Bool.not_false, if_pos]
    rw [List.map_cons, hstrip, splitOnC_idx_entry hk e.2]
    have ih2 := ih (fun x hx => hwf x (List.mem_cons_of_mem e hx))
    unfold parseIndexLines at ih2
    rw [ih2]
    simp

theorem findLineNumAux_reify (es : List IdxEntry) (hwf : ∀ e ∈ es, WfKey e.1)
    (k : List Char) :
    findLineNumAux (splitKeep (reifyIdx es)) k =
      .ok ((lookupEntries es k).map Int.ofNat) := by
  induction es with
  | nil => rfl
  | cons e es ih =>
    have hk := hwf e (List.mem_cons_self e es)
    rw [splitKeep_reifyIdx hk es]
    unfold findLineNumAux
    have hstrip : stripChars ((e.1 ++ '|' :: natToChars e.2) ++ ['\n']) =
        e.1 ++ '|' :: natToChars e.2 := by
      have := strip_idx_line hk e.2
      simpa using this
    rw [hstrip, splitOnC_idx_entry hk e.2]
    by_cases hek : e.1 = k
    · simp only [List.headD_cons, if_pos hek]
      simp only [List.getElem?_cons_succ, List.getElem?_cons_zero]
      rw [parseInt_natToChars]
      have hfind : lookupEntries (e :: es) k = some e.2 := by
        unfold lookupEntries
        rw [List.find?_cons_of_pos _ (by simpa using hek)]
        rfl
      rw [hfind]
      rfl
    · simp only [List.headD_cons, if_neg hek]
      have hfind : lookupEntries (e :: es) k = lookupEntries es k := by
        unfold lookupEntries
        rw [List.find?_cons_of_neg _ (by simpa using hek)]
      rw [hfind]
      exact ih (fun x hx => hwf x (List.mem_cons_of_mem e hx))

theorem find_line_number_in_index_reify (es : List IdxEntry)
    (hwf : ∀ e ∈ es, WfKey e.1) (k : List Char) :
    find_line_number_in_index (reifyIdx es) k =
      .ok ((lookupEntries es k).map Int.ofNat) :=
  findLineNumAux_reify es hwf k

theorem insertBy_map {α β : Type} (le1 : α → α → Bool) (le2 : β → β → Bool)
    (f : α → β) (hle : ∀ a b, le2 (f a) (f b) = le1 a b) (x : α) (l : List α) :
    insertBy le2 (f x) (l.map f) = (insertBy le1 x l).map f := by
  induction l with
  | nil => rfl
  | cons y ys ih =>
    simp only [List.map_cons, insertBy, hle]
    split
    · rw [ih, List.map_cons]
    · rfl

theorem sortBy_map {α β : Type} (le1 : α → α → Bool) (le2 : β → β → Bool)
    (f : α → β) (hle : ∀ a b, le2 (f a) (f b) = le1 a b) (l : List α) :
    sortBy le2 (l.map f) = (sortBy le1 l).map f := by
  suffices h : ∀ acc, (l.map f).foldl (fun a x => insertBy le2 x a) (acc.map f) =
      (l.foldl (fun a x => insertBy le1 x a) acc).map f by
    have h2 := h []
    simpa [sortBy] using h2
  induction l with
  | nil => intro acc; rfl
  | cons x xs ih =>
    intro acc
    simp only [List.map_cons, List.foldl_cons]
    rw [insertBy_map le1 le2 f hle, ih]

theorem mapMExcept_print (l : List IdxEntry) :
    mapMExcept printIndexEntry (l.map (fun e => [e.1, natToChars e.2])) =
      .ok (l.map (fun e => e.1 ++ '|' :: natToChars e.2 ++ ['\n'])) := by
  induction l with
  | nil => rfl
  | cons e es ih =>
    simp only [List.map_cons, mapMExcept]
    rw [show printIndexEntry [e.1, natToChars e.2] =
      .ok (e.1 ++ '|' :: natToChars e.2 ++ ['\n']) from rfl]
    rw [ih]

theorem update_index_reify (es : List IdxEntry) (hwf : ∀ e ∈ es, WfKey e.1)
    (k : List Char) (n : Nat) :
    update_index (reifyIdx es) k (Int.ofNat n) = .ok (reifyIdx (upsertEntries es k n)) := by
  unfold update_index
  rw [parseIndexLines_reify es hwf]
  rw [List.filter_map]
  have hpred : ((fun e : List (List Char) => decide ¬(e.headD [] = k)) ∘
      (fun e : IdxEntry => [e.1, natToChars e.2])) =
      (fun e : IdxEntry => decide ¬(e.1 = k)) := rfl
  rw [hpred, intToChars_ofNat]
  have happ : (es.filter (fun e => decide ¬(e.1 = k))).map
        (fun e : IdxEntry => [e.1, natToChars e.2]) ++ [[k, natToChars n]] =
      ((es.filter (fun e => decide ¬(e.1 = k))) ++ [(k, n)]).map
        (fun e : IdxEntry => [e.1, natToChars e.2]) := by
    rw [List.map_append]
    rfl
  rw [happ, sortBy_map keyLe entryLe (fun e : IdxEntry => [e.1, natToChars e.2]) (fun a b => rfl), mapMExcept_print]
  rfl

theorem remove_from_index_reify (es : List IdxEntry) (hwf : ∀ e ∈ es, WfKey e.1)
    (k : List Char) :
    remove_from_index (reifyIdx es) k = .ok (reifyIdx (removeEntries es k)) := by
  unfold remove_from_index
  rw [parseIndexLines_reify es hwf]
  rw [List.filter_map]
  have hpred : ((fun e : List (List Char) => decide ¬(e.headD [] = k)) ∘
      (fun e : IdxEntry => [e.1, natToChars e.2])) =
      (fun e : IdxEntry => decide ¬(e.1 = k)) := rfl
  rw [hpred, sortBy_map keyLe entryLe (fun e : IdxEntry => [e.1, natToChars e.2]) (fun a b => rfl), mapMExcept_print]
  rfl

theorem wf_upsertEntries {es : List IdxEntry} {k : List Char} {n : Nat}
    (hwf : ∀ e ∈ es, WfKey e.1) (hk : WfKey k) :
    ∀ e ∈ upsertEntries es k n, WfKey e.1 := by
  intro e he
  have hmem := (sortBy_perm keyLe _).mem_iff.mp he
  rcases List.mem_append.mp hmem with h1 | h1
  · exact hwf e (List.mem_of_mem_filter h1)
  · rw [List.mem_singleton.mp h1]; exact hk

theorem wf_removeEntries {es : List IdxEntry} {k : List Char}
    (hwf : ∀ e ∈ es, WfKey e.1) :
    ∀ e ∈ removeEntries es k, WfKey e.1 := by
  intro e he
  have hmem := (sortBy_perm keyLe _).mem_iff.mp he
  exact hwf e (List.mem_of_mem_filter hmem)

theorem nodup_filter_keys {es : List IdxEntry} (h : (es.map Prod.fst).Nodup)
    (p : IdxEntry → Bool) : ((es.filter p).map Prod.fst).Nodup :=
  h.sublist (List.Sublist.map _ (List.filter_sublist es))

theorem nodup_keys_upsert {es : List IdxEntry} {k : List Char} {n : Nat}
    (h : (es.map Prod.fst).Nodup) :
    ((upsertEntries es k n).map Prod.fst).Nodup := by
  unfold upsertEntries
  have hperm := (sortBy_perm keyLe (es.filter (fun e => decide ¬(e.1 = k)) ++ [(k, n)])).map
    Prod.fst
  rw [List.Perm.nodup_iff hperm, List.map_append]
  apply List.Nodup.append
  · exact nodup_filter_keys h _
  · simp
  · intro x hx hx2
    simp only [List.map_cons, List.map_nil, List.mem_singleton] at hx2
    subst hx2
    obtain ⟨e, he, hek⟩ := List.mem_map.mp hx
    have := List.of_mem_filter he
    simp only [decide_not, Bool.not_eq_eq_eq_not, Bool.not_true, decide_eq_false_iff_not] at this
    exact this hek

theorem nodup_keys_remove {es : List IdxEntry} {k : List Char}
    (h : (es.map Prod.fst).Nodup) :
    ((removeEntries es k).map Prod.fst).Nodup := by
  unfold removeEntries
  have hperm := (sortBy_perm keyLe (es.filter (fun e => decide ¬(e.1 = k)))).map Prod.fst
  rw [List.Perm.nodup_iff hperm]
  exact nodup_filter_keys h _

theorem lookup_of_mem_nodupKeys {es : List IdxEntry} (h : (es.map Prod.fst).Nodup)
    {k : List Char} {n : Nat} (hmem : (k, n) ∈ es) : lookupEntries es k = some n := by
  induction es with
  | nil => cases hmem
  | cons e es ih =>
    rw [List.map_cons, List.nodup_cons] at h
    rcases List.mem_cons.mp hmem with he | hmem2
    · rw [← he]
      unfold lookupEntries
      rw [List.find?_cons_of_pos _ (by simp)]
      rfl
    · have hne : e.1 ≠ k := by
        intro hek
        apply h.1
        rw [hek]
        exact List.mem_map_of_mem Prod.fst hmem2
      unfold lookupEntries
      rw [List.find?_cons_of_neg _ (by simpa using hne)]
      exact ih h.2 hmem2

theorem mem_upsertEntries (es : List IdxEntry) (k : List Char) (n : Nat) :
    (k, n) ∈ upsertEntries es k n := by
  unfold upsertEntries
  rw [(sortBy_perm keyLe _).mem_iff]
  simp

theorem lookup_upsertEntries (es : List IdxEntry) (k : List Char) (n : Nat)
    (h : (es.map Prod.fst).Nodup) :
    lookupEntries (upsertEntries es k n) k = some n :=
  lookup_of_mem_nodupKeys (nodup_keys_upsert h) (mem_upsertEntries es k n)

theorem sorted_upsertEntries (es : List IdxEntry) (k : List Char) (n : Nat) :
    (upsertEntries es k n).Pairwise (fun a b => keyLe a b = true) :=
  sortBy_sorted keyLe_trans keyLe_total _

theorem sorted_removeEntries (es : List IdxEntry) (k : List Char) :
    (removeEntries es k).Pairwise (fun a b => keyLe a b = true) :=
  sortBy_sorted keyLe_trans keyLe_total _

theorem applyIdxOps_reify (ops : List IdxOp) :
    ∀ es : List IdxEntry, (∀ e ∈ es, WfKey e.1) → (∀ op ∈ ops, WfKey op.key) →
    (es.map Prod.fst).Nodup →
    applyIdxOps (reifyIdx es) ops = .ok (reifyIdx (ops.foldl absApplyOp es)) ∧
    (∀ e ∈ ops.foldl absApplyOp es, WfKey e.1) ∧
    ((ops.foldl absApplyOp es).map Prod.fst).Nodup := by
  induction ops with
  | nil => intro es h1 _ h3; exact ⟨rfl, h1, h3⟩
  | cons op ops ih =>
    intro es h1 h2 h3
    have hop : WfKey op.key := h2 op (List.mem_cons_self _ _)
    cases op with
    | upsert k n =>
      have hbridge := update_index_reify es h1 k n
      have h1b : ∀ e ∈ upsertEntries es k n, WfKey e.1 := wf_upsertEntries h1 hop
      have h3b := nodup_keys_upsert (k := k) (n := n) h3
      have hrest := ih (upsertEntries es k n) h1b
        (fun o ho => h2 o (List.mem_cons_of_mem _ ho)) h3b
      refine ⟨?_, hrest.2.1, hrest.2.2⟩
      simp only [applyIdxOps, applyIdxOp, hbridge, List.foldl_cons, absApplyOp]
      exact hrest.1
    | removeOp k =>
      have hbridge := remove_from_index_reify es h1 k
      have h1b : ∀ e ∈ removeEntries es k, WfKey e.1 := wf_removeEntries h1
      have h3b := nodup_keys_remove (k := k) h3
      have hrest := ih (removeEntries es k) h1b
        (fun o ho => h2 o (List.mem_cons_of_mem _ ho)) h3b
      refine ⟨?_, hrest.2.1, hrest.2.2⟩
      simp only [applyIdxOps, applyIdxOp, hbridge, List.foldl_cons, absApplyOp]
      exact hrest.1

theorem foldl_absApply_sorted (ops : List IdxOp) :
    ∀ es : List IdxEntry, es.Pairwise (fun a b => keyLe a b = true) →
    (ops.foldl absApplyOp es).Pairwise (fun a b => keyLe a b = true) := by
  induction ops with
  | nil => intro es h; exact h
  | cons op ops ih =>
    intro es h
    simp only [List.foldl_cons]
    apply ih
    cases op with
    | upsert k n => exact sorted_upsertEntries es k n
    | removeOp k => exact sorted_removeEntries es k

/-- C7: from a sorted, duplicate-free, well-formed index file, any sequence
of upserts and removals leaves the index file the serialization of a sorted
entry list with pairwise-distinct identifiers, and a sequence ending in an
upsert of (id, n) leaves id mapped to exactly n. -/
theorem claim_C7_index_invariants (es : List IdxEntry) (ops : List IdxOp)
    (hwf : ∀ e ∈ es, WfKey e.1)
    (hops : ∀ op ∈ ops, WfKey op.key)
    (hsorted : es.Pairwise (fun a b => keyLe a b = true))
    (hnodup : (es.map Prod.fst).Nodup) :
    applyIdxOps (reifyIdx es) ops = .ok (reifyIdx (ops.foldl absApplyOp es)) ∧
    (ops.foldl absApplyOp es).Pairwise (fun a b => keyLe a b = true) ∧
    ((ops.foldl absApplyOp es).map Prod.fst).Nodup ∧
    (∀ ops0 k n, ops = ops0 ++ [IdxOp.upsert k n] →
      lookupEntries (ops.foldl absApplyOp es) k = some n) := by
  obtain ⟨hrun, hwf2, hnodup2⟩ := applyIdxOps_reify ops es hwf hops hnodup
  refine ⟨hrun, foldl_absApply_sorted ops es hsorted, hnodup2, ?_⟩
  intro ops0 k n hops0
  subst hops0
  rw [List.foldl_append]
  simp only [List.foldl_cons, List.foldl_nil, absApplyOp]
  apply lookup_upsertEntries
  exact (applyIdxOps_reify ops0 es hwf
    (fun o ho => hops o (List.mem_append_left _ ho)) hnodup).2.2

/-- Witness for C7 at a concrete index and operation sequence. -/
theorem claim_C7_index_invariants_witness :
    applyIdxOps (reifyIdx wIdxEs) wIdxOps =
      .ok (reifyIdx (wIdxOps.foldl absApplyOp wIdxEs)) ∧
    lookupEntries (wIdxOps.foldl absApplyOp wIdxEs) (toChars "B") = some 3 := by
  have h := claim_C7_index_invariants wIdxEs wIdxOps (by decide) (by decide)
    (by decide) (by decide)
  exact ⟨h.1, h.2.2.2 [IdxOp.upsert (toChars "B") 2, IdxOp.removeOp (toChars "A")]
    (toChars "B") 3 (by decide)⟩

/-- C8 counterexample: the append path never checks the payload width, so a
501-character payload is written unpadded and the file grows by 502 bytes,
not by one 501-byte slot as the claim states for every payload string. -/
theorem claim_C8_append_counterexample :
    ((write_record_and_update_index [] [] (toChars "K") (List.replicate 501 'a')).1).length =
      502 ∧ (502 : Nat) ≠ ([] : List Char).length + LINE_RECORD_LENGTH := by
  constructor
  · decide
  · decide

/-- C8 (amended): for every data file whose byte length is a multiple of 501,
every well-formed index file, and every payload of at most 500 characters,
the append operation writes the payload left-justified space-padded to 500
characters plus one terminator at the end of the file, upserts the index
with record index fileSize div 501, and grows the data file by exactly 501
bytes. -/
theorem claim_C8_append (file : List Char) (es : List IdxEntry)
    (entityId data : List Char)
    (hmul : file.length % LINE_RECORD_LENGTH = 0)
    (hwf : ∀ e ∈ es, WfKey e.1)
    (hdata : data.length ≤ RECORD_LENGTH) :
    write_record_and_update_index file (reifyIdx es) entityId data =
      (file ++ ljust RECORD_LENGTH data ++ ['\n'],
       Except.ok (reifyIdx (upsertEntries es entityId
         (file.length / LINE_RECORD_LENGTH)))) ∧
    (write_record_and_update_index file (reifyIdx es) entityId data).1.length =
      file.length + LINE_RECORD_LENGTH := by
  constructor
  · unfold write_record_and_update_index
    rw [update_index_reify es hwf]
  · unfold write_record_and_update_index ljust
    simp only [List.length_append, List.length_replicate, List.length_cons, List.length_nil]
    unfold RECORD_LENGTH at hdata
    unfold RECORD_LENGTH LINE_RECORD_LENGTH
    omega

/-- Witness for C8 at a concrete one-slot file, one-entry index and short
payload. -/
theorem claim_C8_append_witness :
    write_record_and_update_index (List.replicate 501 'x') (reifyIdx [(toChars "A", 0)])
        (toChars "B") (toChars "hello") =
      (List.replicate 501 'x' ++ ljust RECORD_LENGTH (toChars "hello") ++ ['\n'],
       Except.ok (reifyIdx (upsertEntries [(toChars "A", 0)] (toChars "B")
         ((List.replicate 501 'x').length / LINE_RECORD_LENGTH)))) :=
  (claim_C8_append (List.replicate 501 'x') [(toChars "A", 0)] (toChars "B")
    (toChars "hello") (by decide) (by decide) (by decide)).1

theorem strip_car_core (c : Car) (h : c.Valid) :
    stripChars (joinC '|' (carFields c)) = joinC '|' (carFields c) := by
  have h1 := strip_car_record c h
  unfold car_to_string at h1
  rwa [stripChars_ljust] at h1

theorem string_to_car_core (c : Car) (h : c.Valid) :
    string_to_car (joinC '|' (carFields c)) = some c := by
  unfold string_to_car
  rw [strip_car_core c h, splitOnC_joinC (by simp [carFields]) (pipe_free_carFields c h)]
  show (match carFields c with
    | [p0, p1, p2, p3, p4] =>
      match parseInt p1, parseInt p2, fromIsoChars p3, CarStatus.ofValue p4 with
      | some m, some pr, some dt, some st => some ⟨p0, m, pr, dt, st⟩
      | _, _, _, _ => none
    | _ => none) = some c
  simp only [carFields, parseInt_intToChars, fromIso_isoChars, CarStatus.ofValue_value]

theorem strip_sale_core (s : Sale) (h : s.Valid) :
    stripChars (joinC '|' (saleFields s)) = joinC '|' (saleFields s) := by
  have h1 := strip_sale_record s h
  unfold sale_to_string at h1
  rwa [stripChars_ljust] at h1

theorem string_to_sale_core (s : Sale) (h : s.Valid) :
    string_to_sale (joinC '|' (saleFields s)) = some s := by
  unfold string_to_sale
  rw [strip_sale_core s h, splitOnC_joinC (by simp [saleFields]) (pipe_free_saleFields s h)]
  show (match saleFields s with
    | [p0, p1, p2, p3] =>
      match fromIsoChars p2, parseInt p3 with
      | some dt, some co => some ⟨p0, p1, dt, co⟩
      | _, _ => none
    | _ => none) = some s
  simp only [saleFields, parseInt_intToChars, fromIso_isoChars]

theorem ljust_length {w : Nat} {l : List Char} (h : l.length ≤ w) :
    (ljust w l).length = w := by
  unfold ljust
  rw [List.length_append, List.length_replicate]
  omega

theorem ljust_of_ge {w : Nat} {l : List Char} (h : w ≤ l.length) : ljust w l = l := by
  unfold ljust
  have : w - l.length = 0 := by omega
  rw [this]
  simp

theorem car_to_string_length {c : Car} (h : c.Valid) :
    (car_to_string c).length = RECORD_LENGTH := ljust_length h.2

theorem sale_to_string_length {s : Sale} (h : s.Valid) :
    (sale_to_string s).length = RECORD_LENGTH := ljust_length h.2.2.2

theorem model_to_string_length {m : Model} (h : m.Valid) :
    (model_to_string m).length = RECORD_LENGTH := ljust_length h.2.2.2.2.2

theorem carSlotOk_some {c : Car} (h : CarSlotOk (some c)) : c.Valid := by
  simpa [CarSlotOk] using h

theorem saleSlotOk_some {s : Sale} (h : SaleSlotOk (some s)) : s.Valid := by
  simpa [SaleSlotOk] using h

theorem modelSlotOk_some {m : Model} (h : ModelSlotOk (some m)) : m.Valid := by
  simpa [ModelSlotOk] using h

theorem carSlotChars_length {s : Option Car} (h : CarSlotOk s) :
    (carSlotChars s).length = LINE_RECORD_LENGTH := by
  cases s with
  | none => simp [carSlotChars, RECORD_LENGTH, LINE_RECORD_LENGTH]
  | some c =>
    simp [carSlotChars, car_to_string_length (carSlotOk_some h),
      RECORD_LENGTH, LINE_RECORD_LENGTH]

theorem saleSlotChars_length {s : Option Sale} (h : SaleSlotOk s) :
    (saleSlotChars s).length = LINE_RECORD_LENGTH := by
  cases s with
  | none => simp [saleSlotChars, RECORD_LENGTH, LINE_RECORD_LENGTH]
  | some c =>
    simp [saleSlotChars, sale_to_string_length (saleSlotOk_some h),
      RECORD_LENGTH, LINE_RECORD_LENGTH]

theorem modelSlotChars_length {s : Option Model} (h : ModelSlotOk s) :
    (modelSlotChars s).length = LINE_RECORD_LENGTH := by
  cases s with
  | none => simp [modelSlotChars, RECORD_LENGTH, LINE_RECORD_LENGTH]
  | some c =>
    simp [modelSlotChars, model_to_string_length (modelSlotOk_some h),
      RECORD_LENGTH, LINE_RECORD_LENGTH]

theorem flatten_length_of_uniform {ls : List (List Char)}
    (h : ∀ l ∈ ls, l.length = LINE_RECORD_LENGTH) :
    ls.flatten.length = LINE_RECORD_LENGTH * ls.length := by
  induction ls with
  | nil => simp
  | cons l ls ih =>
    simp only [List.flatten_cons, List.length_append, List.length_cons]
    rw [h l (List.mem_cons_self l ls), ih (fun x hx => h x (List.mem_cons_of_mem l hx))]
    ring

theorem readAt_flatten {ls : List (List Char)}
    (h : ∀ l ∈ ls, l.length = LINE_RECORD_LENGTH) (i : Nat) (hi : i < ls.length) :
    readAt ls.flatten (i * LINE_RECORD_LENGTH) RECORD_LENGTH =
      (ls.getD i []).take RECORD_LENGTH := by
  induction ls generalizing i with
  | nil => simp at hi
  | cons l ls ih =>
    have hl : l.length = LINE_RECORD_LENGTH := h l (List.mem_cons_self l ls)
    cases i with
    | zero =>
      unfold readAt
      simp only [List.flatten_cons, Nat.zero_mul, List.drop_zero, List.getD_cons_zero]
      rw [List.take_append_of_le_length]
      rw [hl]
      unfold RECORD_LENGTH LINE_RECORD_LENGTH
      omega
    | succ j =>
      unfold readAt
      simp only [List.flatten_cons, List.getD_cons_succ]
      have harith : (j + 1) * LINE_RECORD_LENGTH = l.length + j * LINE_RECORD_LENGTH := by
        rw [hl]; ring
      rw [harith, List.drop_append]
      have := ih (fun x hx => h x (List.mem_cons_of_mem l hx)) j
        (by simpa using Nat.lt_of_succ_lt_succ hi)
      unfold readAt at this
      exact this

theorem writeAt_flatten {ls : List (List Char)}
    (h : ∀ l ∈ ls, l.length = LINE_RECORD_LENGTH) (i : Nat) (hi : i < ls.length)
    {new : List Char} (hnew : new.length = LINE_RECORD_LENGTH) :
    writeAt ls.flatten (i * LINE_RECORD_LENGTH) new = (ls.set i new).flatten := by
  induction ls generalizing i with
  | nil => simp at hi
  | cons l ls ih =>
    have hl : l.length = LINE_RECORD_LENGTH := h l (List.mem_cons_self l ls)
    cases i with
    | zero =>
      unfold writeAt
      simp only [List.flatten_cons, Nat.zero_mul, List.take_zero, List.nil_append,
        List.set_cons_zero, Nat.zero_add]
      congr 1
      have harith : new.length = l.length + 0 := by rw [hl, hnew]; omega
      rw [harith, List.drop_append, List.drop_zero]
    | succ j =>
      unfold writeAt
      simp only [List.flatten_cons, List.set_cons_succ]
      have harith : (j + 1) * LINE_RECORD_LENGTH = l.length + j * LINE_RECORD_LENGTH := by
        rw [hl]; ring
      have harith2 : (j + 1) * LINE_RECORD_LENGTH + new.length =
          l.length + (j * LINE_RECORD_LENGTH + new.length) := by rw [hl]; ring
      rw [harith2, List.drop_append, harith, List.take_append]
      have := ih (fun x hx => h x (List.mem_cons_of_mem l hx)) j
        (by simpa using Nat.lt_of_succ_lt_succ hi)
      unfold writeAt at this
      rw [← this]
      simp [List.append_assoc]

theorem getD_map_of_lt {α β : Type} (f : α → β) (l : List α) (i : Nat)
    (hi : i < l.length) (d1 : β) (d2 : α) :
    (l.map f).getD i d1 = f (l.getD i d2) := by
  induction l generalizing i with
  | nil => simp at hi
  | cons x xs ih =>
    cases i with
    | zero => rfl
    | succ j =>
      simp only [List.map_cons, List.getD_cons_succ]
      exact ih j (by simpa using Nat.lt_of_succ_lt_succ hi)

theorem lookupEntries_mem {es : List IdxEntry} {k : List Char} {i : Nat}
    (h : lookupEntries es k = some i) : (k, i) ∈ es := by
  unfold lookupEntries at h
  rw [Option.map_eq_some'] at h
  obtain ⟨e, he, hei⟩ := h
  have hmem := List.mem_of_find?_eq_some he
  have hkey := List.find?_some he
  simp only [decide_eq_true_eq] at hkey
  have : e = (k, i) := by
    obtain ⟨e1, e2⟩ := e
    simp only at hkey hei
    rw [hkey, hei]
  rwa [this] at hmem

theorem strip_blank : stripChars (List.replicate RECORD_LENGTH ' ') = [] := by
  have h := stripChars_append_ws (t := List.replicate RECORD_LENGTH ' ') []
    (replicate_space_ws _)
  simpa using h

theorem carSlotChars_take {s : Option Car} (h : CarSlotOk s) :
    (carSlotChars s).take RECORD_LENGTH =
      (match s with
       | some c => car_to_string c
       | none => List.replicate RECORD_LENGTH ' ') := by
  cases s with
  | none =>
    show (List.replicate RECORD_LENGTH ' ' ++ ['\n']).take RECORD_LENGTH = _
    rw [List.take_append_of_le_length (by simp), List.take_of_length_le (by simp)]
  | some c =>
    show (car_to_string c ++ ['\n']).take RECORD_LENGTH = car_to_string c
    rw [List.take_append_of_le_length (car_to_string_length (carSlotOk_some h)).symm.le,
      ← car_to_string_length (carSlotOk_some h), List.take_length]

theorem get_entity_car_none {cis : List IdxEntry}
    (hcis : ∀ e ∈ cis, WfKey e.1) {vin : List Char}
    (hlook : lookupEntries cis vin = none) (cars : List Char) :
    get_entity_data_and_line_number cars (reifyIdx cis) vin = .ok none := by
  unfold get_entity_data_and_line_number
  rw [find_line_number_in_index_reify cis hcis vin, hlook]
  rfl

theorem get_entity_car_some {cs : List (Option Car)} {cis : List IdxEntry}
    (hcs : ∀ s ∈ cs, CarSlotOk s) (hcis : ∀ e ∈ cis, WfKey e.1 ∧ e.2 < cs.length)
    {vin : List Char} {i : Nat} (hlook : lookupEntries cis vin = some i) :
    get_entity_data_and_line_number (reifyCars cs) (reifyIdx cis) vin =
      .ok (some (stripChars ((carSlotChars (cs.getD i none)).take RECORD_LENGTH),
                 Int.ofNat i)) := by
  have hi : i < cs.length := (hcis (vin, i) (lookupEntries_mem hlook)).2
  unfold get_entity_data_and_line_number
  rw [find_line_number_in_index_reify cis (fun e he => (hcis e he).1) vin, hlook]
  simp only [Option.map_some']
  rw [if_neg (by simp)]
  have hlens : ∀ l ∈ cs.map carSlotChars, l.length = LINE_RECORD_LENGTH := by
    intro l hl
    obtain ⟨s, hs, rfl⟩ := List.mem_map.mp hl
    exact carSlotChars_length (hcs s hs)
  have hread : readAt (reifyCars cs) ((Int.ofNat i).toNat * LINE_RECORD_LENGTH)
      RECORD_LENGTH = (carSlotChars (cs.getD i none)).take RECORD_LENGTH := by
    unfold reifyCars
    rw [show (Int.ofNat i).toNat = i from rfl, readAt_flatten hlens i (by simpa using hi),
      getD_map_of_lt carSlotChars cs i hi]
  rw [hread]

theorem find_car_by_vin_none {cis : List IdxEntry}
    (hcis : ∀ e ∈ cis, WfKey e.1) {vin : List Char}
    (hlook : lookupEntries cis vin = none) (cars : List Char) :
    find_car_by_vin cars (reifyIdx cis) vin = .ok none := by
  unfold find_car_by_vin
  rw [get_entity_car_none hcis hlook cars]

theorem find_car_by_vin_blank {cs : List (Option Car)} {cis : List IdxEntry}
    (hcs : ∀ s ∈ cs, CarSlotOk s) (hcis : ∀ e ∈ cis, WfKey e.1 ∧ e.2 < cs.length)
    {vin : List Char} {i : Nat} (hlook : lookupEntries cis vin = some i)
    (hslot : cs.getD i none = none) :
    find_car_by_vin (reifyCars cs) (reifyIdx cis) vin = .error (.malformedCar []) := by
  unfold find_car_by_vin
  rw [get_entity_car_some hcs hcis hlook, hslot]
  have hcontent : stripChars ((carSlotChars (none : Option Car)).take RECORD_LENGTH) = [] := by
    rw [carSlotChars_take (by simp [CarSlotOk])]
    exact strip_blank
  rw [hcontent]
  rfl

theorem find_car_by_vin_found {cs : List (Option Car)} {cis : List IdxEntry}
    (hcs : ∀ s ∈ cs, CarSlotOk s) (hcis : ∀ e ∈ cis, WfKey e.1 ∧ e.2 < cs.length)
    {vin : List Char} {i : Nat} {car : Car} (hlook : lookupEntries cis vin = some i)
    (hslot : cs.getD i none = some car) :
    find_car_by_vin (reifyCars cs) (reifyIdx cis) vin = .ok (some car) := by
  have hi : i < cs.length := (hcis (vin, i) (lookupEntries_mem hlook)).2
  have hmem : (some car) ∈ cs := by
    rw [List.getD_eq_getElem cs none hi] at hslot
    exact hslot ▸ List.getElem_mem hi
  have hv : car.Valid := carSlotOk_some (hcs _ hmem)
  unfold find_car_by_vin
  rw [get_entity_car_some hcs hcis hlook, hslot]
  have hcontent : stripChars ((carSlotChars (some car)).take RECORD_LENGTH) =
      joinC '|' (carFields car) := by
    rw [carSlotChars_take (hcs _ hmem)]
    exact strip_car_record car hv
  rw [hcontent]
  show (match string_to_car (joinC '|' (carFields car)) with
        | none => Except.error (PyErr.malformedCar (joinC '|' (carFields car)))
        | some c => Except.ok (some c)) = Except.ok (some car)
  rw [string_to_car_core car hv]

theorem carFields_sold_length_le (car : Car) :
    (joinC '|' (carFields { car with status := CarStatus.sold })).length ≤
      (joinC '|' (carFields car)).length := by
  have h1 : (joinC '|' (carFields { car with status := CarStatus.sold })).length =
      car.vin.length + (intToChars car.model).length + (intToChars car.price).length +
      (isoChars car.date_start).length + (CarStatus.sold.value).length + 4 := by
    show (car.vin ++ '|' :: (intToChars car.model ++ '|' :: (intToChars car.price ++ '|' ::
      (isoChars car.date_start ++ '|' :: CarStatus.sold.value)))).length = _
    simp [List.length_append]
    ring
  have h2 : (joinC '|' (carFields car)).length =
      car.vin.length + (intToChars car.model).length + (intToChars car.price).length +
      (isoChars car.date_start).length + (car.status.value).length + 4 := by
    show (car.vin ++ '|' :: (intToChars car.model ++ '|' :: (intToChars car.price ++ '|' ::
      (isoChars car.date_start ++ '|' :: car.status.value)))).length = _
    simp [List.length_append]
    ring
  have h3 : (CarStatus.sold.value).length ≤ (car.status.value).length := by
    cases car.status <;> decide
  omega

theorem sold_valid {car : Car} (h : car.Valid) :
    ({ car with status := CarStatus.sold } : Car).Valid :=
  ⟨h.1, le_trans (carFields_sold_length_le car) h.2⟩

theorem update_record_car {cs : List (Option Car)} {cis : List IdxEntry}
    (hcs : ∀ s ∈ cs, CarSlotOk s) (hcis : ∀ e ∈ cis, WfKey e.1 ∧ e.2 < cs.length)
    {entityId : List Char} {i : Nat} (hlook : lookupEntries cis entityId = some i)
    {newCar : Car} (hv : newCar.Valid) :
    update_record_in_file (reifyCars cs) (reifyIdx cis) entityId (car_to_string newCar) =
      .ok (reifyCars (cs.set i (some newCar))) := by
  have hi : i < cs.length := (hcis (entityId, i) (lookupEntries_mem hlook)).2
  unfold update_record_in_file
  rw [get_entity_car_some hcs hcis hlook]
  have hljust : ljust RECORD_LENGTH (car_to_string newCar) = car_to_string newCar :=
    ljust_of_ge (le_of_eq (car_to_string_length hv).symm)
  rw [hljust]
  show (if RECORD_LENGTH < (car_to_string newCar).length then
          Except.error (PyErr.recordTooLarge entityId)
        else Except.ok (writeAt (reifyCars cs) ((Int.ofNat i).toNat * LINE_RECORD_LENGTH)
          (car_to_string newCar ++ ['\n']))) = Except.ok (reifyCars (cs.set i (some newCar)))
  rw [if_neg (by rw [car_to_string_length hv]; omega)]
  have hlens : ∀ l ∈ cs.map carSlotChars, l.length = LINE_RECORD_LENGTH := by
    intro l hl
    obtain ⟨s, hs, rfl⟩ := List.mem_map.mp hl
    exact carSlotChars_length (hcs s hs)
  have hwrite : writeAt (reifyCars cs) ((Int.ofNat i).toNat * LINE_RECORD_LENGTH)
      (car_to_string newCar ++ ['\n']) = reifyCars (cs.set i (some newCar)) := by
    unfold reifyCars
    rw [show (Int.ofNat i).toNat = i from rfl,
      writeAt_flatten hlens i (by simpa using hi)
        (by simp [car_to_string_length hv, RECORD_LENGTH, LINE_RECORD_LENGTH]),
      List.map_set]
    rfl
  rw [hwrite]

theorem reifySales_length {ss : List (Option Sale)} (hss : ∀ s ∈ ss, SaleSlotOk s) :
    (reifySales ss).length = LINE_RECORD_LENGTH * ss.length := by
  unfold reifySales
  rw [flatten_length_of_uniform]
  · simp
  · intro l hl
    obtain ⟨s, hs, rfl⟩ := List.mem_map.mp hl
    exact saleSlotChars_length (hss s hs)

theorem reifySales_append_sale (ss : List (Option Sale)) {sale : Sale} (hv : sale.Valid) :
    reifySales ss ++ ljust RECORD_LENGTH (sale_to_string sale) ++ ['\n'] =
      reifySales (ss ++ [some sale]) := by
  unfold reifySales
  rw [ljust_of_ge (le_of_eq (sale_to_string_length hv).symm)]
  simp [saleSlotChars, List.map_append, List.flatten_append]

theorem sales_next_index {ss : List (Option Sale)} (hss : ∀ s ∈ ss, SaleSlotOk s) :
    (reifySales ss).length / LINE_RECORD_LENGTH = ss.length := by
  rw [reifySales_length hss]
  exact Nat.mul_div_cancel_left ss.length (by norm_num [LINE_RECORD_LENGTH])

theorem getD_slot_valid {cs : List (Option Car)} (hcs : ∀ s ∈ cs, CarSlotOk s)
    {i : Nat} {car : Car} (hi : i < cs.length) (hslot : cs.getD i none = some car) :
    car.Valid := by
  rw [List.getD_eq_getElem cs none hi] at hslot
  exact carSlotOk_some (hcs _ (hslot ▸ List.getElem_mem hi))

theorem readAt_reifyCars {cs : List (Option Car)} (hcs : ∀ s ∈ cs, CarSlotOk s)
    {i : Nat} (hi : i < cs.length) :
    readAt (reifyCars cs) (i * LINE_RECORD_LENGTH) RECORD_LENGTH =
      (carSlotChars (cs.getD i none)).take RECORD_LENGTH := by
  have hlens : ∀ l ∈ cs.map carSlotChars, l.length = LINE_RECORD_LENGTH := by
    intro l hl
    obtain ⟨s, hs, rfl⟩ := List.mem_map.mp hl
    exact carSlotChars_length (hcs s hs)
  unfold reifyCars
  rw [readAt_flatten hlens i (by simpa using hi), getD_map_of_lt carSlotChars cs i hi]

/-- C1 (amended): sell_car raises NotFound when the cars index has no entry
for the sale's vin; raises a malformed-record decode error (not NotFound)
when the index entry's slot is tombstoned; raises AlreadySold and leaves all
six files byte-for-byte unchanged when the car is already sold; and
otherwise overwrites the car's slot in place with status sold, appends the
encoded sale, upserts the sales index with the new record index, and
returns the sale. -/
theorem claim_C1_sell_car (mdl midx : List Char) (cs : List (Option Car))
    (cis : List IdxEntry) (ss : List (Option Sale)) (sis : List IdxEntry) (sale : Sale)
    (hcs : ∀ s ∈ cs, CarSlotOk s)
    (hcis : ∀ e ∈ cis, WfKey e.1 ∧ e.2 < cs.length)
    (hss : ∀ s ∈ ss, SaleSlotOk s)
    (hsis : ∀ e ∈ sis, WfKey e.1)
    (hsale : sale.Valid) :
    (lookupEntries cis sale.car_vin = none →
      sell_car ⟨mdl, midx, reifyCars cs, reifyIdx cis, reifySales ss, reifyIdx sis⟩ sale =
        (⟨mdl, midx, reifyCars cs, reifyIdx cis, reifySales ss, reifyIdx sis⟩,
         .error (.carNotFound sale.car_vin))) ∧
    (∀ i, lookupEntries cis sale.car_vin = some i → cs.getD i none = none →
      sell_car ⟨mdl, midx, reifyCars cs, reifyIdx cis, reifySales ss, reifyIdx sis⟩ sale =
        (⟨mdl, midx, reifyCars cs, reifyIdx cis, reifySales ss, reifyIdx sis⟩,
         .error (.malformedCar []))) ∧
    (∀ i car, lookupEntries cis sale.car_vin = some i → cs.getD i none = some car →
      car.status = CarStatus.sold →
      sell_car ⟨mdl, midx, reifyCars cs, reifyIdx cis, reifySales ss, reifyIdx sis⟩ sale =
        (⟨mdl, midx, reifyCars cs, reifyIdx cis, reifySales ss, reifyIdx sis⟩,
         .error (.carAlreadySold sale.car_vin))) ∧
    (∀ i car, lookupEntries cis sale.car_vin = some i → cs.getD i none = some car →
      car.status ≠ CarStatus.sold → car.vin = sale.car_vin →
      sell_car ⟨mdl, midx, reifyCars cs, reifyIdx cis, reifySales ss, reifyIdx sis⟩ sale =
        (⟨mdl, midx, reifyCars (cs.set i (some { car with status := CarStatus.sold })),
          reifyIdx cis, reifySales (ss ++ [some sale]),
          reifyIdx (upsertEntries sis sale.sales_number ss.length)⟩,
         .ok sale)) := by
  refine ⟨?_, ?_, ?_, ?_⟩
  · intro hlook
    unfold sell_car
    rw [show (⟨mdl, midx, reifyCars cs, reifyIdx cis, reifySales ss, reifyIdx sis⟩ : DB).cars =
      reifyCars cs from rfl]
    rw [find_car_by_vin_none (fun e he => (hcis e he).1) hlook]
  · intro i hlook hslot
    unfold sell_car
    rw [show (⟨mdl, midx, reifyCars cs, reifyIdx cis, reifySales ss, reifyIdx sis⟩ : DB).cars =
      reifyCars cs from rfl]
    rw [find_car_by_vin_blank hcs hcis hlook hslot]
  · intro i car hlook hslot hsold
    unfold sell_car
    rw [show (⟨mdl, midx, reifyCars cs, reifyIdx cis, reifySales ss, reifyIdx sis⟩ : DB).cars =
      reifyCars cs from rfl]
    rw [find_car_by_vin_found hcs hcis hlook hslot]
    show (if car.status = CarStatus.sold then _ else _) = _
    rw [if_pos hsold]
  · intro i car hlook hslot hns hvin
    have hi : i < cs.length := (hcis (sale.car_vin, i) (lookupEntries_mem hlook)).2
    have hv : car.Valid := getD_slot_valid hcs hi hslot
    unfold sell_car
    rw [show (⟨mdl, midx, reifyCars cs, reifyIdx cis, reifySales ss, reifyIdx sis⟩ : DB).cars =
      reifyCars cs from rfl]
    rw [find_car_by_vin_found hcs hcis hlook hslot]
    show (if car.status = CarStatus.sold then _ else _) = _
    rw [if_neg hns]
    have hupd : update_car_status_or_data
        ⟨mdl, midx, reifyCars cs, reifyIdx cis, reifySales ss, reifyIdx sis⟩
        { car with status := CarStatus.sold } =
        .ok (reifyCars (cs.set i (some { car with status := CarStatus.sold }))) := by
      unfold update_car_status_or_data
      show update_record_in_file (reifyCars cs) (reifyIdx cis) car.vin
        (car_to_string { car with status := CarStatus.sold }) = _
      have hlook2 : lookupEntries cis car.vin = some i := by rw [hvin]; exact hlook
      exact update_record_car hcs hcis hlook2 (sold_valid hv)
    rw [hupd]
    have hwrite : write_record_and_update_index
        (⟨mdl, midx, reifyCars cs, reifyIdx cis, reifySales ss, reifyIdx sis⟩ : DB).sales
        (⟨mdl, midx, reifyCars cs, reifyIdx cis, reifySales ss, reifyIdx sis⟩ : DB).salesIdx
        sale.sales_number (sale_to_string sale) =
        (reifySales (ss ++ [some sale]),
         .ok (reifyIdx (upsertEntries sis sale.sales_number ss.length))) := by
      show write_record_and_update_index (reifySales ss) (reifyIdx sis)
        sale.sales_number (sale_to_string sale) = _
      unfold write_record_and_update_index
      rw [sales_next_index hss, update_index_reify sis hsis, reifySales_append_sale ss hsale]
    rw [hwrite]

/-- Counterexample for C1 as stated: when the index entry's slot does not
decode (tombstoned slot), sell_car raises the malformed-record ValueError
from _string_to_car, not the NotFound error the claim prescribes. -/
theorem claim_C1_sell_car_counterexample :
    sell_car wdbC1 wsaleC1 = (wdbC1, .error (.malformedCar [])) ∧
    sell_car wdbC1 wsaleC1 ≠ (wdbC1, .error (.carNotFound (toChars "V1"))) := by
  constructor
  · decide
  · decide

/-- Witness for C1 at a concrete one-car store, exercising the successful
branch. -/
theorem claim_C1_sell_car_witness :
    sell_car ⟨[], [], reifyCars [some wcarC2], reifyIdx [(toChars "VIN001", 0)],
        reifySales [], reifyIdx []⟩ wsaleC2 =
      (⟨[], [], reifyCars [some { wcarC2 with status := CarStatus.sold }],
        reifyIdx [(toChars "VIN001", 0)], reifySales [some wsaleC2],
        reifyIdx (upsertEntries [] (toChars "S001") 0)⟩,
       .ok wsaleC2) :=
  (claim_C1_sell_car [] [] [some wcarC2] [(toChars "VIN001", 0)] [] [] wsaleC2
    (by decide) (by decide) (by decide) (by decide) (by decide)).2.2.2
    0 wcarC2 (by decide) (by decide) (by decide) (by decide)

/-- C3 (amended): on a well-formed index, the identifier-keyed lookup
implemented by _get_car_by_vin never lets an error escape, returning absent
for a missing index entry and for blank (tombstoned) slot content, while
_find_car_by_vin returns absent only when the index has no entry and raises
a malformed-record error on a tombstoned slot. -/
theorem claim_C3_lookup (cs : List (Option Car)) (cis : List IdxEntry) (vin : List Char)
    (hcs : ∀ s ∈ cs, CarSlotOk s)
    (hcis : ∀ e ∈ cis, WfKey e.1 ∧ e.2 < cs.length) :
    (∃ r, get_car_by_vin (reifyCars cs) (reifyIdx cis) vin = .ok r) ∧
    (lookupEntries cis vin = none →
      find_car_by_vin (reifyCars cs) (reifyIdx cis) vin = .ok none) ∧
    (∀ i, lookupEntries cis vin = some i → cs.getD i none = none →
      get_car_by_vin (reifyCars cs) (reifyIdx cis) vin = .ok none ∧
      find_car_by_vin (reifyCars cs) (reifyIdx cis) vin = .error (.malformedCar [])) := by
  have hkeys : ∀ e ∈ cis, WfKey e.1 := fun e he => (hcis e he).1
  have hget : ∀ i, lookupEntries cis vin = some i →
      get_car_by_vin (reifyCars cs) (reifyIdx cis) vin =
        (match stripChars ((carSlotChars (cs.getD i none)).take RECORD_LENGTH) with
         | [] => .ok none
         | content =>
           match string_to_car content with
           | none => .ok none
           | some c => .ok (some c)) := by
    intro i hlook
    have hi : i < cs.length := (hcis (vin, i) (lookupEntries_mem hlook)).2
    unfold get_car_by_vin
    rw [find_line_number_in_index_reify cis hkeys vin, hlook]
    simp only [Option.map_some']
    rw [if_neg (by simp)]
    rw [show (Int.ofNat i).toNat = i from rfl, readAt_reifyCars hcs hi]
  refine ⟨?_, ?_, ?_⟩
  · cases hlook : lookupEntries cis vin with
    | none =>
      refine ⟨none, ?_⟩
      unfold get_car_by_vin
      rw [find_line_number_in_index_reify cis hkeys vin, hlook]
      rfl
    | some i =>
      rw [hget i hlook]
      cases hstrip : stripChars ((carSlotChars (cs.getD i none)).take RECORD_LENGTH) with
      | nil => exact ⟨none, rfl⟩
      | cons c rest =>
        cases hdec : string_to_car (c :: rest) with
        | none =>
          refine ⟨none, ?_⟩
          show (match string_to_car (c :: rest) with
                | none => (Except.ok none : Except PyErr (Option Car))
                | some c2 => Except.ok (some c2)) = Except.ok none
          rw [hdec]
        | some car =>
          refine ⟨some car, ?_⟩
          show (match string_to_car (c :: rest) with
                | none => (Except.ok none : Except PyErr (Option Car))
                | some c2 => Except.ok (some c2)) = Except.ok (some car)
          rw [hdec]
  · intro hlook
    exact find_car_by_vin_none hkeys hlook _
  · intro i hlook hslot
    constructor
    · rw [hget i hlook, hslot]
      rw [carSlotChars_take (by simp [CarSlotOk]), strip_blank]
    · exact find_car_by_vin_blank hcs hcis hlook hslot

/-- Counterexample for C3 as stated: with the index mapping V1 to a
tombstoned slot, the lookup the service actually uses, _find_car_by_vin,
raises the malformed-record ValueError instead of returning absent. -/
theorem claim_C3_lookup_counterexample :
    find_car_by_vin (reifyCars [none]) (reifyIdx [(toChars "V1", 0)]) (toChars "V1") =
      .error (.malformedCar []) := by decide

/-- Witness for C3 at a concrete tombstoned-slot store. -/
theorem claim_C3_lookup_witness :
    get_car_by_vin (reifyCars [none]) (reifyIdx [(toChars "V1", 0)]) (toChars "V1") =
      .ok none :=
  ((claim_C3_lookup [none] [(toChars "V1", 0)] (toChars "V1")
    (by decide) (by decide)).2.2 0 (by decide) (by decide)).1

/-- C9: when no index entry matches the sale's car_vin, add_sale raises its
error only after the encoded sale has been appended to the sales file and
the sales index upserted; the sale writes are kept (no rollback). -/
theorem claim_C9_add_sale (mdl midx cars : List Char) (cis : List IdxEntry)
    (ss : List (Option Sale)) (sis : List IdxEntry) (sale : Sale)
    (hcis : ∀ e ∈ cis, WfKey e.1)
    (hss : ∀ s ∈ ss, SaleSlotOk s)
    (hsis : ∀ e ∈ sis, WfKey e.1)
    (hsale : sale.Valid)
    (hnone : lookupEntries cis sale.car_vin = none) :
    add_sale ⟨mdl, midx, cars, reifyIdx cis, reifySales ss, reifyIdx sis⟩ sale =
      (⟨mdl, midx, cars, reifyIdx cis, reifySales (ss ++ [some sale]),
        reifyIdx (upsertEntries sis sale.sales_number ss.length)⟩,
       .error (.carNotFoundForStatus sale.car_vin)) ∧
    reifySales (ss ++ [some sale]) ≠ reifySales ss := by
  constructor
  · unfold add_sale
    have hwrite : write_record_and_update_index
        (⟨mdl, midx, cars, reifyIdx cis, reifySales ss, reifyIdx sis⟩ : DB).sales
        (⟨mdl, midx, cars, reifyIdx cis, reifySales ss, reifyIdx sis⟩ : DB).salesIdx
        sale.sales_number (sale_to_string sale) =
        (reifySales (ss ++ [some sale]),
         .ok (reifyIdx (upsertEntries sis sale.sales_number ss.length))) := by
      show write_record_and_update_index (reifySales ss) (reifyIdx sis)
        sale.sales_number (sale_to_string sale) = _
      unfold write_record_and_update_index
      rw [sales_next_index hss, update_index_reify sis hsis, reifySales_append_sale ss hsale]
    rw [hwrite]
    rw [show (⟨mdl, midx, cars, reifyIdx cis, reifySales ss, reifyIdx sis⟩ : DB).cars =
      cars from rfl]
    rw [find_car_by_vin_none hcis hnone]
  · intro heq
    have hlen := congrArg List.length heq
    have hss2 : ∀ s ∈ ss ++ [some sale], SaleSlotOk s := by
      intro s hs
      rcases List.mem_append.mp hs with h1 | h1
      · exact hss s h1
      · rw [List.mem_singleton.mp h1]
        simp only [SaleSlotOk, Option.all_some, decide_eq_true_eq]
        exact hsale
    rw [reifySales_length hss2, reifySales_length hss, List.length_append] at hlen
    simp [LINE_RECORD_LENGTH] at hlen

/-- Witness for C9 at a concrete empty store. -/
theorem claim_C9_add_sale_witness :
    add_sale ⟨[], [], [], reifyIdx [], reifySales [], reifyIdx []⟩ wsaleC2 =
      (⟨[], [], [], reifyIdx [], reifySales [some wsaleC2],
        reifyIdx (upsertEntries [] (toChars "S001") 0)⟩,
       .error (.carNotFoundForStatus (toChars "VIN001"))) :=
  (claim_C9_add_sale [] [] [] [] [] [] wsaleC2
    (by decide) (by decide) (by decide) (by decide) (by decide)).1

theorem mem_joinC {sep c : Char} {fields : List (List Char)}
    (h : c ∈ joinC sep fields) : c = sep ∨ ∃ f ∈ fields, c ∈ f := by
  induction fields with
  | nil => cases h
  | cons f fs ih =>
    cases fs with
    | nil =>
      right
      exact ⟨f, List.mem_cons_self f [], by simpa [joinC] using h⟩
    | cons g gs =>
      rw [show joinC sep (f :: g :: gs) = f ++ sep :: joinC sep (g :: gs) from rfl] at h
      rcases List.mem_append.mp h with h1 | h1
      · exact Or.inr ⟨f, List.mem_cons_self f _, h1⟩
      · rcases List.mem_cons.mp h1 with h2 | h2
        · exact Or.inl h2
        · rcases ih h2 with h3 | ⟨f2, hf2, hcf2⟩
          · exact Or.inl h3
          · exact Or.inr ⟨f2, List.mem_cons_of_mem f hf2, hcf2⟩

theorem nl_not_mem_ljust {w : Nat} {l : List Char} (h : '\n' ∉ l) :
    '\n' ∉ ljust w l := by
  intro hmem
  rcases List.mem_append.mp hmem with h1 | h1
  · exact h h1
  · exact absurd (List.eq_of_mem_replicate h1) (by decide)

theorem nl_not_mem_car_to_string {c : Car} (h : c.Valid) :
    '\n' ∉ car_to_string c := by
  apply nl_not_mem_ljust
  intro hmem
  rcases mem_joinC hmem with h1 | ⟨f, hf, hcf⟩
  · exact absurd h1 (by decide)
  · simp only [carFields, List.mem_cons, List.not_mem_nil, or_false] at hf
    rcases hf with rfl | rfl | rfl | rfl | rfl
    · exact h.1.2.1 hcf
    · exact nl_not_mem_intToChars _ hcf
    · exact nl_not_mem_intToChars _ hcf
    · exact nl_not_mem_isoChars _ hcf
    · exact CarStatus.nl_not_mem_value _ hcf

theorem nl_not_mem_sale_to_string {s : Sale} (h : s.Valid) :
    '\n' ∉ sale_to_string s := by
  apply nl_not_mem_ljust
  intro hmem
  rcases mem_joinC hmem with h1 | ⟨f, hf, hcf⟩
  · exact absurd h1 (by decide)
  · simp only [saleFields, List.mem_cons, List.not_mem_nil, or_false] at hf
    rcases hf with rfl | rfl | rfl | rfl
    · exact h.1.2.1 hcf
    · exact h.2.2.1 hcf
    · exact nl_not_mem_isoChars _ hcf
    · exact nl_not_mem_intToChars _ hcf

theorem nl_not_mem_model_to_string {m : Model} (h : m.Valid) :
    '\n' ∉ model_to_string m := by
  apply nl_not_mem_ljust
  intro hmem
  rcases mem_joinC hmem with h1 | ⟨f, hf, hcf⟩
  · exact absurd h1 (by decide)
  · simp only [modelFields, List.mem_cons, List.not_mem_nil, or_false] at hf
    rcases hf with rfl | rfl | rfl | rfl | rfl
    · exact nl_not_mem_intToChars _ hcf
    · exact h.2.1 hcf
    · exact h.2.2.2.1 hcf
    · cases hy : m.production_start_year with
      | none => rw [hy] at hcf; cases hcf
      | some y =>
        rw [hy] at hcf
        exact nl_not_mem_intToChars y (by simpa using hcf)
    · cases hp : m.price with
      | none => rw [hp] at hcf; cases hcf
      | some f2 =>
        rw [hp] at hcf
        exact nl_not_mem_floatChars f2 (by simpa using hcf)

theorem splitKeep_flatten {lines : List (List Char)}
    (h : ∀ l ∈ lines, ∃ a, l = a ++ ['\n'] ∧ '\n' ∉ a) :
    splitKeep lines.flatten = lines := by
  induction lines with
  | nil => rfl
  | cons l ls ih =>
    obtain ⟨a, ha, hnl⟩ := h l (List.mem_cons_self l ls)
    rw [List.flatten_cons, ha]
    have : (a ++ ['\n']) ++ ls.flatten = a ++ '\n' :: ls.flatten := by simp
    rw [this, splitKeep_append_line _ hnl, ih (fun x hx => h x (List.mem_cons_of_mem l hx)),
      ← ha]

theorem carSlot_line_shape {s : Option Car} (h : CarSlotOk s) :
    ∃ a, carSlotChars s = a ++ ['\n'] ∧ '\n' ∉ a := by
  cases s with
  | none =>
    exact ⟨List.replicate RECORD_LENGTH ' ', rfl,
      fun hm => absurd (List.eq_of_mem_replicate hm) (by decide)⟩
  | some c => exact ⟨car_to_string c, rfl, nl_not_mem_car_to_string (carSlotOk_some h)⟩

theorem saleSlot_line_shape {s : Option Sale} (h : SaleSlotOk s) :
    ∃ a, saleSlotChars s = a ++ ['\n'] ∧ '\n' ∉ a := by
  cases s with
  | none =>
    exact ⟨List.replicate RECORD_LENGTH ' ', rfl,
      fun hm => absurd (List.eq_of_mem_replicate hm) (by decide)⟩
  | some c => exact ⟨sale_to_string c, rfl, nl_not_mem_sale_to_string (saleSlotOk_some h)⟩

theorem splitKeep_reifyCars {cs : List (Option Car)} (hcs : ∀ s ∈ cs, CarSlotOk s) :
    splitKeep (reifyCars cs) = cs.map carSlotChars := by
  unfold reifyCars
  apply splitKeep_flatten
  intro l hl
  obtain ⟨s, hs, rfl⟩ := List.mem_map.mp hl
  exact carSlot_line_shape (hcs s hs)

theorem splitKeep_reifySales {ss : List (Option Sale)} (hss : ∀ s ∈ ss, SaleSlotOk s) :
    splitKeep (reifySales ss) = ss.map saleSlotChars := by
  unfold reifySales
  apply splitKeep_flatten
  intro l hl
  obtain ⟨s, hs, rfl⟩ := List.mem_map.mp hl
  exact saleSlot_line_shape (hss s hs)

theorem strip_blank_line : stripChars (List.replicate RECORD_LENGTH ' ' ++ ['\n']) = [] := by
  have h := stripChars_append_ws (t := List.replicate RECORD_LENGTH ' ' ++ ['\n']) []
    (by
      intro c hc
      rcases List.mem_append.mp hc with h1 | h1
      · rw [List.eq_of_mem_replicate h1]; decide
      · rw [List.mem_singleton.mp h1]; decide)
  simpa using h

theorem strip_car_line {c : Car} (h : c.Valid) :
    stripChars (car_to_string c ++ ['\n']) = joinC '|' (carFields c) := by
  have h1 : stripChars (car_to_string c ++ ['\n']) = stripChars (car_to_string c) :=
    stripChars_append_ws _ (by intro x hx; rw [List.mem_singleton.mp hx]; decide)
  rw [h1, strip_car_record c h]

theorem strip_sale_line {s : Sale} (h : s.Valid) :
    stripChars (sale_to_string s ++ ['\n']) = joinC '|' (saleFields s) := by
  have h1 : stripChars (sale_to_string s ++ ['\n']) = stripChars (sale_to_string s) :=
    stripChars_append_ws _ (by intro x hx; rw [List.mem_singleton.mp hx]; decide)
  rw [h1, strip_sale_record s h]

theorem joinC_carFields_ne_nil (c : Car) : joinC '|' (carFields c) ≠ [] := by
  show c.vin ++ '|' :: (intToChars c.model ++ '|' :: (intToChars c.price ++ '|' ::
    (isoChars c.date_start ++ '|' :: c.status.value))) ≠ []
  simp

theorem joinC_saleFields_ne_nil (s : Sale) : joinC '|' (saleFields s) ≠ [] := by
  show s.sales_number ++ '|' :: (s.car_vin ++ '|' :: (isoChars s.sales_date ++ '|' ::
    intToChars s.cost)) ≠ []
  simp

theorem string_to_car_of_strip {x : List Char} {car : Car} (h : car.Valid)
    (hx : stripChars x = joinC '|' (carFields car)) : string_to_car x = some car := by
  unfold string_to_car
  rw [hx, splitOnC_joinC (by simp [carFields]) (pipe_free_carFields car h)]
  show (match carFields car with
    | [p0, p1, p2, p3, p4] =>
      match parseInt p1, parseInt p2, fromIsoChars p3, CarStatus.ofValue p4 with
      | some m, some pr, some dt, some st => some ⟨p0, m, pr, dt, st⟩
      | _, _, _, _ => none
    | _ => none) = some car
  simp only [carFields, parseInt_intToChars, fromIso_isoChars, CarStatus.ofValue_value]

theorem string_to_sale_of_strip {x : List Char} {s : Sale} (h : s.Valid)
    (hx : stripChars x = joinC '|' (saleFields s)) : string_to_sale x = some s := by
  unfold string_to_sale
  rw [hx, splitOnC_joinC (by simp [saleFields]) (pipe_free_saleFields s h)]
  show (match saleFields s with
    | [p0, p1, p2, p3] =>
      match fromIsoChars p2, parseInt p3 with
      | some dt, some co => some ⟨p0, p1, dt, co⟩
      | _, _ => none
    | _ => none) = some s
  simp only [saleFields, parseInt_intToChars, fromIso_isoChars]

theorem strip_saleSlot_blank :
    stripChars (saleSlotChars none) = [] := strip_blank_line

theorem strip_saleSlot_some {s : Sale} (h : s.Valid) :
    stripChars (saleSlotChars (some s)) = joinC '|' (saleFields s) := strip_sale_line h

theorem update_references_lines_reify (oldV newV : List Char) (ss : List (Option Sale))
    (hss : ∀ s ∈ ss, SaleSlotOk s)
    (hsub : ∀ s : Sale, some s ∈ ss → s.car_vin = oldV →
      Sale.Valid { s with car_vin := newV }) :
    update_references_in_sales_lines oldV newV (ss.map saleSlotChars) =
      (reifySales (ss.map (substSlot oldV newV)), anySaleMatch oldV ss) := by
  induction ss with
  | nil => rfl
  | cons slot rest ih =>
    have ihr := ih (fun s hs => hss s (List.mem_cons_of_mem slot hs))
      (fun s hs hv => hsub s (List.mem_cons_of_mem slot hs) hv)
    simp only [List.map_cons, update_references_in_sales_lines]
    rw [ihr]
    cases slot with
    | none =>
      rw [if_pos strip_saleSlot_blank]
      simp [substSlot, reifySales, anySaleMatch, saleSlotChars]
    | some s =>
      have hv : s.Valid := saleSlotOk_some (hss _ (List.mem_cons_self _ _))
      rw [if_neg (by rw [strip_saleSlot_some hv]; exact joinC_saleFields_ne_nil s)]
      rw [string_to_sale_of_strip hv (strip_saleSlot_some hv)]
      show (if s.car_vin = oldV then
          (sale_to_string { s with car_vin := newV } ++
              '\n' :: reifySales (rest.map (substSlot oldV newV)), true)
        else
          (sale_to_string s ++ '\n' :: reifySales (rest.map (substSlot oldV newV)),
            anySaleMatch oldV rest)) =
        (reifySales (substSlot oldV newV (some s) :: rest.map (substSlot oldV newV)),
          anySaleMatch oldV (some s :: rest))
      by_cases hmatch : s.car_vin = oldV
      · rw [if_pos hmatch,
          show substSlot oldV newV (some s) = some { s with car_vin := newV } from by
            simp [substSlot, hmatch],
          show anySaleMatch oldV (some s :: rest) = true from by
            simp [anySaleMatch, hmatch],
          Prod.mk.injEq]
        refine ⟨?_, rfl⟩
        show _ = saleSlotChars (some { s with car_vin := newV }) ++
          reifySales (rest.map (substSlot oldV newV))
        simp [saleSlotChars]
      · rw [if_neg hmatch,
          show substSlot oldV newV (some s) = some s from by simp [substSlot, hmatch],
          show anySaleMatch oldV (some s :: rest) = anySaleMatch oldV rest from by
            simp [anySaleMatch, hmatch],
          Prod.mk.injEq]
        refine ⟨?_, rfl⟩
        show _ = saleSlotChars (some s) ++ reifySales (rest.map (substSlot oldV newV))
        simp [saleSlotChars]

theorem update_references_reify (oldV newV : List Char) (ss : List (Option Sale))
    (hss : ∀ s ∈ ss, SaleSlotOk s)
    (hsub : ∀ s : Sale, some s ∈ ss → s.car_vin = oldV →
      Sale.Valid { s with car_vin := newV }) :
    update_references_in_sales (reifySales ss) oldV newV =
      (reifySales (ss.map (substSlot oldV newV)), anySaleMatch oldV ss) := by
  unfold update_references_in_sales
  rw [splitKeep_reifySales hss]
  exact update_references_lines_reify oldV newV ss hss hsub

theorem rebuild_entries_aux (num : Nat) (ss : List (Option Sale))
    (hss : ∀ s ∈ ss, SaleSlotOk s) :
    ((ss.map saleSlotChars).enumFrom num).filterMap (fun p =>
        if stripChars p.2 = [] then none
        else (string_to_sale p.2).map (fun s => (s.sales_number, p.1))) =
      (ss.enumFrom num).filterMap (fun p => p.2.map (fun s => (s.sales_number, p.1))) := by
  induction ss generalizing num with
  | nil => rfl
  | cons slot rest ih =>
    simp only [List.map_cons, List.enumFrom, List.filterMap_cons]
    cases slot with
    | none =>
      rw [if_pos strip_saleSlot_blank]
      simp only [Option.map_none']
      exact ih (num + 1) (fun s hs => hss s (List.mem_cons_of_mem _ hs))
    | some s =>
      have hv : s.Valid := saleSlotOk_some (hss _ (List.mem_cons_self _ _))
      rw [if_neg (by rw [strip_saleSlot_some hv]; exact joinC_saleFields_ne_nil s)]
      rw [string_to_sale_of_strip hv (strip_saleSlot_some hv)]
      simp only [Option.map_some']
      rw [ih (num + 1) (fun x hx => hss x (List.mem_cons_of_mem _ hx))]

theorem rebuild_sales_index_reify (ss : List (Option Sale))
    (hss : ∀ s ∈ ss, SaleSlotOk s) :
    rebuild_sales_index (reifySales ss) = reifyIdx (absRebuild ss) := by
  unfold rebuild_sales_index absRebuild
  rw [splitKeep_reifySales hss]
  congr 2
  exact rebuild_entries_aux 0 ss hss

theorem revert_lines_reify (num : List Char) (ss : List (Option Sale))
    (hss : ∀ s ∈ ss, SaleSlotOk s) :
    revert_sale_lines num (ss.map saleSlotChars) =
      (reifySales (ss.filter (keepSlot num)), lastSaleMatch num ss) := by
  induction ss with
  | nil => rfl
  | cons slot rest ih =>
    have ihr := ih (fun s hs => hss s (List.mem_cons_of_mem slot hs))
    simp only [List.map_cons, revert_sale_lines]
    rw [ihr]
    cases slot with
    | none =>
      rw [if_pos strip_saleSlot_blank]
      show (saleSlotChars none ++ reifySales (rest.filter (keepSlot num)),
          lastSaleMatch num rest) =
        (reifySales ((none :: rest).filter (keepSlot num)),
          lastSaleMatch num (none :: rest))
      rw [Prod.mk.injEq]
      refine ⟨rfl, ?_⟩
      cases hl : lastSaleMatch num rest <;> simp [lastSaleMatch, hl]
    | some s =>
      have hv : s.Valid := saleSlotOk_some (hss _ (List.mem_cons_self _ _))
      rw [if_neg (by rw [strip_saleSlot_some hv]; exact joinC_saleFields_ne_nil s)]
      rw [string_to_sale_of_strip hv (strip_saleSlot_some hv)]
      show (if s.sales_number = num then
          (reifySales (rest.filter (keepSlot num)),
            some ((lastSaleMatch num rest).getD s))
        else
          (sale_to_string s ++ '\n' :: reifySales (rest.filter (keepSlot num)),
            lastSaleMatch num rest)) =
        (reifySales ((some s :: rest).filter (keepSlot num)),
          lastSaleMatch num (some s :: rest))
      by_cases hmatch : s.sales_number = num
      · rw [if_pos hmatch,
          show (some s :: rest).filter (keepSlot num) = rest.filter (keepSlot num) from by
            rw [List.filter_cons_of_neg]; simp [keepSlot, hmatch],
          Prod.mk.injEq]
        refine ⟨rfl, ?_⟩
        cases hl : lastSaleMatch num rest <;>
          simp [lastSaleMatch, hl, hmatch]
      · rw [if_neg hmatch,
          show (some s :: rest).filter (keepSlot num) =
              some s :: rest.filter (keepSlot num) from by
            rw [List.filter_cons_of_pos]; simp [keepSlot, hmatch],
          Prod.mk.injEq]
        constructor
        · show _ = saleSlotChars (some s) ++ reifySales (rest.filter (keepSlot num))
          simp [saleSlotChars]
        · cases hl : lastSaleMatch num rest <;>
            simp [lastSaleMatch, hl, hmatch]

theorem remove_record_car_reify {cs : List (Option Car)} {cis : List IdxEntry}
    (hcs : ∀ s ∈ cs, CarSlotOk s) (hcis : ∀ e ∈ cis, WfKey e.1 ∧ e.2 < cs.length)
    {vin : List Char} {i : Nat} (hlook : lookupEntries cis vin = some i) :
    remove_record_from_file (reifyCars cs) (reifyIdx cis) vin =
      .ok (reifyCars (cs.set i none), reifyIdx (removeEntries cis vin)) := by
  have hi : i < cs.length := (hcis (vin, i) (lookupEntries_mem hlook)).2
  unfold remove_record_from_file
  rw [get_entity_car_some hcs hcis hlook]
  show (match remove_from_index (reifyIdx cis) vin with
        | .error e => (.error e : Except PyErr (List Char × List Char))
        | .ok newIdx =>
          .ok (writeAt (reifyCars cs) ((Int.ofNat i).toNat * LINE_RECORD_LENGTH)
                (List.replicate RECORD_LENGTH ' ' ++ ['\n']), newIdx)) = _
  rw [remove_from_index_reify cis (fun e he => (hcis e he).1) vin]
  have hlens : ∀ l ∈ cs.map carSlotChars, l.length = LINE_RECORD_LENGTH := by
    intro l hl
    obtain ⟨s, hs, rfl⟩ := List.mem_map.mp hl
    exact carSlotChars_length (hcs s hs)
  have hwrite : writeAt (reifyCars cs) ((Int.ofNat i).toNat * LINE_RECORD_LENGTH)
      (List.replicate RECORD_LENGTH ' ' ++ ['\n']) = reifyCars (cs.set i none) := by
    unfold reifyCars
    rw [show (Int.ofNat i).toNat = i from rfl,
      writeAt_flatten hlens i (by simpa using hi)
        (by simp [RECORD_LENGTH, LINE_RECORD_LENGTH]),
      List.map_set]
    rfl
  rw [hwrite]

theorem reifyCars_length {cs : List (Option Car)} (hcs : ∀ s ∈ cs, CarSlotOk s) :
    (reifyCars cs).length = LINE_RECORD_LENGTH * cs.length := by
  unfold reifyCars
  rw [flatten_length_of_uniform]
  · simp
  · intro l hl
    obtain ⟨s, hs, rfl⟩ := List.mem_map.mp hl
    exact carSlotChars_length (hcs s hs)

theorem reifyCars_append_car (cs : List (Option Car)) {car : Car} (hv : car.Valid) :
    reifyCars cs ++ ljust RECORD_LENGTH (car_to_string car) ++ ['\n'] =
      reifyCars (cs ++ [some car]) := by
  unfold reifyCars
  rw [ljust_of_ge (car_to_string_length hv).symm.le]
  simp [carSlotChars, List.map_append, List.flatten_append]

theorem cars_next_index {cs : List (Option Car)} (hcs : ∀ s ∈ cs, CarSlotOk s) :
    (reifyCars cs).length / LINE_RECORD_LENGTH = cs.length := by
  rw [reifyCars_length hcs]
  exact Nat.mul_div_cancel_left cs.length (by norm_num [LINE_RECORD_LENGTH])

theorem write_record_cars (cs : List (Option Car)) (cis : List IdxEntry)
    (hcs : ∀ s ∈ cs, CarSlotOk s) (hkeys : ∀ e ∈ cis, WfKey e.1)
    {car : Car} (hv : car.Valid) :
    write_record_and_update_index (reifyCars cs) (reifyIdx cis) car.vin
        (car_to_string car) =
      (reifyCars (cs ++ [some car]),
       .ok (reifyIdx (upsertEntries cis car.vin cs.length))) := by
  unfold write_record_and_update_index
  rw [cars_next_index hcs, update_index_reify cis hkeys, reifyCars_append_car cs hv]

theorem carSlotOk_set_none {cs : List (Option Car)} (hcs : ∀ s ∈ cs, CarSlotOk s)
    (i : Nat) : ∀ s ∈ cs.set i none, CarSlotOk s := by
  intro s hs
  rcases List.mem_or_eq_of_mem_set hs with h | h
  · exact hcs s h
  · rw [h]; simp [CarSlotOk]

theorem substSlot_slotOk {ss : List (Option Sale)} {oldV newV : List Char}
    (hss : ∀ s ∈ ss, SaleSlotOk s)
    (hsub : ∀ s : Sale, some s ∈ ss → s.car_vin = oldV →
      Sale.Valid { s with car_vin := newV }) :
    ∀ s ∈ ss.map (substSlot oldV newV), SaleSlotOk s := by
  intro t ht
  obtain ⟨slot, hslot, rfl⟩ := List.mem_map.mp ht
  cases slot with
  | none => simp [substSlot, SaleSlotOk]
  | some s =>
    by_cases h : s.car_vin = oldV
    · simp only [substSlot, Option.map_some']
      rw [if_pos h]
      simpa [SaleSlotOk] using hsub s hslot h
    · simp only [substSlot, Option.map_some']
      rw [if_neg h]
      exact hss (some s) hslot

/-- C4: update_vin raises NotFound when the cars index has no entry for
old_vin and Conflict when a car with new_vin already exists; otherwise it
tombstones the old slot and removes its index entry, appends a car under
new_vin with the other four fields identical, rewrites every sale whose
car_vin is old_vin to reference new_vin, and rebuilds the sales index if
and only if at least one sale was rewritten. -/
theorem claim_C4_update_vin (mdl midx sidx : List Char) (cs : List (Option Car))
    (cis : List IdxEntry) (ss : List (Option Sale)) (oldV newV : List Char)
    (hcs : ∀ s ∈ cs, CarSlotOk s)
    (hcis : ∀ e ∈ cis, WfKey e.1 ∧ e.2 < cs.length)
    (hss : ∀ s ∈ ss, SaleSlotOk s) :
    (lookupEntries cis oldV = none →
      update_vin ⟨mdl, midx, reifyCars cs, reifyIdx cis, reifySales ss, sidx⟩ oldV newV =
        (⟨mdl, midx, reifyCars cs, reifyIdx cis, reifySales ss, sidx⟩,
         .error (.carNotFound oldV))) ∧
    (∀ i car j car2, lookupEntries cis oldV = some i → cs.getD i none = some car →
      lookupEntries cis newV = some j → cs.getD j none = some car2 →
      update_vin ⟨mdl, midx, reifyCars cs, reifyIdx cis, reifySales ss, sidx⟩ oldV newV =
        (⟨mdl, midx, reifyCars cs, reifyIdx cis, reifySales ss, sidx⟩,
         .error (.carExists newV))) ∧
    (∀ i car, lookupEntries cis oldV = some i → cs.getD i none = some car →
      lookupEntries cis newV = none →
      Car.Valid ⟨newV, car.model, car.price, car.date_start, car.status⟩ →
      (∀ s : Sale, some s ∈ ss → s.car_vin = oldV →
        Sale.Valid { s with car_vin := newV }) →
      anySaleMatch oldV ss = false →
      update_vin ⟨mdl, midx, reifyCars cs, reifyIdx cis, reifySales ss, sidx⟩ oldV newV =
        (⟨mdl, midx,
          reifyCars (cs.set i none ++
            [some ⟨newV, car.model, car.price, car.date_start, car.status⟩]),
          reifyIdx (upsertEntries (removeEntries cis oldV) newV cs.length),
          reifySales ss, sidx⟩,
         .ok ⟨newV, car.model, car.price, car.date_start, car.status⟩)) ∧
    (∀ i car, lookupEntries cis oldV = some i → cs.getD i none = some car →
      lookupEntries cis newV = none →
      Car.Valid ⟨newV, car.model, car.price, car.date_start, car.status⟩ →
      (∀ s : Sale, some s ∈ ss → s.car_vin = oldV →
        Sale.Valid { s with car_vin := newV }) →
      anySaleMatch oldV ss = true →
      update_vin ⟨mdl, midx, reifyCars cs, reifyIdx cis, reifySales ss, sidx⟩ oldV newV =
        (⟨mdl, midx,
          reifyCars (cs.set i none ++
            [some ⟨newV, car.model, car.price, car.date_start, car.status⟩]),
          reifyIdx (upsertEntries (removeEntries cis oldV) newV cs.length),
          reifySales (ss.map (substSlot oldV newV)),
          reifyIdx (absRebuild (ss.map (substSlot oldV newV)))⟩,
         .ok ⟨newV, car.model, car.price, car.date_start, car.status⟩)) := by
  have hkeys : ∀ e ∈ cis, WfKey e.1 := fun e he => (hcis e he).1
  refine ⟨?_, ?_, ?_, ?_⟩
  · intro hlook
    have h1 := find_car_by_vin_none hkeys hlook (reifyCars cs)
    unfold update_vin
    simp only [h1]
  · intro i car j car2 hlook hslot hlookN hslotN
    have h1 := find_car_by_vin_found hcs hcis hlook hslot
    have h2 := find_car_by_vin_found hcs hcis hlookN hslotN
    unfold update_vin
    simp only [h1, h2]
  · intro i car hlook hslot hlookN hvNew hsubV hmatch
    have h1 := find_car_by_vin_found hcs hcis hlook hslot
    have h2 := find_car_by_vin_none hkeys hlookN (reifyCars cs)
    have h3 := remove_record_car_reify hcs hcis hlook
    have hcs2 : ∀ s ∈ cs.set i none, CarSlotOk s := carSlotOk_set_none hcs i
    have h4 : write_record_and_update_index (reifyCars (cs.set i none))
        (reifyIdx (removeEntries cis oldV)) newV
        (car_to_string ⟨newV, car.model, car.price, car.date_start, car.status⟩) =
        (reifyCars (cs.set i none ++
          [some ⟨newV, car.model, car.price, car.date_start, car.status⟩]),
         .ok (reifyIdx (upsertEntries (removeEntries cis oldV) newV
           (cs.set i none).length))) :=
      write_record_cars (cs.set i none) (removeEntries cis oldV) hcs2
        (wf_removeEntries hkeys) hvNew
    rw [List.length_set] at h4
    have h5 := update_references_reify oldV newV ss hss hsubV
    unfold update_vin add_car
    simp only [h1, h2, h3, h4, h5, hmatch]
  · intro i car hlook hslot hlookN hvNew hsubV hmatch
    have h1 := find_car_by_vin_found hcs hcis hlook hslot
    have h2 := find_car_by_vin_none hkeys hlookN (reifyCars cs)
    have h3 := remove_record_car_reify hcs hcis hlook
    have hcs2 : ∀ s ∈ cs.set i none, CarSlotOk s := carSlotOk_set_none hcs i
    have h4 : write_record_and_update_index (reifyCars (cs.set i none))
        (reifyIdx (removeEntries cis oldV)) newV
        (car_to_string ⟨newV, car.model, car.price, car.date_start, car.status⟩) =
        (reifyCars (cs.set i none ++
          [some ⟨newV, car.model, car.price, car.date_start, car.status⟩]),
         .ok (reifyIdx (upsertEntries (removeEntries cis oldV) newV
           (cs.set i none).length))) :=
      write_record_cars (cs.set i none) (removeEntries cis oldV) hcs2
        (wf_removeEntries hkeys) hvNew
    rw [List.length_set] at h4
    have h5 := update_references_reify oldV newV ss hss hsubV
    have h6 := rebuild_sales_index_reify (ss.map (substSlot oldV newV))
      (substSlot_slotOk hss hsubV)
    unfold update_vin add_car
    simp only [h1, h2, h3, h4, h5, h6, hmatch]

/-- Witness for C4 at a one-car, one-sale store: the rename cascades into
the matching sale and rebuilds the sales index. -/
theorem claim_C4_update_vin_witness :
    update_vin ⟨[], [], reifyCars [some wcarC2], reifyIdx [(toChars "VIN001", 0)],
        reifySales [some wsaleC2], []⟩ (toChars "VIN001") (toChars "VIN002") =
      (⟨[], [],
        reifyCars ([some wcarC2].set 0 none ++
          [some ⟨toChars "VIN002", wcarC2.model, wcarC2.price, wcarC2.date_start,
            wcarC2.status⟩]),
        reifyIdx (upsertEntries (removeEntries [(toChars "VIN001", 0)] (toChars "VIN001"))
          (toChars "VIN002") 1),
        reifySales ([some wsaleC2].map (substSlot (toChars "VIN001") (toChars "VIN002"))),
        reifyIdx (absRebuild ([some wsaleC2].map
          (substSlot (toChars "VIN001") (toChars "VIN002"))))⟩,
       .ok ⟨toChars "VIN002", wcarC2.model, wcarC2.price, wcarC2.date_start,
         wcarC2.status⟩) :=
  (claim_C4_update_vin [] [] [] [some wcarC2] [(toChars "VIN001", 0)] [some wsaleC2]
    (toChars "VIN001") (toChars "VIN002")
    (by decide) (by decide) (by decide)).2.2.2
    0 wcarC2 (by decide) (by decide) (by decide) (by decide)
    (fun s hs _ => by
      cases Option.some.inj (List.mem_singleton.mp hs)
      decide)
    (by decide)

theorem lastSaleMatch_none {num : List Char} {ss : List (Option Sale)}
    (h : ∀ s : Sale, some s ∈ ss → s.sales_number ≠ num) :
    lastSaleMatch num ss = none := by
  induction ss with
  | nil => rfl
  | cons slot rest ih =>
    have ihr := ih (fun s hs => h s (List.mem_cons_of_mem slot hs))
    cases slot with
    | none => simp [lastSaleMatch, ihr]
    | some s =>
      have hne := h s (List.mem_cons_self _ _)
      simp [lastSaleMatch, ihr, hne]

theorem lastSaleMatch_found {num : List Char} {sale : Sale} (ss1 ss2 : List (Option Sale))
    (hmatch : sale.sales_number = num)
    (h2 : ∀ s : Sale, some s ∈ ss2 → s.sales_number ≠ num) :
    lastSaleMatch num (ss1 ++ some sale :: ss2) = some sale := by
  induction ss1 with
  | nil => simp [lastSaleMatch, lastSaleMatch_none h2, hmatch]
  | cons slot rest ih => cases slot <;> simp [lastSaleMatch, ih]

theorem filter_keepSlot_decomp {num : List Char} {sale : Sale}
    (ss1 ss2 : List (Option Sale)) (hmatch : sale.sales_number = num)
    (h1 : ∀ s : Sale, some s ∈ ss1 → s.sales_number ≠ num)
    (h2 : ∀ s : Sale, some s ∈ ss2 → s.sales_number ≠ num) :
    (ss1 ++ some sale :: ss2).filter (keepSlot num) = ss1 ++ ss2 := by
  have hall : ∀ (l : List (Option Sale)),
      (∀ s : Sale, some s ∈ l → s.sales_number ≠ num) →
      l.filter (keepSlot num) = l := by
    intro l hl
    rw [List.filter_eq_self]
    intro a ha
    cases a with
    | none => rfl
    | some s => simp [keepSlot, hl s ha]
  rw [List.filter_append, hall ss1 h1]
  rw [List.filter_cons_of_neg]
  · rw [hall ss2 h2]
  · simp [keepSlot, hmatch]

theorem lastSaleMatch_mem {num : List Char} {ss : List (Option Sale)} {sale : Sale}
    (h : lastSaleMatch num ss = some sale) :
    some sale ∈ ss ∧ sale.sales_number = num := by
  induction ss with
  | nil => simp [lastSaleMatch] at h
  | cons slot rest ih =>
    cases slot with
    | none =>
      have h2 : (match lastSaleMatch num rest with
          | some s => some s
          | none => (none : Option Sale)) = some sale := h
      cases hrest : lastSaleMatch num rest with
      | some s =>
        rw [hrest] at h2
        have h3 : some s = some sale := h2
        obtain ⟨hm, hn⟩ := ih (hrest.trans h3)
        exact ⟨List.mem_cons_of_mem _ hm, hn⟩
      | none =>
        rw [hrest] at h2
        exact absurd h2 (by simp)
    | some s =>
      have h2 : (match lastSaleMatch num rest with
          | some t => some t
          | none => if s.sales_number = num then some s else none) = some sale := h
      cases hrest : lastSaleMatch num rest with
      | some t =>
        rw [hrest] at h2
        have h3 : some t = some sale := h2
        obtain ⟨hm, hn⟩ := ih (hrest.trans h3)
        exact ⟨List.mem_cons_of_mem _ hm, hn⟩
      | none =>
        rw [hrest] at h2
        have h3 : (if s.sales_number = num then some s else none) = some sale := h2
        by_cases hm : s.sales_number = num
        · rw [if_pos hm] at h3
          rw [Option.some.injEq] at h3
          subst h3
          exact ⟨List.mem_cons_self _ _, hm⟩
        · rw [if_neg hm] at h3
          exact absurd h3 (by simp)

/-- C5: revert_sale raises NotFound when no sale carries the sales number,
raises the linked-car NotFound when the sale exists but the cars index has
no entry for its vin, and otherwise rewrites the sales file without exactly
the matching sale, rebuilds the sales index, overwrites the linked car's
slot in place with status available and returns the updated car. -/
theorem claim_C5_revert_sale (mdl midx sidx : List Char) (cs : List (Option Car))
    (cis : List IdxEntry) (ss : List (Option Sale)) (num : List Char)
    (hcs : ∀ s ∈ cs, CarSlotOk s)
    (hcis : ∀ e ∈ cis, WfKey e.1 ∧ e.2 < cs.length)
    (hss : ∀ s ∈ ss, SaleSlotOk s) :
    (lastSaleMatch num ss = none →
      revert_sale ⟨mdl, midx, reifyCars cs, reifyIdx cis, reifySales ss, sidx⟩ num =
        (⟨mdl, midx, reifyCars cs, reifyIdx cis, reifySales ss, sidx⟩,
         .error (.saleNotFound num))) ∧
    (∀ sale : Sale, lastSaleMatch num ss = some sale → sale.car_vin ≠ [] →
      lookupEntries cis sale.car_vin = none →
      revert_sale ⟨mdl, midx, reifyCars cs, reifyIdx cis, reifySales ss, sidx⟩ num =
        (⟨mdl, midx, reifyCars cs, reifyIdx cis,
          reifySales (ss.filter (keepSlot num)),
          reifyIdx (absRebuild (ss.filter (keepSlot num)))⟩,
         .error (.linkedCarNotFound sale.car_vin))) ∧
    (∀ (ss1 ss2 : List (Option Sale)) (sale : Sale) (i : Nat) (car : Car),
      ss = ss1 ++ some sale :: ss2 → sale.sales_number = num →
      (∀ s : Sale, some s ∈ ss1 → s.sales_number ≠ num) →
      (∀ s : Sale, some s ∈ ss2 → s.sales_number ≠ num) →
      sale.car_vin ≠ [] →
      lookupEntries cis sale.car_vin = some i → cs.getD i none = some car →
      car.vin = sale.car_vin →
      Car.Valid { car with status := CarStatus.available } →
      revert_sale ⟨mdl, midx, reifyCars cs, reifyIdx cis, reifySales ss, sidx⟩ num =
        (⟨mdl, midx,
          reifyCars (cs.set i (some { car with status := CarStatus.available })),
          reifyIdx cis, reifySales (ss1 ++ ss2),
          reifyIdx (absRebuild (ss1 ++ ss2))⟩,
         .ok { car with status := CarStatus.available })) := by
  have hkeys : ∀ e ∈ cis, WfKey e.1 := fun e he => (hcis e he).1
  refine ⟨?_, ?_, ?_⟩
  · intro hnone
    have h0 : revert_sale_lines num (splitKeep (reifySales ss)) =
        (reifySales (ss.filter (keepSlot num)), none) := by
      rw [splitKeep_reifySales hss, revert_lines_reify num ss hss, hnone]
    unfold revert_sale
    simp only [h0]
  · intro sale hsale hvne hlookN
    have h0 : revert_sale_lines num (splitKeep (reifySales ss)) =
        (reifySales (ss.filter (keepSlot num)), some sale) := by
      rw [splitKeep_reifySales hss, revert_lines_reify num ss hss, hsale]
    have h2 := find_car_by_vin_none hkeys hlookN (reifyCars cs)
    have hfilterok : ∀ s ∈ ss.filter (keepSlot num), SaleSlotOk s :=
      fun s hs => hss s (List.mem_of_mem_filter hs)
    have h6 := rebuild_sales_index_reify (ss.filter (keepSlot num)) hfilterok
    unfold revert_sale
    simp only [h0, h2, h6]
    rw [if_neg hvne]
  · intro ss1 ss2 sale i car hdec hmatch h1m h2m hvne hlook hslot hvin hvAvail
    subst hdec
    have hlast := lastSaleMatch_found ss1 ss2 hmatch h2m
    have hfilter := filter_keepSlot_decomp ss1 ss2 hmatch h1m h2m
    have h0 : revert_sale_lines num (splitKeep (reifySales (ss1 ++ some sale :: ss2))) =
        (reifySales (ss1 ++ ss2), some sale) := by
      rw [splitKeep_reifySales hss, revert_lines_reify num _ hss, hlast, hfilter]
    have hlook2 : lookupEntries cis car.vin = some i := by rw [hvin]; exact hlook
    have hcar := find_car_by_vin_found hcs hcis hlook hslot
    have hupd := update_record_car hcs hcis hlook2 hvAvail
    have hok : ∀ s ∈ ss1 ++ ss2, SaleSlotOk s := by
      intro s hsm
      rcases List.mem_append.mp hsm with h | h
      · exact hss s (List.mem_append_left _ h)
      · exact hss s (List.mem_append_right _ (List.mem_cons_of_mem _ h))
    have h6 := rebuild_sales_index_reify (ss1 ++ ss2) hok
    unfold revert_sale
    simp only [h0, hcar, hupd, h6]
    rw [if_neg hvne]

/-- Witness for C5 at a one-car, one-sale store: the sale is removed, the
sales index rebuilt empty, and the car set back to available. -/
theorem claim_C5_revert_sale_witness :
    revert_sale ⟨[], [], reifyCars [some wcarC2], reifyIdx [(toChars "VIN001", 0)],
        reifySales [some wsaleC2], []⟩ (toChars "S001") =
      (⟨[], [],
        reifyCars ([some wcarC2].set 0
          (some { wcarC2 with status := CarStatus.available })),
        reifyIdx [(toChars "VIN001", 0)], reifySales ([] ++ []),
        reifyIdx (absRebuild ([] ++ []))⟩,
       .ok { wcarC2 with status := CarStatus.available }) :=
  (claim_C5_revert_sale [] [] [] [some wcarC2] [(toChars "VIN001", 0)] [some wsaleC2]
    (toChars "S001") (by decide) (by decide) (by decide)).2.2
    [] [] wsaleC2 0 wcarC2 rfl (by decide)
    (fun s hs => absurd hs (List.not_mem_nil _))
    (fun s hs => absurd hs (List.not_mem_nil _))
    (by decide) (by decide) (by decide) (by decide) (by decide)

/-- C10: when the sale exists but the cars index has no entry for its vin,
revert_sale raises its error only after the matching sale has been removed
from the sales file and the sales index rebuilt without it; the second
conjunct shows the sales file really changed (no rollback on error). -/
theorem claim_C10_revert_no_rollback (mdl midx sidx : List Char)
    (cs : List (Option Car)) (cis : List IdxEntry) (ss : List (Option Sale))
    (num : List Char) (sale : Sale)
    (hcs : ∀ s ∈ cs, CarSlotOk s)
    (hcis : ∀ e ∈ cis, WfKey e.1 ∧ e.2 < cs.length)
    (hss : ∀ s ∈ ss, SaleSlotOk s)
    (hsale : lastSaleMatch num ss = some sale)
    (hvne : sale.car_vin ≠ [])
    (hlookN : lookupEntries cis sale.car_vin = none) :
    revert_sale ⟨mdl, midx, reifyCars cs, reifyIdx cis, reifySales ss, sidx⟩ num =
      (⟨mdl, midx, reifyCars cs, reifyIdx cis,
        reifySales (ss.filter (keepSlot num)),
        reifyIdx (absRebuild (ss.filter (keepSlot num)))⟩,
       .error (.linkedCarNotFound sale.car_vin)) ∧
    reifySales (ss.filter (keepSlot num)) ≠ reifySales ss := by
  have hkeys : ∀ e ∈ cis, WfKey e.1 := fun e he => (hcis e he).1
  have hfilterok : ∀ s ∈ ss.filter (keepSlot num), SaleSlotOk s :=
    fun s hs => hss s (List.mem_of_mem_filter hs)
  constructor
  · have h0 : revert_sale_lines num (splitKeep (reifySales ss)) =
        (reifySales (ss.filter (keepSlot num)), some sale) := by
      rw [splitKeep_reifySales hss, revert_lines_reify num ss hss, hsale]
    have h2 := find_car_by_vin_none hkeys hlookN (reifyCars cs)
    have h6 := rebuild_sales_index_reify (ss.filter (keepSlot num)) hfilterok
    unfold revert_sale
    simp only [h0, h2, h6]
    rw [if_neg hvne]
  · intro heq
    obtain ⟨hm, hn⟩ := lastSaleMatch_mem hsale
    have hlt : (ss.filter (keepSlot num)).length < ss.length := by
      refine List.length_filter_lt_length_iff_exists.mpr ?_
      exact ⟨some sale, hm, by simp [keepSlot, hn]⟩
    have hlen := congrArg List.length heq
    rw [reifySales_length hfilterok, reifySales_length hss,
      show LINE_RECORD_LENGTH = 501 from rfl] at hlen
    omega

/-- Witness for C10: one sale referencing a vin absent from an empty cars
index; the failed revert leaves the sales file without the sale. -/
theorem claim_C10_revert_no_rollback_witness :
    revert_sale ⟨[], [], reifyCars [], reifyIdx [], reifySales [some wsaleC2], []⟩
        (toChars "S001") =
      (⟨[], [], reifyCars [], reifyIdx [],
        reifySales ([some wsaleC2].filter (keepSlot (toChars "S001"))),
        reifyIdx (absRebuild ([some wsaleC2].filter (keepSlot (toChars "S001"))))⟩,
       .error (.linkedCarNotFound (toChars "VIN001"))) ∧
    reifySales ([some wsaleC2].filter (keepSlot (toChars "S001"))) ≠
      reifySales [some wsaleC2] :=
  claim_C10_revert_no_rollback [] [] [] [] [] [some wsaleC2] (toChars "S001") wsaleC2
    (by decide) (by decide) (by decide) (by decide) (by decide) (by decide)

theorem strip_model_core (m : Model) (h : m.Valid) :
    stripChars (joinC '|' (modelFields m)) = joinC '|' (modelFields m) := by
  have h1 := strip_model_record m h
  unfold model_to_string at h1
  rwa [stripChars_ljust] at h1

theorem string_to_model_core (m : Model) (h : m.Valid) :
    string_to_model (joinC '|' (modelFields m)) = some m := by
  have hsplit : splitOnC '|' (stripChars (joinC '|' (modelFields m))) = modelFields m := by
    rw [strip_model_core m h]
    exact splitOnC_joinC (by simp [modelFields]) (pipe_free_modelFields m h)
  unfold string_to_model
  rw [hsplit]
  cases hy : m.production_start_year with
  | none =>
    cases hp : m.price with
    | none =>
      simp only [modelFields, hy, hp, Option.map_none', Option.getD_none]
      simp [parseInt_intToChars, ← hy, ← hp]
    | some f =>
      simp only [modelFields, hy, hp, Option.map_none', Option.getD_none,
        Option.map_some', Option.getD_some]
      simp [parseInt_intToChars, parseFloat_floatChars, floatChars_ne_nil f, ← hy, ← hp]
  | some y =>
    cases hp : m.price with
    | none =>
      simp only [modelFields, hy, hp, Option.map_none', Option.getD_none,
        Option.map_some', Option.getD_some]
      simp [parseInt_intToChars, intToChars_ne_nil y, ← hy, ← hp]
    | some f =>
      simp only [modelFields, hy, hp, Option.map_some', Option.getD_some]
      simp [parseInt_intToChars, parseFloat_floatChars, intToChars_ne_nil y,
        floatChars_ne_nil f, ← hy, ← hp]

theorem joinC_modelFields_ne_nil (m : Model) : joinC '|' (modelFields m) ≠ [] := by
  show intToChars m.id ++ '|' :: (m.name ++ '|' :: (m.brand ++ '|' ::
    ((m.production_start_year.map intToChars).getD [] ++ '|' ::
      (m.price.map floatChars).getD []))) ≠ []
  simp

theorem modelSlotChars_take {s : Option Model} (h : ModelSlotOk s) :
    (modelSlotChars s).take RECORD_LENGTH =
      (match s with
       | some m => model_to_string m
       | none => List.replicate RECORD_LENGTH ' ') := by
  cases s with
  | none =>
    show (List.replicate RECORD_LENGTH ' ' ++ ['\n']).take RECORD_LENGTH = _
    rw [List.take_append_of_le_length (by simp), List.take_of_length_le (by simp)]
  | some m =>
    show (model_to_string m ++ ['\n']).take RECORD_LENGTH = model_to_string m
    rw [List.take_append_of_le_length (model_to_string_length (modelSlotOk_some h)).symm.le,
      ← model_to_string_length (modelSlotOk_some h), List.take_length]

theorem get_model_by_id_reify {ms : List (Option Model)} {mis : List IdxEntry}
    (hms : ∀ s ∈ ms, ModelSlotOk s) (hmis : ∀ e ∈ mis, WfKey e.1 ∧ e.2 < ms.length)
    (mid : Int) :
    get_model_by_id (reifyModels ms) (reifyIdx mis) mid =
      .ok (absGetModel ms mis mid) := by
  cases hlook : lookupEntries mis (intToChars mid) with
  | none =>
    unfold get_model_by_id absGetModel
    rw [find_line_number_in_index_reify mis (fun e he => (hmis e he).1) (intToChars mid),
      hlook]
    rfl
  | some i =>
    have hi : i < ms.length := (hmis _ (lookupEntries_mem hlook)).2
    unfold get_model_by_id absGetModel
    rw [find_line_number_in_index_reify mis (fun e he => (hmis e he).1) (intToChars mid),
      hlook]
    simp only [Option.map_some']
    rw [if_neg (by simp)]
    have hlens : ∀ l ∈ ms.map modelSlotChars, l.length = LINE_RECORD_LENGTH := by
      intro l hl
      obtain ⟨s, hs, rfl⟩ := List.mem_map.mp hl
      exact modelSlotChars_length (hms s hs)
    have hread : readAt (reifyModels ms) ((Int.ofNat i).toNat * LINE_RECORD_LENGTH)
        RECORD_LENGTH = (modelSlotChars (ms.getD i none)).take RECORD_LENGTH := by
      unfold reifyModels
      rw [show (Int.ofNat i).toNat = i from rfl, readAt_flatten hlens i (by simpa using hi),
        getD_map_of_lt modelSlotChars ms i hi]
    rw [hread]
    show _ = Except.ok (ms.getD i none)
    cases hslot : ms.getD i none with
    | none =>
      rw [modelSlotChars_take (by simp [ModelSlotOk])]
      rw [strip_blank]
    | some m =>
      have hmem : some m ∈ ms := by
        rw [List.getD_eq_getElem ms none hi] at hslot
        exact hslot ▸ List.getElem_mem hi
      have hv : m.Valid := modelSlotOk_some (hms _ hmem)
      rw [modelSlotChars_take (hms _ hmem), strip_model_record m hv]
      obtain ⟨c0, rest0, hcons⟩ := List.exists_cons_of_ne_nil (joinC_modelFields_ne_nil m)
      rw [hcons]
      show (match string_to_model (c0 :: rest0) with
            | none => Except.ok none
            | some mm => Except.ok (some mm)) = Except.ok (some m)
      rw [← hcons, string_to_model_core m hv]

theorem get_model_price_reify {ms : List (Option Model)} {mis : List IdxEntry}
    (hms : ∀ s ∈ ms, ModelSlotOk s) (hmis : ∀ e ∈ mis, WfKey e.1 ∧ e.2 < ms.length)
    (mid : Int) :
    get_model_price (reifyModels ms) (reifyIdx mis) mid =
      .ok (absModelPrice ms mis mid) := by
  unfold get_model_price absModelPrice
  rw [get_model_by_id_reify hms hmis mid]
  cases habs : absGetModel ms mis mid <;> rfl

theorem strip_carSlot_blank : stripChars (carSlotChars none) = [] := strip_blank_line

theorem strip_carSlot_some {c : Car} (h : c.Valid) :
    stripChars (carSlotChars (some c)) = joinC '|' (carFields c) := strip_car_line h

theorem carVinToModel_aux (cs : List (Option Car)) (hcs : ∀ s ∈ cs, CarSlotOk s) :
    ∀ acc : List (List Char × Int),
      (cs.map carSlotChars).foldl (fun m line =>
        if stripChars line = [] then m
        else match string_to_car line with
          | none => m
          | some car => assocPut m car.vin car.model) acc =
      cs.foldl (fun m slot =>
        match slot with
        | none => m
        | some car => assocPut m car.vin car.model) acc := by
  induction cs with
  | nil => intro acc; rfl
  | cons slot rest ih =>
    intro acc
    have ihr := ih (fun s hs => hcs s (List.mem_cons_of_mem slot hs))
    simp only [List.map_cons, List.foldl_cons]
    cases slot with
    | none =>
      rw [if_pos strip_carSlot_blank]
      exact ihr acc
    | some c =>
      have hv := carSlotOk_some (hcs _ (List.mem_cons_self _ _))
      rw [if_neg (by rw [strip_carSlot_some hv]; exact joinC_carFields_ne_nil c)]
      rw [string_to_car_of_strip hv (strip_carSlot_some hv)]
      exact ihr _

theorem carVinToModel_reify {cs : List (Option Car)} (hcs : ∀ s ∈ cs, CarSlotOk s) :
    carVinToModel (splitKeep (reifyCars cs)) = absVinMap cs := by
  unfold carVinToModel absVinMap
  rw [splitKeep_reifyCars hcs]
  exact carVinToModel_aux cs hcs []

theorem modelSalesCount_aux (vm : List (List Char × Int)) (ss : List (Option Sale))
    (hss : ∀ s ∈ ss, SaleSlotOk s) :
    ∀ acc : List (Int × Nat),
      (ss.map saleSlotChars).foldl (fun t line =>
        if stripChars line = [] then t
        else match string_to_sale line with
          | none => t
          | some sale =>
            match assocGet vm sale.car_vin with
            | none => t
            | some mid => bumpCount t mid) acc =
      ss.foldl (fun t slot =>
        match slot with
        | none => t
        | some sale =>
          match assocGet vm sale.car_vin with
          | none => t
          | some mid => bumpCount t mid) acc := by
  induction ss with
  | nil => intro acc; rfl
  | cons slot rest ih =>
    intro acc
    have ihr := ih (fun s hs => hss s (List.mem_cons_of_mem slot hs))
    simp only [List.map_cons, List.foldl_cons]
    cases slot with
    | none =>
      rw [if_pos strip_saleSlot_blank]
      exact ihr acc
    | some s =>
      have hv := saleSlotOk_some (hss _ (List.mem_cons_self _ _))
      rw [if_neg (by rw [strip_saleSlot_some hv]; exact joinC_saleFields_ne_nil s)]
      rw [string_to_sale_of_strip hv (strip_saleSlot_some hv)]
      exact ihr _

theorem modelSalesCount_reify {cs : List (Option Car)} {ss : List (Option Sale)}
    (hcs : ∀ s ∈ cs, CarSlotOk s) (hss : ∀ s ∈ ss, SaleSlotOk s) :
    modelSalesCount (carVinToModel (splitKeep (reifyCars cs)))
      (splitKeep (reifySales ss)) = absTally cs ss := by
  unfold modelSalesCount absTally
  rw [splitKeep_reifySales hss, carVinToModel_reify hcs]
  exact modelSalesCount_aux (absVinMap cs) ss hss []

theorem mapMExcept_ok {α β : Type} (f : α → Except PyErr β) (g : α → β)
    (hf : ∀ a, f a = .ok (g a)) : ∀ l, mapMExcept f l = .ok (l.map g) := by
  intro l
  induction l with
  | nil => rfl
  | cons x xs ih => simp only [mapMExcept, hf, ih, List.map_cons]

theorem collectStats_reify {ms : List (Option Model)} {mis : List IdxEntry}
    (hms : ∀ s ∈ ms, ModelSlotOk s) (hmis : ∀ e ∈ mis, WfKey e.1 ∧ e.2 < ms.length) :
    ∀ l, collectStats (reifyModels ms) (reifyIdx mis) l = .ok (absCollect ms mis l) := by
  intro l
  induction l with
  | nil => rfl
  | cons x xs ih =>
    simp only [collectStats, get_model_by_id_reify hms hmis, ih]
    cases habs : absGetModel ms mis x.1.1 <;> simp only [absCollect, habs]

theorem pyFloatLe_total (a b : PyFloat) : PyFloat.le a b = true ∨ PyFloat.le b a = true := by
  unfold PyFloat.le
  rcases le_total (a.mantissa * (10 : Int) ^ b.scale) (b.mantissa * (10 : Int) ^ a.scale)
    with h | h
  · left; exact decide_eq_true h
  · right; exact decide_eq_true h

theorem pyFloatLe_trans {a b c : PyFloat} (h1 : PyFloat.le a b = true)
    (h2 : PyFloat.le b c = true) : PyFloat.le a c = true := by
  unfold PyFloat.le at h1 h2 ⊢
  rw [decide_eq_true_eq] at h1 h2 ⊢
  have hpos : ∀ n : Nat, (0 : Int) < 10 ^ n := fun n => pow_pos (by norm_num) n
  have h1' := mul_le_mul_of_nonneg_right h1 (le_of_lt (hpos c.scale))
  have h2' := mul_le_mul_of_nonneg_right h2 (le_of_lt (hpos a.scale))
  have hchain : a.mantissa * 10 ^ b.scale * 10 ^ c.scale ≤
      c.mantissa * 10 ^ b.scale * 10 ^ a.scale := by
    calc a.mantissa * 10 ^ b.scale * 10 ^ c.scale
        ≤ b.mantissa * 10 ^ a.scale * 10 ^ c.scale := h1'
      _ = b.mantissa * 10 ^ c.scale * 10 ^ a.scale := by ring
      _ ≤ c.mantissa * 10 ^ b.scale * 10 ^ a.scale := h2'
  have hre : a.mantissa * 10 ^ c.scale * 10 ^ b.scale ≤
      c.mantissa * 10 ^ a.scale * 10 ^ b.scale := by
    calc a.mantissa * 10 ^ c.scale * 10 ^ b.scale
        = a.mantissa * 10 ^ b.scale * 10 ^ c.scale := by ring
      _ ≤ c.mantissa * 10 ^ b.scale * 10 ^ a.scale := hchain
      _ = c.mantissa * 10 ^ a.scale * 10 ^ b.scale := by ring
  exact le_of_mul_le_mul_right hre (hpos b.scale)

theorem topKeyLe_total (a b : Int × PyFloat) :
    topKeyLe a b = true ∨ topKeyLe b a = true := by
  unfold topKeyLe
  rcases lt_trichotomy a.1 b.1 with h | h | h
  · left; simp [h]
  · rcases pyFloatLe_total a.2 b.2 with hf | hf
    · left; simp [h, hf]
    · right; simp [h, hf]
  · right; simp [h]

theorem topKeyLe_trans (a b c : Int × PyFloat) (h1 : topKeyLe a b = true)
    (h2 : topKeyLe b c = true) : topKeyLe a c = true := by
  unfold topKeyLe at h1 h2 ⊢
  simp only [Bool.or_eq_true, Bool.and_eq_true, decide_eq_true_eq] at h1 h2 ⊢
  rcases h1 with h1 | ⟨h1e, h1f⟩
  · rcases h2 with h2 | ⟨h2e, _⟩
    · exact Or.inl (lt_trans h1 h2)
    · exact Or.inl (lt_of_lt_of_le h1 (le_of_eq h2e))
  · rcases h2 with h2 | ⟨h2e, h2f⟩
    · exact Or.inl (lt_of_le_of_lt (le_of_eq h1e) h2)
    · exact Or.inr ⟨h1e.trans h2e, pyFloatLe_trans h1f h2f⟩

theorem bumpCount_pos {l : List (Int × Nat)} (hl : ∀ p ∈ l, 1 ≤ p.2) (k : Int) :
    ∀ p ∈ bumpCount l k, 1 ≤ p.2 := by
  intro p hp
  unfold bumpCount at hp
  cases hg : assocGet l k with
  | none =>
    rw [hg] at hp
    rcases List.mem_append.mp hp with h | h
    · exact hl p h
    · rw [List.mem_singleton.mp h]
  | some c =>
    rw [hg] at hp
    obtain ⟨q, hq, hpq⟩ := List.mem_map.mp hp
    by_cases hqk : q.1 = k
    · rw [if_pos hqk] at hpq
      rw [← hpq]
      exact Nat.le_add_left 1 c
    · rw [if_neg hqk] at hpq
      rw [← hpq]
      exact hl q hq

theorem tally_fold_pos (cs : List (Option Car)) (ss : List (Option Sale)) :
    ∀ acc : List (Int × Nat), (∀ p ∈ acc, 1 ≤ p.2) →
      ∀ p ∈ ss.foldl (fun t slot =>
        match slot with
        | none => t
        | some sale =>
          match assocGet (absVinMap cs) sale.car_vin with
          | none => t
          | some mid => bumpCount t mid) acc, 1 ≤ p.2 := by
  induction ss with
  | nil => intro acc hacc; exact hacc
  | cons slot rest ih =>
    intro acc hacc
    simp only [List.foldl_cons]
    cases slot with
    | none => exact ih acc hacc
    | some sale =>
      refine ih _ ?_
      cases hg : assocGet (absVinMap cs) sale.car_vin with
      | none => simp only [hg]; exact hacc
      | some mid => simp only [hg]; exact bumpCount_pos hacc mid

theorem absTally_pos (cs : List (Option Car)) (ss : List (Option Sale)) :
    ∀ p ∈ absTally cs ss, 1 ≤ p.2 := by
  unfold absTally
  exact tally_fold_pos cs ss [] (by simp)

theorem absCollect_length_le (ms : List (Option Model)) (mis : List IdxEntry) :
    ∀ l, (absCollect ms mis l).length ≤ l.length := by
  intro l
  induction l with
  | nil => simp [absCollect]
  | cons x xs ih =>
    cases h : absGetModel ms mis x.1.1 with
    | none =>
      simp only [absCollect, h]
      exact le_trans ih (Nat.le_succ _)
    | some m =>
      simp only [absCollect, h, List.length_cons]
      exact Nat.succ_le_succ ih

theorem absCollect_counts (ms : List (Option Model)) (mis : List IdxEntry) :
    ∀ l, ∀ st ∈ absCollect ms mis l, ∃ x ∈ l, st.sales_count = x.1.2 := by
  intro l
  induction l with
  | nil => intro st hst; simp [absCollect] at hst
  | cons x xs ih =>
    intro st hst
    cases h : absGetModel ms mis x.1.1 with
    | none =>
      simp only [absCollect, h] at hst
      obtain ⟨y, hy, he⟩ := ih st hst
      exact ⟨y, List.mem_cons_of_mem _ hy, he⟩
    | some m =>
      simp only [absCollect, h] at hst
      rcases List.mem_cons.mp hst with he | hmem
      · exact ⟨x, List.mem_cons_self _ _, by rw [he]⟩
      · obtain ⟨y, hy, he⟩ := ih st hmem
        exact ⟨y, List.mem_cons_of_mem _ hy, he⟩

/-- C6: on a well-formed store, top_models_by_sales computes exactly the
abstract aggregation (one tally per sale whose vin resolves through the
cars file, keys (minus count, price with 0.0 default), stable sort, top
three resolved to (name, brand, count)); the result has at most three
entries, every returned sales count is at least one, and the chosen keyed
prefix is sorted by count descending with ascending price as tie-break. -/
theorem claim_C6_top_models (ms : List (Option Model)) (mis : List IdxEntry)
    (cs : List (Option Car)) (ss : List (Option Sale)) (cidx sidx : List Char)
    (hms : ∀ s ∈ ms, ModelSlotOk s)
    (hmis : ∀ e ∈ mis, WfKey e.1 ∧ e.2 < ms.length)
    (hcs : ∀ s ∈ cs, CarSlotOk s)
    (hss : ∀ s ∈ ss, SaleSlotOk s) :
    top_models_by_sales ⟨reifyModels ms, reifyIdx mis, reifyCars cs, cidx,
        reifySales ss, sidx⟩ = .ok (absTopModels ms mis cs ss) ∧
    (absTopModels ms mis cs ss).length ≤ 3 ∧
    (∀ st ∈ absTopModels ms mis cs ss, 1 ≤ st.sales_count) ∧
    ((sortBy (fun x y => topKeyLe x.2 y.2) ((absTally cs ss).map
        (fun p => (p, (-(p.2 : Int), absModelPrice ms mis p.1))))).take 3).Pairwise
      (fun x y => topKeyLe x.2 y.2 = true) := by
  have hsorted : (sortBy (fun x y : (Int × Nat) × (Int × PyFloat) => topKeyLe x.2 y.2)
      ((absTally cs ss).map
        (fun p => (p, (-(p.2 : Int), absModelPrice ms mis p.1))))).Pairwise
      (fun x y => topKeyLe x.2 y.2 = true) :=
    sortBy_sorted
      (fun (a b c : (Int × Nat) × (Int × PyFloat)) h1 h2 =>
        topKeyLe_trans a.2 b.2 c.2 h1 h2)
      (fun (a b : (Int × Nat) × (Int × PyFloat)) => topKeyLe_total a.2 b.2) _
  refine ⟨?_, ?_, ?_, ?_⟩
  · have htally := modelSalesCount_reify hcs hss
    have hmapm := mapMExcept_ok
      (fun p : Int × Nat =>
        match get_model_price (reifyModels ms) (reifyIdx mis) p.1 with
        | .error e => .error e
        | .ok pr => .ok ((p, (-(p.2 : Int), pr)) : (Int × Nat) × (Int × PyFloat)))
      (fun p : Int × Nat =>
        ((p, (-(p.2 : Int), absModelPrice ms mis p.1)) : (Int × Nat) × (Int × PyFloat)))
      (fun p => by simp only [get_model_price_reify hms hmis])
      (absTally cs ss)
    have hcollect := collectStats_reify hms hmis
    unfold top_models_by_sales absTopModels
    simp only [htally, hmapm, hcollect]
  · unfold absTopModels
    exact le_trans (absCollect_length_le ms mis _)
      (by rw [List.length_take]; exact min_le_left _ _)
  · intro st hst
    unfold absTopModels at hst
    obtain ⟨x, hx, he⟩ := absCollect_counts ms mis _ st hst
    have hx2 := List.mem_of_mem_take hx
    have hx3 := (sortBy_perm _ _).mem_iff.mp hx2
    obtain ⟨p, hp, hxp⟩ := List.mem_map.mp hx3
    rw [he, ← hxp]
    exact absTally_pos cs ss p hp
  · exact List.Pairwise.sublist (List.take_sublist 3 _) hsorted

/-- Witness for C6 at a store with three models (5-sale-scenario shrunk to
counts 2, 2, 1 and prices 2000.0 and 2500.0 on the tied models). -/
theorem claim_C6_top_models_witness :
    top_models_by_sales ⟨reifyModels wmsC6, reifyIdx wmisC6, reifyCars wcsC6, [],
        reifySales wssC6, []⟩ = .ok (absTopModels wmsC6 wmisC6 wcsC6 wssC6) :=
  (claim_C6_top_models wmsC6 wmisC6 wcsC6 wssC6 [] []
    (by decide) (by decide) (by decide) (by decide)).1

end Bibip

